import Mathlib

/-!
# Sokoban breadth-first solver: shallow embedding

The embedding follows `sokoban-sequencial.c` function by function. Of
`sokoban-paralelizado.c` it embeds the explicit-stack flood fill
(`mark_live_iterative`, and `par_run` for interleavings of its concurrent
calls) and the table growth into a fresh array (`par_extend_table`).

Conventions of the embedding.
* A state slot of the arena is addressed by a natural number; a nullable
  pointer is an `Option Nat`.
* A singly linked chain (the free list through `next`, a bucket chain through
  `next`, the frontier through `qnext`, the block list) is represented by the
  list of the slots it visits, head first.
* `cidx_t` is 16 bits and `hash_t` is 32 bits: stores into them are reduced
  modulo `2^16` and `2^32`.
* The byte arrays `board`, `goals`, `live` are lists of length `w * h`. A read
  outside an array is outside the C semantics; the embedding reads `0` there and
  drops a write there. Results that depend on such an access carry an in-grid
  hypothesis.
-/

namespace Sokoban

/-- Board cell kind `space` of the source enum. -/
def space : Nat := 0

/-- Board cell kind `wall` of the source enum. -/
def wall : Nat := 1

/-- Read `a[i]` for a natural index. -/
def rd (a : List Nat) (i : Nat) : Nat := a.getD i 0

/-- Read `a[i]` for a C `int` index. -/
def rdI (a : List Nat) (i : Int) : Nat := if i < 0 then 0 else a.getD i.toNat 0

/-- The globals `w`, `h`, `n_boxes`, `board`, `goals`, `live`. -/
structure Board where
  w : Nat
  h : Nat
  n_boxes : Nat
  board : List Nat
  goals : List Nat
  live : List Nat
deriving DecidableEq

/-- The fields `h`, `prev` and `c[]` of a `state_t` slot; the links `next` and
`qnext` are carried by the lists of `Machine`. -/
structure Slot where
  h : Nat
  prev : Option Nat
  c : List Nat
deriving DecidableEq

instance : Inhabited Slot := ⟨⟨0, none, []⟩⟩

/-- The mutable globals of the program together with the arena memory. -/
structure Machine where
  mem : Nat → Slot
  block_size : Nat
  block_root : List Nat
  block_head : List Nat
  brk : Nat
  buckets : List (List Nat)
  hash_size : Nat
  fill_limit : Nat
  filled : Nat
  next_level : List Nat
  done : Option Nat

/-- Store `v` in slot `p` of the memory. -/
def upd (mem : Nat → Slot) (p : Nat) (v : Slot) : Nat → Slot :=
  fun q => if q = p then v else mem q

/-- The program state at start-up: zero-initialised globals, `block_size = 32`,
memory contents `mem`, first address handed out by `malloc` equal to `brk`. -/
def Machine.start (mem : Nat → Slot) (brk : Nat) : Machine :=
  { mem := mem, block_size := 32, block_root := [], block_head := [], brk := brk,
    buckets := [], hash_size := 0, fill_limit := 0, filled := 0,
    next_level := [], done := none }

/-! ## State arena allocator -/

/-- The block branch of `newstate`: when the free list is empty, double
`block_size`, take a fresh block of `block_size` slots at `brk`, link its first
slot into the block list and thread the remaining slots into the free list. -/
def grow_arena (m : Machine) : Machine :=
  match m.block_head with
  | [] =>
    let bs := m.block_size * 2
    let p := m.brk
    { m with block_size := bs, brk := p + bs, block_root := p :: m.block_root,
             block_head := (p + 1) :: (List.range (bs - 2)).map (fun k => p + 2 + k) }
  | _ :: _ => m

/-- `newstate(parent)`: pop the free list head, set `prev = parent`, `h = 0`. -/
def newstate (m : Machine) (parent : Option Nat) : Nat × Machine :=
  let m1 := grow_arena m
  let ptr := m1.block_head.headD 0
  (ptr, { m1 with block_head := m1.block_head.tail,
                  mem := upd m1.mem ptr { m1.mem ptr with prev := parent, h := 0 } })

/-- `unnewstate(p)`: push `p` on the free list. -/
def unnewstate (m : Machine) (p : Nat) : Machine :=
  { m with block_head := p :: m.block_head }

/-! ## Reachability analysis -/

/-- The four guarded neighbours of `mark_live`, in source order: up, down,
left, right. -/
def live_next (b : Board) (c : Nat) : List Nat :=
  let y : Int := ((c / b.w : Nat) : Int)
  let x : Int := ((c % b.w : Nat) : Int)
  (if y > 1 ∧ rd b.board (c - b.w) ≠ wall ∧ rd b.board (c - b.w * 2) ≠ wall
    then [c - b.w] else []) ++
  (if y < (b.h : Int) - 2 ∧ rd b.board (c + b.w) ≠ wall ∧ rd b.board (c + b.w * 2) ≠ wall
    then [c + b.w] else []) ++
  (if x > 1 ∧ rd b.board (c - 1) ≠ wall ∧ rd b.board (c - 2) ≠ wall
    then [c - 1] else []) ++
  (if x < (b.w : Int) - 2 ∧ rd b.board (c + 1) ≠ wall ∧ rd b.board (c + 2) ≠ wall
    then [c + 1] else [])

/-- Run the calls `f live n` for the cells `n` of a list in order, threading the
array; `none` as soon as one call gives `none`. -/
def chain_calls (f : List Nat → Nat → Option (List Nat)) :
    List Nat → List Nat → Option (List Nat)
  | live, [] => some live
  | live, n :: ns =>
    match f live n with
    | none => none
    | some live1 => chain_calls f live1 ns

/-- The recursive `mark_live(c)` of the sequential program on the array `live`;
`fuel` bounds the recursion depth and `none` means the bound was reached. The
four guarded recursive calls are the calls on `live_next b c`, in order. -/
def mark_live (b : Board) : Nat → List Nat → Nat → Option (List Nat)
  | 0, _, _ => none
  | fuel + 1, live, c =>
    if rd live c ≠ 0 then some live
    else chain_calls (mark_live b fuel) (live.set c 1) (live_next b c)


/-- The calls of `chain_calls` for a function that also counts: the array is
threaded and the two counters are added up. -/
def chain_counts (f : List Nat → Nat → Option (List Nat × Nat × Nat)) :
    List Nat → List Nat → Option (List Nat × Nat × Nat)
  | live, [] => some (live, 0, 0)
  | live, n :: ns =>
    match f live n with
    | none => none
    | some (live1, k1, n1) =>
      match chain_counts f live1 ns with
      | none => none
      | some (live2, k2, n2) => some (live2, k1 + k2, n1 + n2)

/-- The recursive `mark_live(c)` with two ghost counters: the number of calls
that execute `live[c] = 1` and the total number of calls. -/
def mark_live_counts (b : Board) : Nat → List Nat → Nat → Option (List Nat × Nat × Nat)
  | 0, _, _ => none
  | fuel + 1, live, c =>
    if rd live c ≠ 0 then some (live, 0, 1)
    else
      match chain_counts (mark_live_counts b fuel) (live.set c 1) (live_next b c) with
      | none => none
      | some (live1, k, n) => some (live1, k + 1, n + 1)

/-- Result of the explicit-stack flood fill: the filled array, a push beyond
the `w * h` entries of `stack`, or the iteration bound of the embedding. -/
inductive Fill where
  | ok (live : List Nat)
  | overflow
  | out_of_fuel
deriving DecidableEq

/-- The pushes `stack[++top] = n` for the cells of a list in order, on a stack
of `cap` entries (top of stack first); `none` when a push has `top = cap`. -/
def push_all (cap : Nat) : List Nat → List Nat → Option (List Nat)
  | st, [] => some st
  | st, n :: ns => if st.length < cap then push_all cap (n :: st) ns else none

/-- The `while (top >= 0)` loop of `mark_live_iterative`. -/
def fill_loop (b : Board) : Nat → List Nat → List Nat → Fill
  | 0, _, _ => Fill.out_of_fuel
  | _ + 1, live, [] => Fill.ok live
  | fuel + 1, live, c :: st =>
    if rd live c ≠ 0 then fill_loop b fuel live st
    else
      match push_all (b.w * b.h) st (live_next b c) with
      | none => Fill.overflow
      | some st1 => fill_loop b fuel (live.set c 1) st1

/-- The function `mark_live_iterative(start)` of the parallel program. -/
def mark_live_iterative (b : Board) (fuel : Nat) (live : List Nat) (start : Nat) : Fill :=
  match push_all (b.w * b.h) [] [start] with
  | none => Fill.overflow
  | some st => fill_loop b fuel live st

/-- The loop `for (i = 0; i < w * h; i++) if (goals[i]) mark_live_iterative(i)`
of `parse_board` in the parallel program, its iterations run in index order by
one thread; `k` iterations remain and `i` is the current index. -/
def seed_iterative (b : Board) (fuel : Nat) : Nat → Nat → List Nat → Fill
  | 0, _, live => Fill.ok live
  | k + 1, i, live =>
    if rd b.goals i ≠ 0 then
      match mark_live_iterative b fuel live i with
      | Fill.ok live1 => seed_iterative b fuel k (i + 1) live1
      | r => r
    else seed_iterative b fuel k (i + 1) live

/-- One task of the `omp parallel for` of `parse_board` in the parallel
program: a call of `mark_live_iterative` in progress. `stack` is its private
stack, top first; `pending` holds the cell that it has popped and read as
unmarked, when its next action is the write `live[c] = 1` and the pushes. -/
structure Task where
  stack : List Nat
  pending : Option Nat
deriving DecidableEq

/-- The next action of a task on the shared `live` array: the pop of a cell
with the read of its flag, or the write of the flag of the pending cell with the
pushes of its guarded neighbours; `none` when a push has `top = w * h`. A task
whose stack is empty has returned and does nothing. -/
def task_step (b : Board) (live : List Nat) (t : Task) : Option (List Nat × Task) :=
  match t.pending with
  | some c =>
    match push_all (b.w * b.h) t.stack (live_next b c) with
    | none => none
    | some st => some (live.set c 1, { stack := st, pending := none })
  | none =>
    match t.stack with
    | [] => some (live, t)
    | c :: st =>
      if rd live c ≠ 0 then some (live, { stack := st, pending := none })
      else some (live, { stack := st, pending := some c })

/-- A configuration of the concurrent fills: the shared array and the tasks, or
a push beyond the stack of a task. -/
inductive Par where
  | run (live : List Nat) (tasks : List Task)
  | overflow
deriving DecidableEq

/-- An interleaving of the tasks: the schedule lists, action by action, which
task acts next. -/
def par_run (b : Board) : List Nat → List Nat → List Task → Par
  | [], live, ts => Par.run live ts
  | i :: sched, live, ts =>
    match ts.get? i with
    | none => par_run b sched live ts
    | some t =>
      match task_step b live t with
      | none => Par.overflow
      | some (live1, t1) => par_run b sched live1 (ts.set i t1)

/-- The tasks of the loop `for (i = 0; i < w * h; i++) if (goals[i])
mark_live_iterative(i)`, one per goal cell, each after its first push
`stack[++top] = start`. -/
def spawn (b : Board) : List Task :=
  ((List.range (b.w * b.h)).filter (fun i => rd b.goals i ≠ 0)).map
    (fun g => { stack := [g], pending := none })

/-! ## Layout parsing -/

/-- The terminating character of a C string. -/
def nul : Char := Char.ofNat 0

/-- The first loop of `parse_board`: walls, goals and the box count, over the
characters of the layout up to its terminator, starting at index `i`. -/
def scan_board : List Char → Nat → List Nat × List Nat × Nat → List Nat × List Nat × Nat
  | [], _, acc => acc
  | ch :: rest, i, (bd, gl, n) =>
    if ch = nul then (bd, gl, n)
    else if ch = '#' then scan_board rest (i + 1) (bd.set i wall, gl, n)
    else if ch = '.' ∨ ch = '+' then scan_board rest (i + 1) (bd, gl.set i 1, n)
    else if ch = '*' then scan_board rest (i + 1) (bd, gl.set i 1, n + 1)
    else if ch = '$' then scan_board rest (i + 1) (bd, gl, n + 1)
    else scan_board rest (i + 1) (bd, gl, n)

/-- The `1 + n_boxes` cells of a slot whose `c` field holds `c`. -/
def cells_of (n_boxes : Nat) (c : List Nat) : List Nat :=
  (List.range (n_boxes + 1)).map (fun i => c.getD i 0)

/-- The second loop of `parse_board`: for each cell index seed the flood fill at
a goal and record box and actor cells; the loop state is the `live` array, the
cells of the initial state and the box counter `j`; `k` iterations remain. -/
def place_loop (b : Board) (s : List Char) (fuel : Nat) :
    Nat → Nat → List Nat × List Nat × Nat → Option (List Nat × List Nat × Nat)
  | 0, _, acc => some acc
  | k + 1, i, (live, cs, j) =>
    match (if rd b.goals i ≠ 0 then mark_live b fuel live i else some live) with
    | none => none
    | some live1 =>
      let ch := s.getD i nul
      if ch = '$' ∨ ch = '*' then
        place_loop b s fuel k (i + 1) (live1, cs.set (j + 1) (i % 65536), j + 1)
      else if ch = '@' ∨ ch = '+' then
        place_loop b s fuel k (i + 1) (live1, cs.set 0 (i % 65536), j)
      else place_loop b s fuel k (i + 1) (live1, cs, j)

/-- The globals after the first loop of `parse_board`: `board`, `goals` and
`n_boxes` scanned from the layout, `live` still zero-filled by `calloc`. -/
def scanned (w h : Nat) (s : List Char) : Board :=
  let z := List.replicate (w * h) 0
  let r := scan_board s 0 (z, z, 0)
  { w := w, h := h, n_boxes := r.2.2, board := r.1, goals := r.2.1, live := z }

/-- The function `parse_board(s)` for the globals `w` and `h` set by `main`: the
board globals, the initial state and the machine after `newstate(NULL)`. -/
def parse_board (w h : Nat) (s : List Char) (fuel : Nat) (m : Machine) :
    Option (Board × Nat × Machine) :=
  let b0 := scanned w h s
  let a := newstate m none
  match place_loop b0 s fuel (w * h) 0
      (List.replicate (w * h) 0, cells_of b0.n_boxes (a.2.mem a.1).c, 0) with
  | none => none
  | some (live, cs, _) =>
    some ({ b0 with live := live }, a.1,
          { a.2 with mem := upd a.2.mem a.1 { a.2.mem a.1 with c := cs } })

/-! ## State hash table -/

/-- The loop of `hash`: `ha = p[i] + 31 * ha` over `i = 0 .. n_boxes` in 32 bits. -/
def digest (n_boxes : Nat) (c : List Nat) : Nat :=
  (List.range (n_boxes + 1)).foldl (fun ha i => (c.getD i 0 + 31 * ha) % 2 ^ 32) 0

/-- `hash(s)`: fill the cached digest when it is `0`. -/
def hash (b : Board) (m : Machine) (s : Nat) : Machine :=
  if (m.mem s).h = 0 then
    { m with mem := upd m.mem s { m.mem s with h := digest b.n_boxes (m.mem s).c } }
  else m

/-- The inner `while (head)` loop of `extend_table`: move the states of one old
chain to the head of their new buckets. -/
def rehash_chain (mem : Nat → Slot) (bits : Nat) : List Nat → List (List Nat) → List (List Nat)
  | [], bk => bk
  | head :: next, bk =>
    let j := (mem head).h &&& bits
    rehash_chain mem bits next (bk.set j (head :: bk.getD j []))

/-- The loop `for (i = 0; i < old_size; i++)` of `extend_table`, in place; `k`
iterations remain and `i` is the current bucket. -/
def rehash (mem : Nat → Slot) (bits : Nat) : Nat → Nat → List (List Nat) → List (List Nat)
  | 0, _, bk => bk
  | k + 1, i, bk => rehash mem bits k (i + 1) (rehash_chain mem bits (bk.getD i []) (bk.set i []))

/-- The function `extend_table()` of the sequential program. The conversion
`int old_size = hash_size` is the identity below `2^31`. -/
def extend_table (m : Machine) : Machine :=
  let old_size := m.hash_size
  let m1 : Machine :=
    if old_size = 0 then { m with hash_size := 1024, filled := 0, fill_limit := 1024 * 3 / 4 }
    else { m with hash_size := (m.hash_size * 2) % 2 ^ 32,
                  fill_limit := (m.fill_limit * 2) % 2 ^ 32 }
  let bk := m.buckets.take m1.hash_size ++ List.replicate (m1.hash_size - old_size) []
  let bits := (m1.hash_size + 2 ^ 32 - 1) % 2 ^ 32
  { m1 with buckets := rehash m1.mem bits old_size 0 bk }

/-- The loop `for (i = 0; i < old_size; i++)` of `extend_table` in the parallel
program, its iterations run in index order by one thread: the chains are read
from the old array `old` and their states moved into the new array; `k`
iterations remain and `i` is the current bucket. -/
def rehash_fresh (mem : Nat → Slot) (bits : Nat) (old : List (List Nat)) :
    Nat → Nat → List (List Nat) → List (List Nat)
  | 0, _, nb => nb
  | k + 1, i, nb => rehash_fresh mem bits old k (i + 1) (rehash_chain mem bits (old.getD i []) nb)

/-- The function `extend_table()` of the parallel program, run by one thread:
the new array comes zeroed from `calloc` and replaces the old one. -/
def par_extend_table (m : Machine) : Machine :=
  let old_size := m.hash_size
  let m1 : Machine :=
    if old_size = 0 then { m with hash_size := 1024, filled := 0, fill_limit := 1024 * 3 / 4 }
    else { m with hash_size := (m.hash_size * 2) % 2 ^ 32,
                  fill_limit := (m.fill_limit * 2) % 2 ^ 32 }
  let bits := (m1.hash_size + 2 ^ 32 - 1) % 2 ^ 32
  let new_buckets : List (List Nat) := List.replicate m1.hash_size []
  { m1 with buckets := rehash_fresh m1.mem bits m.buckets old_size 0 new_buckets }

/-- The comparison `!memcmp(s->c, f->c, sizeof(cidx_t) * (1 + n_boxes))`. -/
def same_cells (n_boxes : Nat) (c d : List Nat) : Bool :=
  cells_of n_boxes c = cells_of n_boxes d

/-- `lookup(s)`: the first state of the bucket of `s` with the cells of `s`. -/
def lookup (b : Board) (m : Machine) (s : Nat) : Option Nat × Machine :=
  let m1 := hash b m s
  let i := (m1.mem s).h &&& ((m1.hash_size + 2 ^ 32 - 1) % 2 ^ 32)
  ((m1.buckets.getD i []).find? (fun f => same_cells b.n_boxes (m1.mem s).c (m1.mem f).c), m1)

/-- `add_to_table(s)`. -/
def add_to_table (b : Board) (m : Machine) (s : Nat) : Bool × Machine :=
  let r := lookup b m s
  match r.1 with
  | some _ => (false, unnewstate r.2 s)
  | none =>
    let m1 := r.2
    let m2 : Machine := { m1 with filled := (m1.filled + 1) % 2 ^ 32 }
    let m3 := if m1.filled ≥ m1.fill_limit then extend_table m2 else m2
    let i := (m3.mem s).h &&& ((m3.hash_size + 2 ^ 32 - 1) % 2 ^ 32)
    (true, { m3 with buckets := m3.buckets.set i (s :: m3.buckets.getD i []) })

/-- `success(s)` on the cells of `s`: every box cell is a goal. -/
def success (b : Board) (c : List Nat) : Bool :=
  (List.range b.n_boxes).all (fun i => rd b.goals (c.getD (i + 1) 0) ≠ 0)

/-! ## Move generator -/

/-- The first loop of `move_me`: the least `i` in `1 .. n_boxes` with
`c[i] == c1`, or `0`. -/
def find_box (n_boxes : Nat) (c : List Nat) (c1 : Int) : Nat :=
  (((List.range n_boxes).map (fun i => i + 1)).find? (fun i => ((c.getD i 0 : Nat) : Int) = c1)).getD 0

/-- The inner loop `for (j = 1; j < i; j++)` of the sort of `move_me`, with `k`
iterations remaining, on the cells `p` and the scratch value `t`. -/
def bubble_inner : Nat → Nat → List Nat × Nat → List Nat × Nat
  | 0, _, pt => pt
  | k + 1, j, (p, t) =>
    if p.getD j 0 > p.getD (j + 1) 0 then
      bubble_inner k (j + 1) ((p.set j (p.getD (j + 1) 0)).set (j + 1) (p.getD j 0), p.getD j 0)
    else bubble_inner k (j + 1) (p, t)

/-- The outer loop `for (int i = n_boxes; --i;)` entered with the already
decremented positive value `i`: one pass for `j = 1 .. i - 1`, stop when `t` is
`0`, otherwise decrement and repeat until `i` is `0`. -/
def bubble_outer : Nat → List Nat → List Nat
  | 0, p => p
  | i + 1, p =>
    let r := bubble_inner i 1 (p, 0)
    if r.2 = 0 then r.1 else bubble_outer i r.1

/-- The sort of `move_me`. For `n_boxes = 0` the first `--i` gives `-1`, the
pass is empty and the loop breaks at once. -/
def bubble (n_boxes : Nat) (p : List Nat) : List Nat :=
  if n_boxes = 0 then p else bubble_outer (n_boxes - 1) p

/-- The function `move_me(s, dy, dx)`. -/
def move_me (b : Board) (m : Machine) (s : Nat) (dy dx : Int) : Option Nat × Machine :=
  let c := (m.mem s).c
  let y : Int := ((c.getD 0 0 / b.w : Nat) : Int)
  let x : Int := ((c.getD 0 0 % b.w : Nat) : Int)
  let y1 := y + dy
  let x1 := x + dx
  let c1 := y1 * b.w + x1
  if y1 < 0 ∨ y1 > b.h ∨ x1 < 0 ∨ x1 > b.w ∨ rdI b.board c1 = wall then (none, m)
  else
    let at_box := find_box b.n_boxes c c1
    let c2 := c1 + dy * b.w + dx
    if at_box ≠ 0 ∧ (rdI b.board c2 = wall ∨ rdI b.live c2 = 0 ∨
        (List.range b.n_boxes).any (fun i => ((c.getD (i + 1) 0 : Nat) : Int) = c2)) then (none, m)
    else
      let a := newstate m (some s)
      let n := a.1
      let m1 := a.2
      let p0 := (c1 % 65536).toNat :: (List.range b.n_boxes).map (fun i => (m1.mem s).c.getD (i + 1) 0)
      let p1 := if at_box ≠ 0 then p0.set at_box (c2 % 65536).toNat else p0
      (some n, { m1 with mem := upd m1.mem n { m1.mem n with c := bubble b.n_boxes p1 } })

/-! ## Frontier scheduler -/

/-- The function `queue_move(s)`. -/
def queue_move (b : Board) (m : Machine) (s : Option Nat) : Bool × Machine :=
  match s with
  | none => (false, m)
  | some s =>
    let r := add_to_table b m s
    if r.1 = false then (false, r.2)
    else if success b (r.2.mem s).c then (true, { r.2 with done := some s })
    else (false, { r.2 with next_level := s :: r.2.next_level })

/-- One disjunct `queue_move(move_me(s, dy, dx))` of `do_move`. -/
def try_move (b : Board) (m : Machine) (s : Nat) (dy dx : Int) : Bool × Machine :=
  let r := move_me b m s dy dx
  queue_move b r.2 r.1

/-- The function `do_move(s)`: right, left, up, down, stopping at the first
disjunct that is true. -/
def do_move (b : Board) (m : Machine) (s : Nat) : Bool × Machine :=
  let r1 := try_move b m s 0 1
  if r1.1 then r1 else
  let r2 := try_move b r1.2 s 0 (-1)
  if r2.1 then r2 else
  let r3 := try_move b r2.2 s (-1) 0
  if r3.1 then r3 else
  try_move b r3.2 s 1 0

/-- The loop `for (...; head && !done; head = head->qnext) do_move(head)` of
`main` over the current frontier. -/
def expand_level (b : Board) : List Nat → Machine → Machine
  | [], m => m
  | head :: rest, m =>
    if m.done.isSome then m else expand_level b rest (do_move b m head).2

/-- The loop `while (!done)` of `main`: `some true` when it is left with `done`
set, `some false` when it returns 1 on an empty next frontier, `none` when the
iteration bound `fuel` of the embedding is reached. -/
def search (b : Board) : Nat → Machine → Option (Bool × Machine)
  | 0, _ => none
  | fuel + 1, m =>
    if m.done.isSome then some (true, m)
    else
      let m1 := expand_level b m.next_level { m with next_level := [] }
      if m1.next_level = [] then some (false, m1) else search b fuel m1

/-! ## Solution reconstruction -/

/-- What `show_moves` did: returned after printing `out`, or printed `out`,
then the invalid-move message, and called `exit(1)`. -/
inductive Shown where
  | printed (out : List Char)
  | invalid (out : List Char)
deriving DecidableEq

/-- The letter branch of `show_moves` for a state with cells `c` and the next
actor cell `nextPos`: the letter printed, or `none` for the invalid-move exit. -/
def move_letter (b : Board) (c : List Nat) (nextPos : Int) : Option Char :=
  let cx : Int := ((c.getD 0 0 % b.w : Nat) : Int)
  let cy : Int := ((c.getD 0 0 / b.w : Nat) : Int)
  let nx : Int := Int.tmod nextPos b.w
  let ny : Int := Int.tdiv nextPos b.w
  let box : Bool := (List.range b.n_boxes).any (fun i => ((c.getD (i + 1) 0 : Nat) : Int) = nextPos)
  if cx < nx then some (if box then 'R' else 'r')
  else if cx > nx then some (if box then 'L' else 'l')
  else if cy < ny then some (if box then 'D' else 'd')
  else if cy > ny then some (if box then 'U' else 'u')
  else none

/-- The function `show_moves(s, nextPos)`; `fuel` bounds the recursion over the
parent links and `none` means the bound was reached. -/
def show_moves (b : Board) (mem : Nat → Slot) : Nat → Nat → Int → Option Shown
  | 0, _, _ => none
  | fuel + 1, s, nextPos =>
    let before : Option Shown :=
      match (mem s).prev with
      | some p => show_moves b mem fuel p ((mem s).c.getD 0 0 : Nat)
      | none => some (Shown.printed [])
    match before with
    | none => none
    | some (Shown.invalid out) => some (Shown.invalid out)
    | some (Shown.printed out) =>
      if nextPos = -1 then some (Shown.printed (out ++ ['\n']))
      else
        match move_letter b (mem s).c nextPos with
        | some l => some (Shown.printed (out ++ [l]))
        | none => some (Shown.invalid out)

/-! ## The program -/

/-- How a run of `main` ends: `return 0` after `show_moves` printed `moves`,
`return 1` after the no-solution message, or `exit(1)` inside `show_moves`. -/
inductive Exit where
  | solved (moves : List Char)
  | no_solution
  | invalid_move (out : List Char)
deriving DecidableEq

/-- The body of `main` from `parse_board` on, for a layout `s` and the `w`, `h`
computed from it; `none` when an iteration bound of the embedding is reached. -/
def run (w h : Nat) (s : List Char) (fuel : Nat) (m : Machine) : Option Exit :=
  match parse_board w h s fuel m with
  | none => none
  | some (b, st, m1) =>
    let m2 := (queue_move b (extend_table m1) (some st)).2
    match search b fuel m2 with
    | none => none
    | some (false, _) => some Exit.no_solution
    | some (true, m3) =>
      match show_moves b m3.mem fuel (m3.done.getD 0) (-1) with
      | none => none
      | some (Shown.printed out) => some (Exit.solved out)
      | some (Shown.invalid out) => some (Exit.invalid_move out)

/-- The width computed by `main`: the length of the first line plus one. -/
def layout_w (s : List Char) : Nat := (s.takeWhile (fun ch => ch ≠ '\n')).length + 1

/-- The height computed by `main`: the number of newline characters. -/
def layout_h (s : List Char) : Nat := s.count '\n'

/-- The function `main` on the layout string `s`. -/
def main (s : List Char) (fuel : Nat) (m : Machine) : Option Exit :=
  run (layout_w s) (layout_h s) s fuel m

/-! ## Notions used by the statements -/

/-- A transition from the actor cell `c0` to `nextPos` is geometrically
consistent: same row and adjacent columns, or same column and adjacent rows. -/
def consistent (w : Nat) (c0 : Nat) (nextPos : Int) : Prop :=
  let cx : Int := ((c0 % w : Nat) : Int)
  let cy : Int := ((c0 / w : Nat) : Int)
  let nx : Int := Int.tmod nextPos w
  let ny : Int := Int.tdiv nextPos w
  (cy = ny ∧ (nx = cx + 1 ∨ nx = cx - 1)) ∨ (cx = nx ∧ (ny = cy + 1 ∨ ny = cy - 1))

instance (w c0 : Nat) (nextPos : Int) : Decidable (consistent w c0 nextPos) := by
  unfold consistent; infer_instance

/-- The actor cell `c[0]` of a cell array. -/
def actor (c : List Nat) : Nat := c.getD 0 0

/-- The box cells `c[1 .. n_boxes]` of a cell array. -/
def boxes (c : List Nat) : List Nat := c.tail

/-- The cell one step from the actor of `c` in direction `(dy, dx)`. -/
def dest (b : Board) (c : List Nat) (dy dx : Int) : Int := (actor c : Int) + dy * b.w + dx

/-- The cells that `move_me` stores in the successor, as a function of the cells
`c` of the state it is called on; `none` when `move_me` returns `NULL`. -/
def move_cells (b : Board) (c : List Nat) (dy dx : Int) : Option (List Nat) :=
  let y : Int := ((c.getD 0 0 / b.w : Nat) : Int)
  let x : Int := ((c.getD 0 0 % b.w : Nat) : Int)
  let y1 := y + dy
  let x1 := x + dx
  let c1 := y1 * b.w + x1
  if y1 < 0 ∨ y1 > b.h ∨ x1 < 0 ∨ x1 > b.w ∨ rdI b.board c1 = wall then none
  else
    let at_box := find_box b.n_boxes c c1
    let c2 := c1 + dy * b.w + dx
    if at_box ≠ 0 ∧ (rdI b.board c2 = wall ∨ rdI b.live c2 = 0 ∨
        (List.range b.n_boxes).any (fun i => ((c.getD (i + 1) 0 : Nat) : Int) = c2)) then none
    else
      let p0 := (c1 % 65536).toNat :: (List.range b.n_boxes).map (fun i => c.getD (i + 1) 0)
      let p1 := if at_box ≠ 0 then p0.set at_box (c2 % 65536).toNat else p0
      some (bubble b.n_boxes p1)

/-- The pull step of the live set: `n` is the neighbour of `c` one step in a
direction, `n` is not a wall, and the cell two steps from `c` in that direction
is inside the grid and not a wall. -/
def pull_step (b : Board) (c n : Nat) : Prop :=
  (2 ≤ c / b.w ∧ n = c - b.w ∧ rd b.board n ≠ wall ∧ rd b.board (c - b.w * 2) ≠ wall) ∨
  (c / b.w + 2 < b.h ∧ n = c + b.w ∧ rd b.board n ≠ wall ∧ rd b.board (c + b.w * 2) ≠ wall) ∨
  (2 ≤ c % b.w ∧ n = c - 1 ∧ rd b.board n ≠ wall ∧ rd b.board (c - 2) ≠ wall) ∨
  (c % b.w + 2 < b.w ∧ n = c + 1 ∧ rd b.board n ≠ wall ∧ rd b.board (c + 2) ≠ wall)

/-- The smallest set of cells that contains every goal cell and is closed under
the pull step. -/
inductive Pull (b : Board) : Nat → Prop
  | goal (c : Nat) : rd b.goals c ≠ 0 → Pull b c
  | step (c n : Nat) : Pull b c → pull_step b c n → Pull b n

/-- Relation between the `live` array before and after a flood fill: same
length, marked cells keep their value, every newly marked cell holds `1`,
satisfies `P` and has all its guarded neighbours marked, and the number of
unmarked cells has not grown. -/
def MarkPost (b : Board) (P : Nat → Prop) (live live1 : List Nat) : Prop :=
  live1.length = live.length ∧ (∀ x, rd live x ≠ 0 → rd live1 x = rd live x) ∧
  (∀ x, rd live x = 0 → rd live1 x ≠ 0 →
    rd live1 x = 1 ∧ P x ∧ ∀ n ∈ live_next b x, rd live1 n ≠ 0) ∧
  List.count 0 live1 ≤ List.count 0 live

/-- Invariant of the seeding loop of `parse_board` before index `i`: the array
has `w * h` entries, each `0` or `1`; every marked cell is in the pull closure
and has its guarded neighbours marked; every goal below `i` is marked. -/
def LiveInv (b : Board) (live : List Nat) (i : Nat) : Prop :=
  live.length = b.w * b.h ∧ (∀ x, rd live x = 0 ∨ rd live x = 1) ∧
  (∀ x, rd live x ≠ 0 → Pull b x ∧ ∀ n ∈ live_next b x, rd live n ≠ 0) ∧
  (∀ g, g < i → rd b.goals g ≠ 0 → rd live g ≠ 0)

/-- The four unit directions `(dy, dx)` of `do_move`: right, left, up, down. -/
def dirs : List (Int × Int) := [(0, 1), (0, -1), (-1, 0), (1, 0)]

/-- The cell `c` is not on the border of the `w` by `h` grid. -/
def interior (b : Board) (c : Nat) : Prop :=
  1 ≤ c / b.w ∧ c / b.w + 1 < b.h ∧ 1 ≤ c % b.w ∧ c % b.w + 1 < b.w

instance (b : Board) (c : Nat) : Decidable (interior b c) := by
  unfold interior; infer_instance

/-- The board is wall-enclosed: each of the four neighbours of an interior cell
that is not a wall is a wall or an interior cell. Together with an actor that
starts on an interior cell this keeps the actor and every pushed box off the
border (the newline column of a layout is part of the border). -/
def wall_enclosed (b : Board) : Prop :=
  ∀ c, c < b.w * b.h → interior b c → rd b.board c ≠ wall →
    ∀ n ∈ [c - b.w, c + b.w, c - 1, c + 1], rd b.board n = wall ∨ interior b n

instance (b : Board) : Decidable (wall_enclosed b) := by
  unfold wall_enclosed; infer_instance

/-- The board with every cell of the grid flagged live: `move_me` on it applies
the rules without the live check. -/
def free_rules (b : Board) : Board := { b with live := List.replicate (b.w * b.h) 1 }

/-- The cells reached from `c` by the moves `ds` in order, `none` as soon as one
of them is rejected. -/
def run_cells (b : Board) : List (Int × Int) → List Nat → Option (List Nat)
  | [], c => some c
  | d :: ds, c =>
    match move_cells b c d.1 d.2 with
    | none => none
    | some c1 => run_cells b ds c1

/-- Along the moves `ds` made from `c` under the rules without the live check,
every push places its box on a cell whose live flag in `b` is set. -/
def pushes_live (b : Board) : List (Int × Int) → List Nat → Prop
  | [], _ => True
  | d :: ds, c =>
    match move_cells (free_rules b) c d.1 d.2 with
    | none => True
    | some c1 =>
      ((dest b c d.1 d.2).toNat ∈ boxes c →
        rdI b.live (dest b c d.1 d.2 + d.1 * b.w + d.2) ≠ 0) ∧ pushes_live b ds c1

/-- The layout character `ch` is a box (`$` or `*`). -/
def is_box (ch : Char) : Bool := ch = '$' ∨ ch = '*'

/-- Invariant of the second loop of `parse_board` on the cells of the initial
state before index `i`: `1 + n_boxes` cells, `j` counts the box characters
below `i`, and the first `j` box cells are goal cells. -/
def CellInv (b : Board) (s : List Char) (i : Nat) (acc : List Nat × List Nat × Nat) : Prop :=
  acc.2.1.length = b.n_boxes + 1 ∧ acc.2.2 = (s.take i).countP is_box ∧
  ∀ t, 1 ≤ t → t ≤ acc.2.2 → rd b.goals (acc.2.1.getD t 0) ≠ 0

/-- The states held by the table, bucket by bucket. -/
def stored (m : Machine) : List Nat := m.buckets.flatten

/-- The cells array of the state in slot `p`. -/
def key (b : Board) (m : Machine) (p : Nat) : List Nat := cells_of b.n_boxes (m.mem p).c

/-- The bucket mask `hash_size - 1` in 32 bits. -/
def mask (m : Machine) : Nat := (m.hash_size + 2 ^ 32 - 1) % 2 ^ 32

/-- Well-formedness of the table: capacity `2^k` with `10 ≤ k ≤ 31`, fill limit
three quarters of it, `filled` within the limit and equal to the number of
stored states, one chain per bucket, every stored state with its digest cached
and in the bucket its digest selects, and no two stored states with the same
cells. -/
def TableOK (b : Board) (m : Machine) : Prop :=
  (∃ k, 10 ≤ k ∧ k ≤ 31 ∧ m.hash_size = 2 ^ k ∧ m.fill_limit = 3 * 2 ^ (k - 2) ∧
    m.filled ≤ m.fill_limit) ∧
  m.buckets.length = m.hash_size ∧ (stored m).length = m.filled ∧
  (∀ i p, p ∈ m.buckets.getD i [] →
    (m.mem p).h = digest b.n_boxes (m.mem p).c ∧ (m.mem p).h &&& mask m = i) ∧
  ((stored m).map (key b m)).Nodup

/-- The machine `m` with the cached hash of slot `s` set to `d`. -/
def with_hash (m : Machine) (s d : Nat) : Machine :=
  { m with mem := upd m.mem s { m.mem s with h := d } }

/-- The last step of `add_to_table`: link `s` at the head of its bucket. -/
def link_state (m : Machine) (s : Nat) : Machine :=
  let i := (m.mem s).h &&& mask m
  { m with buckets := m.buckets.set i (s :: m.buckets.getD i []) }

/-- The step `filled++` of `add_to_table`. -/
def bump_filled (m : Machine) : Machine := { m with filled := (m.filled + 1) % 2 ^ 32 }

/-- The machine after the growth test of `add_to_table` for a state that was
not found: `filled` incremented, and the table extended when the old `filled`
had reached `fill_limit`. -/
def grown (m : Machine) : Machine :=
  if m.filled ≥ m.fill_limit then extend_table (bump_filled m) else bump_filled m

/-- Well-formedness of the arena: the free list has no repetition and lies
below the allocation frontier, and blocks have at least one slot. -/
def ArenaOK (m : Machine) : Prop :=
  m.block_head.Nodup ∧ (∀ q ∈ m.block_head, q < m.brk) ∧ 1 ≤ m.block_size

/-- Invariant of the search for a property `Q` of cell arrays: the table and
the arena are well-formed, every stored state is a slot in use whose cells
satisfy `Q`, and the next frontier consists of stored states. -/
def SearchInv (b : Board) (Q : List Nat → Prop) (m : Machine) : Prop :=
  TableOK b m ∧ ArenaOK m ∧
  (∀ p ∈ stored m, p < m.brk ∧ p ∉ m.block_head ∧ Q (m.mem p).c) ∧
  (∀ p ∈ m.next_level, p ∈ stored m)

/-- Progress of a search step that finds no goal state: stored states stay
stored, `done` is unchanged, and the next frontier grows by exactly the states
newly counted by `filled`. -/
def Progress (m m1 : Machine) : Prop :=
  (∀ p ∈ stored m, p ∈ stored m1) ∧ m.filled ≤ m1.filled ∧
  m1.next_level.length + m.filled = m1.filled + m.next_level.length ∧ m1.done = m.done

/-- A property `Q` of cell arrays that the search can maintain on a board
whose goal cannot be reached: arrays have `1 + n_boxes` cells and belong to the
set `U`, `Q` is kept by every accepted move, no array with `Q` satisfies the
goal predicate, and `U` has fewer than `3 * 2^29` arrays, so that the table
stays within the range of its 32-bit counters. -/
structure QSpec (b : Board) (U : List (List Nat)) (Q : List Nat → Prop) : Prop where
  len : ∀ c, Q c → c.length = b.n_boxes + 1
  sub : ∀ c, Q c → c ∈ U
  move : ∀ c d c1, Q c → d ∈ dirs → move_cells b c d.1 d.2 = some c1 → Q c1
  fail : ∀ c, Q c → success b c = false
  cap : U.length < 3 * 2 ^ 29

/-- Cell arrays of a search in which the box on cell `v0` is stuck: `1 + n_boxes`
cells, the actor on an interior cell that is not a wall, every box inside the
grid, and a box on `v0`. -/
def Stuck (b : Board) (v0 : Nat) (c : List Nat) : Prop :=
  c.length = b.n_boxes + 1 ∧ interior b (actor c) ∧ rd b.board (actor c) ≠ wall ∧
  (∀ v ∈ boxes c, v < b.w * b.h) ∧ v0 ∈ boxes c

/-- The tables built by the program: the initial `extend_table`, then
`add_to_table` calls on slots that hold a freshly created state (cached hash
`0`, not yet stored) made while fewer than `3 * 2^29` states are stored, and
any other step that leaves the table globals and the stored slots alone. -/
inductive TableBuilt (b : Board) : Machine → Prop
  | init (m : Machine) : m.hash_size = 0 → m.buckets = [] → TableBuilt b (extend_table m)
  | add (m : Machine) (s : Nat) : TableBuilt b m → (m.mem s).h = 0 → s ∉ stored m →
      m.filled < 3 * 2 ^ 29 → TableBuilt b (add_to_table b m s).2
  | frame (m m1 : Machine) : TableBuilt b m → m1.buckets = m.buckets →
      m1.hash_size = m.hash_size → m1.fill_limit = m.fill_limit → m1.filled = m.filled →
      (∀ p ∈ stored m, m1.mem p = m.mem p) → TableBuilt b m1

/-- The set `U` of cell arrays is closed under the moves of `move_me` in the
four directions. -/
def MoveClosed (b : Board) (U : List (List Nat)) : Prop :=
  ∀ c ∈ U, ∀ d ∈ dirs, ∀ c1 ∈ move_cells b c d.1 d.2, c1 ∈ U

instance (b : Board) (U : List (List Nat)) : Decidable (MoveClosed b U) := by
  unfold MoveClosed; infer_instance

/-- The shape of the cell array of a state: `1 + n_boxes` cells, pairwise
distinct, each inside the grid and not a wall. -/
def Shape (b : Board) (c : List Nat) : Prop :=
  c.length = b.n_boxes + 1 ∧ c.Nodup ∧ ∀ v ∈ c, v < b.w * b.h ∧ rd b.board v ≠ wall

instance (b : Board) (c : List Nat) : Decidable (Shape b c) := by
  unfold Shape; infer_instance

/-- A cell is covered when its flag is set or a task still has it on its stack
or as its pending cell. -/
def Covered (live : List Nat) (ts : List Task) (n : Nat) : Prop :=
  rd live n ≠ 0 ∨ ∃ t ∈ ts, n ∈ t.stack ∨ t.pending = some n

/-- Invariant of the concurrent fills: the array has `w * h` flags, each `0` or
`1`; every marked cell is in the pull closure and its guarded neighbours are
covered; the cells held by the tasks are grid cells of the pull closure; every
goal cell is covered. -/
def ParInv (b : Board) (live : List Nat) (ts : List Task) : Prop :=
  live.length = b.w * b.h ∧ (∀ x, rd live x = 0 ∨ rd live x = 1) ∧
  (∀ x, rd live x ≠ 0 → Pull b x ∧ ∀ n ∈ live_next b x, Covered live ts n) ∧
  (∀ t ∈ ts, ∀ n, (n ∈ t.stack ∨ t.pending = some n) → Pull b n ∧ n < b.w * b.h) ∧
  (∀ g, g < b.w * b.h → rd b.goals g ≠ 0 → Covered live ts g)

/-- Every task has returned. -/
def Finished (ts : List Task) : Prop := ∀ t ∈ ts, t.stack = [] ∧ t.pending = none

/-! ## Concrete instances used to instantiate the statements -/

/-- The board of the layout `#####` / `#@$.#` / `#####` with width 5 (no
newline column): walls around the row of cells 6, 7, 8; goal on 8; live cells
7 and 8; one box. -/
def row_board : Board :=
  { w := 5, h := 3, n_boxes := 1,
    board := [1, 1, 1, 1, 1, 1, 0, 0, 0, 1, 1, 1, 1, 1, 1],
    goals := [0, 0, 0, 0, 0, 0, 0, 0, 1, 0, 0, 0, 0, 0, 0],
    live := [0, 0, 0, 0, 0, 0, 0, 1, 1, 0, 0, 0, 0, 0, 0] }

/-- A machine at start-up whose slot 0 is in use and holds the state with
actor cell 6 and box cell 7, with allocation frontier 1. -/
def row_machine : Machine := Machine.start (fun _ => ⟨0, none, [6, 7]⟩) 1

/-- A layout of 6 rows of 7 characters without walls, a goal in the first cell
and the actor in the last one (`w = 8` with the newline column, `h = 6`). -/
def open_layout : List Char :=
  ".      \n       \n       \n       \n       \n      @\n".toList

/-- The layout `#####` / `#@$.#` / `#####` with newline-terminated rows
(`w = 6` with the newline column, `h = 3`). -/
def row_layout : List Char := "#####\n#@$.#\n#####\n".toList

/-- A layout that is not wall-enclosed: the actor can step from the newline
column of the first row to the first column of the second row. -/
def wrap_layout : List Char := "##@\n  #\n$##\n.##\n".toList

/-- The direction selected by a letter of the move string. -/
def letter_dir (l : Char) : Option (Int × Int) :=
  if l = 'r' ∨ l = 'R' then some (0, 1)
  else if l = 'l' ∨ l = 'L' then some (0, -1)
  else if l = 'u' ∨ l = 'U' then some (-1, 0)
  else if l = 'd' ∨ l = 'D' then some (1, 0)
  else none

/-- Replay of a move string from the cells `c` with `move_me`: the cells
reached, or `none` when a letter selects no direction or a step is rejected. -/
def replay (b : Board) : List Char → List Nat → Option (List Nat)
  | [], c => some c
  | l :: ls, c =>
    match letter_dir l with
    | none => none
    | some d =>
      match move_cells b c d.1 d.2 with
      | none => none
      | some c1 => replay b ls c1

/-- A wall-enclosed layout whose box starts in a corner, on a cell that is not
live (`w = 6` with the newline column, `h = 4`). -/
def corner_layout : List Char := "#####\n#$ .#\n#@  #\n#####\n".toList

/-- A layout with two boxes side by side and the actor above the left one
(`w = 6` with the newline column, `h = 5`). -/
def two_box_layout : List Char := "#####\n# @ #\n# $$#\n# . #\n#####\n".toList

/-- The start-up machine with zeroed memory and allocation frontier 0. -/
def fresh_machine : Machine := Machine.start (fun _ => default) 0

/-- A layout with three boxes in a room of three by three cells (`w = 6` with
the newline column, `h = 5`). -/
def twin_layout : List Char := "#####\n#.$ #\n#$$ #\n#  @#\n#####\n".toList

/-- A layout with one box that is solved by two pushes to the left (`w = 8`
with the newline column, `h = 3`). -/
def push_layout : List Char := "#######\n#. $@ #\n#######\n".toList

/-- The board, the initial state and the machine that `parse_board` returns on
`push_layout`. -/
def push_parsed : Board × Nat × Machine :=
  (parse_board 8 3 push_layout 50 fresh_machine).getD (row_board, 0, fresh_machine)

/-- A wall-enclosed room of 8 rows of 15 cells with a goal in its first cell and
the actor on a goal in its last one (`w = 18` with the newline column,
`h = 10`). -/
def room_layout : List Char :=
  ("#################\n#.              #\n#               #\n#               #\n" ++
   "#               #\n#               #\n#               #\n#               #\n" ++
   "#              +#\n#################\n").toList

/-- A machine at start-up with four slots in use: slots 0 and 2 hold the state
with actor cell 6 and box cell 7, slot 1 the state with cells 7, 8 and slot 3
the state with cells 8, 6; every cached hash is 0. -/
def table_machine : Machine :=
  Machine.start (fun q => if q = 1 then ⟨0, none, [7, 8]⟩
    else if q = 3 then ⟨0, none, [8, 6]⟩ else ⟨0, none, [6, 7]⟩) 4

/-- The table of `row_board` after `extend_table` and the calls of
`add_to_table` on the slots 0 and 1 of `table_machine`. -/
def two_state_table : Machine :=
  (add_to_table row_board (add_to_table row_board (extend_table table_machine) 0).2 1).2
/-! ## Arena allocator -/

/-- C20: `unnewstate(p)` immediately followed by `newstate(parent)` returns `p`
itself with `prev = parent` and cached hash `0`, allocates no new block
(`block_size`, the block list and the allocation frontier are unchanged), leaves
the free list as it was before the `unnewstate` call, and changes nothing else
in memory (the cells of `p` and every other slot are untouched). -/
theorem unnewstate_newstate_reuses_slot (m : Machine) (p : Nat) (parent : Option Nat) :
    (newstate (unnewstate m p) parent).1 = p ∧
    ((newstate (unnewstate m p) parent).2.mem p).prev = parent ∧
    ((newstate (unnewstate m p) parent).2.mem p).h = 0 ∧
    ((newstate (unnewstate m p) parent).2.mem p).c = (m.mem p).c ∧
    (newstate (unnewstate m p) parent).2.block_head = m.block_head ∧
    (newstate (unnewstate m p) parent).2.block_size = m.block_size ∧
    (newstate (unnewstate m p) parent).2.block_root = m.block_root ∧
    (newstate (unnewstate m p) parent).2.brk = m.brk ∧
    (∀ q, q ≠ p → (newstate (unnewstate m p) parent).2.mem q = m.mem q) := by
  refine ⟨rfl, ?_, ?_, ?_, rfl, rfl, rfl, rfl, ?_⟩
  · simp [newstate, unnewstate, grow_arena, upd]
  · simp [newstate, unnewstate, grow_arena, upd]
  · simp [newstate, unnewstate, grow_arena, upd]
  · intro q hq
    simp [newstate, unnewstate, grow_arena, upd, hq]

/-! ## Table sizes -/

lemma hash_sizes (b : Board) (m : Machine) (s : Nat) :
    (hash b m s).hash_size = m.hash_size ∧ (hash b m s).fill_limit = m.fill_limit ∧
    (hash b m s).filled = m.filled ∧ (hash b m s).buckets = m.buckets := by
  unfold hash; split <;> simp

lemma show_moves_root (b : Board) (mem : Nat → Slot) (fuel s : Nat) (nextPos : Int)
    (hroot : (mem s).prev = none) (hn : nextPos ≠ -1) :
    show_moves b mem (fuel + 1) s nextPos =
      match move_letter b (mem s).c nextPos with
      | some l => some (Shown.printed [l])
      | none => some (Shown.invalid []) := by
  simp only [show_moves, hroot, if_neg hn]
  cases move_letter b (mem s).c nextPos <;> simp

lemma move_letter_none_iff (b : Board) (c : List Nat) (nextPos : Int) :
    move_letter b c nextPos = none ↔
      (Int.tmod nextPos b.w = ((c.getD 0 0 % b.w : Nat) : Int) ∧
       Int.tdiv nextPos b.w = ((c.getD 0 0 / b.w : Nat) : Int)) := by
  unfold move_letter
  simp only
  generalize c.getD 0 0 = c0
  split_ifs <;> simp <;> omega

/-- C16 (counterexample): on a board of width 3 the root state with actor cell
`0` handed the diagonal next cell `4` prints the letter `r`; the fatal exit is
not taken although the transition is not geometrically consistent. -/
theorem show_moves_diagonal_not_fatal :
    show_moves ⟨3, 3, 0, List.replicate 9 0, [], []⟩ (fun _ => ⟨0, none, [0]⟩) 1 0 4
      = some (Shown.printed ['r']) ∧
    ¬ consistent 3 0 4 := by
  decide

/-- C16 (amended): for a board of positive width and a next cell `nextPos ≥ 0`,
the letter branch of `show_moves` takes the fatal exit exactly when `nextPos`
is the actor cell of `s` itself; it emits exactly one letter on every other
transition, in particular on every geometrically consistent one. The statement
is given for the letter branch `move_letter` and for `show_moves` on a root
state. -/
theorem show_moves_fatal_iff_same_cell (b : Board) (mem : Nat → Slot) (fuel s : Nat)
    (nextPos : Int) (hw : 0 < b.w) (hn : 0 ≤ nextPos) :
    (move_letter b (mem s).c nextPos = none ↔ nextPos = (((mem s).c.getD 0 0 : Nat) : Int)) ∧
    (consistent b.w ((mem s).c.getD 0 0) nextPos → ∃ l, move_letter b (mem s).c nextPos = some l) ∧
    ((mem s).prev = none →
      (show_moves b mem (fuel + 1) s nextPos = some (Shown.invalid []) ↔
        nextPos = (((mem s).c.getD 0 0 : Nat) : Int)) ∧
      (nextPos ≠ (((mem s).c.getD 0 0 : Nat) : Int) →
        ∃ l, show_moves b mem (fuel + 1) s nextPos = some (Shown.printed [l]))) := by
  have key : move_letter b (mem s).c nextPos = none ↔
      nextPos = (((mem s).c.getD 0 0 : Nat) : Int) := by
    rw [move_letter_none_iff]
    obtain ⟨n, rfl⟩ := Int.eq_ofNat_of_zero_le hn
    have e1 : Int.tmod (n : Int) (b.w : Int) = ((n % b.w : Nat) : Int) := by
      rw [Int.tmod_eq_emod (by omega) (by omega)]; simp
    have e2 : Int.tdiv (n : Int) (b.w : Int) = ((n / b.w : Nat) : Int) := by
      rw [Int.tdiv_eq_ediv (by omega) (by omega)]; simp
    rw [e1, e2]
    constructor
    · rintro ⟨h1, h2⟩
      have h1 : n % b.w = (mem s).c.getD 0 0 % b.w := by exact_mod_cast h1
      have h2 : n / b.w = (mem s).c.getD 0 0 / b.w := by exact_mod_cast h2
      have := Nat.div_add_mod n b.w
      have := Nat.div_add_mod ((mem s).c.getD 0 0) b.w
      have : n = (mem s).c.getD 0 0 := by
        calc n = b.w * (n / b.w) + n % b.w := (Nat.div_add_mod n b.w).symm
          _ = b.w * ((mem s).c.getD 0 0 / b.w) + (mem s).c.getD 0 0 % b.w := by rw [h1, h2]
          _ = (mem s).c.getD 0 0 := Nat.div_add_mod _ _
      exact_mod_cast this
    · intro h
      have h : n = (mem s).c.getD 0 0 := by exact_mod_cast h
      rw [h]; exact ⟨rfl, rfl⟩
  refine ⟨key, ?_, ?_⟩
  · intro hc
    cases hl : move_letter b (mem s).c nextPos with
    | some l => exact ⟨l, rfl⟩
    | none =>
      exfalso
      rw [move_letter_none_iff] at hl
      unfold consistent at hc
      simp only at hc
      omega
  · intro hroot
    have hne : nextPos ≠ -1 := by omega
    rw [show_moves_root b mem fuel s nextPos hroot hne]
    constructor
    · rw [← key]
      cases move_letter b (mem s).c nextPos <;> simp
    · intro hdiff
      cases hl : move_letter b (mem s).c nextPos with
      | some l => exact ⟨l, rfl⟩
      | none => exact absurd (key.mp hl) hdiff

/-- Witness for the amended C16: width 3, actor cell `0`, next cell `1`. -/
theorem show_moves_fatal_iff_same_cell_witness :
    (move_letter ⟨3, 3, 0, List.replicate 9 0, [], []⟩ [0] 1 = none ↔ (1 : Int) = ((0 : Nat) : Int)) ∧
    (consistent 3 0 1 → ∃ l, move_letter ⟨3, 3, 0, List.replicate 9 0, [], []⟩ [0] 1 = some l) ∧
    ((none : Option Nat) = none →
      (show_moves ⟨3, 3, 0, List.replicate 9 0, [], []⟩ (fun _ => ⟨0, none, [0]⟩) (0 + 1) 0 1
          = some (Shown.invalid []) ↔ (1 : Int) = ((0 : Nat) : Int)) ∧
      ((1 : Int) ≠ ((0 : Nat) : Int) →
        ∃ l, show_moves ⟨3, 3, 0, List.replicate 9 0, [], []⟩ (fun _ => ⟨0, none, [0]⟩) (0 + 1) 0 1
          = some (Shown.printed [l]))) :=
  show_moves_fatal_iff_same_cell ⟨3, 3, 0, List.replicate 9 0, [], []⟩ (fun _ => ⟨0, none, [0]⟩) 0 0 1
    (by decide) (by decide)

/-! ## Move generator -/

lemma swap_perm : ∀ (j : Nat) (p : List Nat), j + 1 < p.length →
    ((p.set j (p.getD (j + 1) 0)).set (j + 1) (p.getD j 0)).Perm p
  | 0, [], h => by simp at h
  | 0, [_], h => by simp at h
  | 0, a :: c :: t, _ => by
    simp
    exact List.Perm.swap a c t
  | j + 1, [], h => by simp at h
  | j + 1, a :: t, h => by
    have ih := swap_perm j t (by simpa using h)
    simpa using ih

lemma swap_getD_zero (j : Nat) (p : List Nat) (hj : 1 ≤ j) :
    ((p.set j (p.getD (j + 1) 0)).set (j + 1) (p.getD j 0)).getD 0 0 = p.getD 0 0 := by
  cases p with
  | nil => simp
  | cons a t =>
    obtain ⟨j, rfl⟩ : ∃ i, j = i + 1 := ⟨j - 1, by omega⟩
    simp

lemma bubble_inner_spec : ∀ (k j : Nat) (p : List Nat) (t : Nat), 1 ≤ j → j + k < p.length →
    (bubble_inner k j (p, t)).1.Perm p ∧ (bubble_inner k j (p, t)).1.getD 0 0 = p.getD 0 0
  | 0, _, p, _, _, _ => by simp [bubble_inner]
  | k + 1, j, p, t, hj, hlen => by
    unfold bubble_inner
    split
    · have hs := swap_perm j p (by omega)
      have h0 := swap_getD_zero j p hj
      have ih := bubble_inner_spec k (j + 1)
        ((p.set j (p.getD (j + 1) 0)).set (j + 1) (p.getD j 0)) (p.getD j 0) (by omega)
        (by simp; omega)
      exact ⟨ih.1.trans hs, ih.2.trans h0⟩
    · exact bubble_inner_spec k (j + 1) p t (by omega) (by omega)

lemma bubble_outer_spec : ∀ (i : Nat) (p : List Nat), i < p.length →
    (bubble_outer i p).Perm p ∧ (bubble_outer i p).getD 0 0 = p.getD 0 0
  | 0, p, _ => by simp [bubble_outer]
  | i + 1, p, h => by
    unfold bubble_outer
    have hin := bubble_inner_spec i 1 p 0 (le_refl _) (by omega)
    simp only
    split
    · exact hin
    · have ih := bubble_outer_spec i (bubble_inner i 1 (p, 0)).1 (by rw [hin.1.length_eq]; omega)
      exact ⟨ih.1.trans hin.1, ih.2.trans hin.2⟩

lemma bubble_spec (n : Nat) (p : List Nat) (h : p.length = n + 1) :
    (bubble n p).Perm p ∧ (bubble n p).getD 0 0 = p.getD 0 0 := by
  unfold bubble
  split
  · exact ⟨List.Perm.refl _, rfl⟩
  · exact bubble_outer_spec (n - 1) p (by omega)

lemma tail_perm_of_perm {l1 l2 : List Nat} (hp : l1.Perm l2) (h0 : l1.getD 0 0 = l2.getD 0 0)
    (hne : l2 ≠ []) : l1.tail.Perm l2.tail := by
  cases l2 with
  | nil => exact absurd rfl hne
  | cons a t =>
    cases l1 with
    | nil => simpa using hp.length_eq
    | cons a1 t1 =>
      simp at h0
      subst h0
      simpa using hp

lemma set_perm_erase : ∀ (l : List Nat) (k x : Nat), k < l.length →
    (l.set k x).Perm (x :: l.erase (l.getD k 0))
  | [], _, _, h => by simp at h
  | a :: t, 0, x, _ => by simp
  | a :: t, k + 1, x, h => by
    have hk : k < t.length := by simpa using h
    have ih := set_perm_erase t k x hk
    have hmem : t.getD k 0 ∈ t := by
      rw [List.getD_eq_getElem _ _ hk]; exact List.getElem_mem hk
    simp only [List.set_cons_succ, List.getD_cons_succ]
    by_cases ha : a = t.getD k 0
    · rw [← ha, List.erase_cons_head]
      rw [← ha] at ih hmem
      exact ((List.Perm.cons a ih).trans (List.Perm.swap x a _)).trans
        (List.Perm.cons x (List.perm_cons_erase hmem).symm)
    · rw [List.erase_cons_tail (by simpa using ha)]
      exact (List.Perm.cons a ih).trans (List.Perm.swap x a _)

lemma map_getD_succ_eq_tail (n : Nat) (c : List Nat) (h : c.length = n + 1) :
    (List.range n).map (fun i => c.getD (i + 1) 0) = c.tail := by
  cases c with
  | nil => simp at h
  | cons a t =>
    have ht : t.length = n := by simpa using h
    apply List.ext_getElem
    · simp [ht]
    · intro i h1 h2
      simp at h1
      have hi : i < t.length := by omega
      simp [List.getElem?_eq_getElem hi]

lemma find_box_zero (n : Nat) (c : List Nat) (c1 : Int) (h : find_box n c c1 = 0) :
    ∀ i, i < n → ((c.getD (i + 1) 0 : Nat) : Int) ≠ c1 := by
  unfold find_box at h
  cases hf : ((List.range n).map (fun i => i + 1)).find? (fun i => ((c.getD i 0 : Nat) : Int) = c1) with
  | none =>
    intro i hi
    have := List.find?_eq_none.mp hf (i + 1) (by simp; exact hi)
    simpa using this
  | some k =>
    rw [hf] at h
    have hk := List.mem_of_find?_eq_some hf
    simp at hk h
    omega

lemma find_box_pos (n : Nat) (c : List Nat) (c1 : Int) (h : find_box n c c1 ≠ 0) :
    1 ≤ find_box n c c1 ∧ find_box n c c1 ≤ n ∧ ((c.getD (find_box n c c1) 0 : Nat) : Int) = c1 := by
  unfold find_box at h ⊢
  cases hf : ((List.range n).map (fun i => i + 1)).find? (fun i => ((c.getD i 0 : Nat) : Int) = c1) with
  | none => rw [hf] at h; simp at h
  | some k =>
    have hk := List.mem_of_find?_eq_some hf
    have hp := List.find?_some hf
    simp at hk hp
    simp only [Option.getD_some]
    obtain ⟨a, ha, rfl⟩ := hk
    exact ⟨by omega, by omega, by simpa using hp⟩

lemma newstate_fresh (m : Machine) (parent : Option Nat) (s : Nat)
    (hfree : s ∉ m.block_head) (hbrk : s < m.brk) : (newstate m parent).1 ≠ s := by
  unfold newstate grow_arena
  cases hb : m.block_head with
  | nil => simp; omega
  | cons a t =>
    simp
    rintro rfl
    exact hfree (by rw [hb]; exact List.mem_cons_self _ _)

lemma newstate_mem (m : Machine) (parent : Option Nat) :
    (newstate m parent).2.mem = upd m.mem (newstate m parent).1
      { m.mem (newstate m parent).1 with prev := parent, h := 0 } := by
  unfold newstate grow_arena
  cases m.block_head <;> rfl

/-- `move_me` in terms of `move_cells`, for a state that is not a free slot. -/
lemma move_me_eq (b : Board) (m : Machine) (s : Nat) (dy dx : Int)
    (hfree : s ∉ m.block_head) (hbrk : s < m.brk) :
    move_me b m s dy dx =
      match move_cells b (m.mem s).c dy dx with
      | none => (none, m)
      | some cs =>
        (some (newstate m (some s)).1,
         { (newstate m (some s)).2 with
           mem := upd (newstate m (some s)).2.mem (newstate m (some s)).1
             { h := 0, prev := some s, c := cs } }) := by
  have hne := newstate_fresh m (some s) s hfree hbrk
  have hmem := newstate_mem m (some s)
  have hs : (newstate m (some s)).2.mem s = m.mem s := by
    rw [hmem]; simp [upd, Ne.symm hne]
  have hn : (newstate m (some s)).2.mem (newstate m (some s)).1 =
      { m.mem (newstate m (some s)).1 with prev := some s, h := 0 } := by
    rw [hmem]; simp [upd]
  unfold move_me move_cells
  simp only [hs, hn]
  split_ifs <;> rfl

lemma dest_eq (b : Board) (c : List Nat) (dy dx : Int) :
    (((c.getD 0 0 / b.w : Nat) : Int) + dy) * b.w + (((c.getD 0 0 % b.w : Nat) : Int) + dx)
      = dest b c dy dx := by
  unfold dest actor
  have h2 : ((c.getD 0 0 : Nat) : Int) = (b.w : Int) * ((c.getD 0 0 / b.w : Nat) : Int) +
      ((c.getD 0 0 % b.w : Nat) : Int) := by
    have := Nat.div_add_mod (c.getD 0 0) b.w
    exact_mod_cast this.symm
  linear_combination -h2

lemma mem_boxes_iff (n : Nat) (c : List Nat) (hlen : c.length = n + 1) (v : Nat) :
    v ∈ boxes c ↔ ∃ i, i < n ∧ c.getD (i + 1) 0 = v := by
  cases c with
  | nil => simp at hlen
  | cons a t =>
    have ht : t.length = n := by simpa using hlen
    simp only [boxes, List.tail_cons, List.getD_cons_succ]
    rw [List.mem_iff_getElem]
    constructor
    · rintro ⟨i, hi, rfl⟩
      exact ⟨i, by omega, by rw [List.getD_eq_getElem _ _ hi]⟩
    · rintro ⟨i, hi, rfl⟩
      exact ⟨i, by omega, by rw [List.getD_eq_getElem _ _ (by omega)]⟩

lemma rdI_ne_zero {a : List Nat} {i : Int} (h : rdI a i ≠ 0) : 0 ≤ i ∧ i.toNat < a.length := by
  unfold rdI at h
  split at h
  · exact absurd rfl h
  · refine ⟨by omega, ?_⟩
    by_contra hlt
    exact h (by rw [List.getD_eq_default _ _ (by omega)])

/-- What an accepted `move_cells` guarantees. -/
lemma move_cells_spec (b : Board) (c cs : List Nat) (dy dx : Int)
    (hlen : c.length = b.n_boxes + 1) (h : move_cells b c dy dx = some cs) :
    0 ≤ dest b c dy dx ∧ rdI b.board (dest b c dy dx) ≠ wall ∧
    cs.length = b.n_boxes + 1 ∧ actor cs = (dest b c dy dx % 65536).toNat ∧
    ((dest b c dy dx).toNat ∈ boxes c →
      rdI b.board (dest b c dy dx + dy * b.w + dx) ≠ wall ∧
      rdI b.live (dest b c dy dx + dy * b.w + dx) ≠ 0 ∧
      (∀ v ∈ boxes c, (v : Int) ≠ dest b c dy dx + dy * b.w + dx) ∧
      (boxes cs).Perm (((dest b c dy dx + dy * b.w + dx) % 65536).toNat ::
        (boxes c).erase (dest b c dy dx).toNat)) ∧
    ((dest b c dy dx).toNat ∉ boxes c → (boxes cs).Perm (boxes c)) := by
  unfold move_cells at h
  simp only [dest_eq] at h
  have hy := dest_eq b c dy dx
  split at h
  · exact absurd h (by simp)
  rename_i h1
  split at h
  · exact absurd h (by simp)
  rename_i h2
  have h1' := not_or.mp h1
  have h1'' := not_or.mp h1'.2
  have h1''' := not_or.mp h1''.2
  have h1'''' := not_or.mp h1'''.2
  have hnn : 0 ≤ dest b c dy dx := by
    rw [← hy]
    have : (0:Int) ≤ (((c.getD 0 0 / b.w : Nat) : Int) + dy) * b.w :=
      mul_nonneg (by omega) (by omega)
    omega
  have htail := map_getD_succ_eq_tail b.n_boxes c hlen
  rw [htail] at h
  have hmemiff : (dest b c dy dx).toNat ∈ boxes c ↔ find_box b.n_boxes c (dest b c dy dx) ≠ 0 := by
    rw [mem_boxes_iff b.n_boxes c hlen]
    constructor
    · rintro ⟨i, hi, he⟩ h0
      exact find_box_zero _ _ _ h0 i hi (by rw [he]; omega)
    · intro hne
      obtain ⟨k1, k2, k3⟩ := find_box_pos _ _ _ hne
      exact ⟨find_box b.n_boxes c (dest b c dy dx) - 1, by omega, by
        have : find_box b.n_boxes c (dest b c dy dx) - 1 + 1 = find_box b.n_boxes c (dest b c dy dx) := by
          omega
        rw [this]; omega⟩
  injection h with h
  by_cases hb : find_box b.n_boxes c (dest b c dy dx) ≠ 0
  · rw [if_pos hb] at h
    obtain ⟨k1, k2, k3⟩ := find_box_pos _ _ _ hb
    have h2' := not_or.mp ((not_and.mp h2) hb)
    have h2'' := not_or.mp h2'.2
    generalize find_box b.n_boxes c (dest b c dy dx) = i at h k1 k2 k3
    obtain ⟨j, rfl⟩ : ∃ j, i = j + 1 := ⟨i - 1, by omega⟩
    generalize hp1 : ((dest b c dy dx % 65536).toNat :: c.tail).set (j + 1)
      ((dest b c dy dx + dy * b.w + dx) % 65536).toNat = p1 at h
    have hp1' : p1 = (dest b c dy dx % 65536).toNat ::
        c.tail.set j ((dest b c dy dx + dy * b.w + dx) % 65536).toNat := by
      rw [← hp1]; simp
    have hp1len : p1.length = b.n_boxes + 1 := by
      rw [hp1']; simp; cases c <;> simp at hlen ⊢; omega
    have hbs := bubble_spec b.n_boxes p1 hp1len
    rw [h] at hbs
    have htl : c.tail.length = b.n_boxes := by cases c <;> simp at hlen ⊢; omega
    have hcj : c.tail.getD j 0 = (dest b c dy dx).toNat := by
      have : c.getD (j + 1) 0 = c.tail.getD j 0 := by cases c <;> simp
      rw [← this]; omega
    refine ⟨hnn, h1''''.2, ?_, ?_, ?_, ?_⟩
    · rw [hbs.1.length_eq, hp1len]
    · unfold actor; rw [hbs.2, hp1']; simp
    · intro _
      refine ⟨h2'.1, h2''.1, ?_, ?_⟩
      · intro v hv hveq
        obtain ⟨k, hk, rfl⟩ := (mem_boxes_iff b.n_boxes c hlen v).mp hv
        apply h2''.2
        rw [List.any_eq_true]
        exact ⟨k, by simpa using hk, by simpa using hveq⟩
      · have ht := tail_perm_of_perm hbs.1 hbs.2 (by rw [hp1']; simp)
        rw [hp1'] at ht
        simp only [List.tail_cons] at ht
        have hse := set_perm_erase c.tail j ((dest b c dy dx + dy * b.w + dx) % 65536).toNat
          (by omega)
        rw [hcj] at hse
        exact ht.trans hse
    · intro hnot
      exact absurd (hmemiff.mpr hb) hnot
  · rw [if_neg hb] at h
    have hp0len : ((dest b c dy dx % 65536).toNat :: c.tail).length = b.n_boxes + 1 := by
      cases c <;> simp at hlen ⊢; omega
    have hbs := bubble_spec b.n_boxes _ hp0len
    rw [h] at hbs
    refine ⟨hnn, h1''''.2, ?_, ?_, ?_, ?_⟩
    · rw [hbs.1.length_eq, hp0len]
    · unfold actor; rw [hbs.2]; simp
    · intro hin
      exact absurd (hmemiff.mp hin) hb
    · intro _
      have ht := tail_perm_of_perm hbs.1 hbs.2 (by simp)
      simpa [boxes] using ht

/-- C11: whenever `move_me(s, dy, dx)` returns a successor `n` (for a state `s`
that is in use, with `1 + n_boxes` cells, and destination cells that fit
`cidx_t`): the actor cell of `n` is the cell one step from the actor of `s` in
direction `(dy, dx)`, the parent of `n` is `s`, the box cells of `n` are as a
multiset those of `s` with the destination cell replaced by the cell one step
further when a box of `s` is on the destination and exactly those of `s`
otherwise, and `s` and every slot other than `n` are unchanged. -/
theorem move_me_successor (b : Board) (m m' : Machine) (s n : Nat) (dy dx : Int)
    (hlen : (m.mem s).c.length = b.n_boxes + 1)
    (hfree : s ∉ m.block_head) (hbrk : s < m.brk)
    (hfit1 : dest b (m.mem s).c dy dx < 65536)
    (hfit2 : dest b (m.mem s).c dy dx + dy * b.w + dx < 65536)
    (hmove : move_me b m s dy dx = (some n, m')) :
    ((actor (m'.mem n).c : Nat) : Int) = dest b (m.mem s).c dy dx ∧
    (m'.mem n).prev = some s ∧
    ((dest b (m.mem s).c dy dx).toNat ∈ boxes (m.mem s).c →
      (boxes (m'.mem n).c).Perm ((dest b (m.mem s).c dy dx + dy * b.w + dx).toNat ::
        (boxes (m.mem s).c).erase (dest b (m.mem s).c dy dx).toNat)) ∧
    ((dest b (m.mem s).c dy dx).toNat ∉ boxes (m.mem s).c →
      (boxes (m'.mem n).c).Perm (boxes (m.mem s).c)) ∧
    m'.mem s = m.mem s ∧ (∀ q, q ≠ n → m'.mem q = m.mem q) := by
  rw [move_me_eq b m s dy dx hfree hbrk] at hmove
  cases hc : move_cells b (m.mem s).c dy dx with
  | none => rw [hc] at hmove; simp at hmove
  | some cs =>
    rw [hc] at hmove
    simp only [Prod.mk.injEq, Option.some.injEq] at hmove
    obtain ⟨hn, hm⟩ := hmove
    obtain ⟨h0, -, -, hact, hpush, hwalk⟩ := move_cells_spec b _ cs dy dx hlen hc
    have hne : n ≠ s := hn ▸ newstate_fresh m (some s) s hfree hbrk
    have hmem : ∀ q, m'.mem q = if q = n then ⟨0, some s, cs⟩ else m.mem q := by
      intro q
      rw [← hm, ← hn]
      simp only [upd, newstate_mem]
      split_ifs <;> rfl
    have hnc : m'.mem n = ⟨0, some s, cs⟩ := by rw [hmem]; simp
    refine ⟨?_, by rw [hnc], ?_, ?_, ?_, ?_⟩
    · rw [hnc, hact, Int.emod_eq_of_lt h0 hfit1]
      exact Int.toNat_of_nonneg h0
    · intro hin
      obtain ⟨-, hl, -, hp⟩ := hpush hin
      have h2 := (rdI_ne_zero hl).1
      rw [hnc]
      rwa [Int.emod_eq_of_lt h2 hfit2] at hp
    · intro hout
      rw [hnc]
      exact hwalk hout
    · rw [hmem]; simp [Ne.symm hne]
    · intro q hq
      rw [hmem]; simp [hq]

/-- Witness for C11: the push to the right on `row_board`. -/
theorem move_me_successor_witness :
    ((actor ((move_me row_board row_machine 0 0 1).2.mem 2).c : Nat) : Int)
      = dest row_board (row_machine.mem 0).c 0 1 ∧
    ((move_me row_board row_machine 0 0 1).2.mem 2).prev = some 0 ∧
    ((dest row_board (row_machine.mem 0).c 0 1).toNat ∈ boxes (row_machine.mem 0).c →
      (boxes ((move_me row_board row_machine 0 0 1).2.mem 2).c).Perm
        ((dest row_board (row_machine.mem 0).c 0 1 + 0 * row_board.w + 1).toNat ::
          (boxes (row_machine.mem 0).c).erase (dest row_board (row_machine.mem 0).c 0 1).toNat)) ∧
    ((dest row_board (row_machine.mem 0).c 0 1).toNat ∉ boxes (row_machine.mem 0).c →
      (boxes ((move_me row_board row_machine 0 0 1).2.mem 2).c).Perm (boxes (row_machine.mem 0).c)) ∧
    (move_me row_board row_machine 0 0 1).2.mem 0 = row_machine.mem 0 ∧
    (∀ q, q ≠ 2 → (move_me row_board row_machine 0 0 1).2.mem q = row_machine.mem q) :=
  move_me_successor row_board row_machine (move_me row_board row_machine 0 0 1).2 0 2 0 1
    (by decide) (by decide) (by decide) (by decide) (by decide)
    (Prod.ext (by decide) rfl)


/-! ## Reachability analysis -/

lemma mem_live_next (b : Board) (c n : Nat) : n ∈ live_next b c ↔ pull_step b c n := by
  unfold live_next pull_step
  simp only [List.mem_append]
  have e1 : (((c / b.w : Nat) : Int) > 1) ↔ 2 ≤ c / b.w := by omega
  have e2 : (((c / b.w : Nat) : Int) < (b.h : Int) - 2) ↔ c / b.w + 2 < b.h := by omega
  have e3 : (((c % b.w : Nat) : Int) > 1) ↔ 2 ≤ c % b.w := by omega
  have e4 : (((c % b.w : Nat) : Int) < (b.w : Int) - 2) ↔ c % b.w + 2 < b.w := by omega
  simp only [e1, e2, e3, e4]
  constructor
  · intro hm
    rcases hm with ((hm | hm) | hm) | hm
    · split_ifs at hm with hc
      · simp at hm; subst hm; exact Or.inl ⟨hc.1, rfl, hc.2.1, hc.2.2⟩
      · simp at hm
    · split_ifs at hm with hc
      · simp at hm; subst hm; exact Or.inr (Or.inl ⟨hc.1, rfl, hc.2.1, hc.2.2⟩)
      · simp at hm
    · split_ifs at hm with hc
      · simp at hm; subst hm; exact Or.inr (Or.inr (Or.inl ⟨hc.1, rfl, hc.2.1, hc.2.2⟩))
      · simp at hm
    · split_ifs at hm with hc
      · simp at hm; subst hm; exact Or.inr (Or.inr (Or.inr ⟨hc.1, rfl, hc.2.1, hc.2.2⟩))
      · simp at hm
  · intro hp
    rcases hp with ⟨h1, rfl, h2, h3⟩ | ⟨h1, rfl, h2, h3⟩ | ⟨h1, rfl, h2, h3⟩ | ⟨h1, rfl, h2, h3⟩
    · left; left; left; rw [if_pos ⟨h1, h2, h3⟩]; simp
    · left; left; right; rw [if_pos ⟨h1, h2, h3⟩]; simp
    · left; right; rw [if_pos ⟨h1, h2, h3⟩]; simp
    · right; rw [if_pos ⟨h1, h2, h3⟩]; simp

lemma pull_step_in_grid (b : Board) (c n : Nat) (hc : c < b.w * b.h) (hs : pull_step b c n) :
    n < b.w * b.h := by
  have hw : 0 < b.w := by
    rcases Nat.eq_zero_or_pos b.w with h0 | h0
    · rw [h0] at hc; simp at hc
    · exact h0
  have hq : c / b.w < b.h := Nat.div_lt_of_lt_mul hc
  have hdm := Nat.div_add_mod c b.w
  have hr : c % b.w < b.w := Nat.mod_lt _ hw
  rcases hs with ⟨_, rfl, _, _⟩ | ⟨h1, rfl, _, _⟩ | ⟨_, rfl, _, _⟩ | ⟨h1, rfl, _, _⟩
  · omega
  · have : b.w * (c / b.w + 2) ≤ b.w * b.h := Nat.mul_le_mul_left _ (by omega)
    have e : b.w * (c / b.w + 2) = b.w * (c / b.w) + b.w * 2 := by ring
    omega
  · omega
  · have : b.w * (c / b.w + 1) ≤ b.w * b.h := Nat.mul_le_mul_left _ (by omega)
    have e : b.w * (c / b.w + 1) = b.w * (c / b.w) + b.w := by ring
    omega

lemma rd_set (l : List Nat) (c x v : Nat) :
    rd (l.set c v) x = if x = c ∧ c < l.length then v else rd l x := by
  unfold rd
  rw [List.getD_eq_getElem?_getD, List.getD_eq_getElem?_getD, List.getElem?_set]
  by_cases h : c = x
  · subst h
    by_cases h2 : c < l.length
    · simp [h2]
    · simp [h2, List.getElem?_eq_none (by omega : l.length ≤ c)]
  · have : ¬ x = c := fun e => h e.symm
    simp [h, this]

lemma rd_lt_of_ne_zero {l : List Nat} {x : Nat} (h : rd l x ≠ 0) : x < l.length := by
  by_contra hlt
  exact h (by unfold rd; rw [List.getD_eq_default _ _ (by omega)])

lemma count_zero_set : ∀ (l : List Nat) (c : Nat), c < l.length → rd l c = 0 →
    List.count 0 (l.set c 1) + 1 = List.count 0 l
  | [], _, h, _ => by simp at h
  | a :: t, 0, _, h0 => by
    simp [rd] at h0
    subst h0
    simp
  | a :: t, c + 1, h, h0 => by
    have ih := count_zero_set t c (by simpa using h) (by simpa [rd] using h0)
    simp only [List.set_cons_succ, List.count_cons]
    omega

lemma mark_post_refl (b : Board) (P : Nat → Prop) (live : List Nat) : MarkPost b P live live :=
  ⟨rfl, fun _ _ => rfl, fun _ h0 h1 => absurd h0 h1, le_refl _⟩

lemma mark_post_trans {b : Board} {P : Nat → Prop} {l0 l1 l2 : List Nat}
    (h1 : MarkPost b P l0 l1) (h2 : MarkPost b P l1 l2) : MarkPost b P l0 l2 := by
  obtain ⟨a1, a2, a3, a4⟩ := h1
  obtain ⟨b1, b2, b3, b4⟩ := h2
  refine ⟨b1.trans a1, ?_, ?_, b4.trans a4⟩
  · intro x hx
    rw [b2 x (by rw [a2 x hx]; exact hx), a2 x hx]
  · intro x hx0 hx2
    by_cases hx1 : rd l1 x = 0
    · exact b3 x hx1 hx2
    · obtain ⟨c1, c2, c3⟩ := a3 x hx0 hx1
      refine ⟨by rw [b2 x hx1]; exact c1, c2, ?_⟩
      intro n hn
      rw [b2 n (c3 n hn)]
      exact c3 n hn

/-- Specification of the guarded calls of one `mark_live` body, given the
specification of `mark_live` at the same fuel. -/
lemma chain_calls_spec (b : Board) (P : Nat → Prop) (N : Nat) (f : List Nat → Nat → Option (List Nat))
    (bound : Nat)
    (hf : ∀ live c, live.length = N → c < N → P c → List.count 0 live < bound →
      ∃ live1, f live c = some live1 ∧ MarkPost b P live live1 ∧ rd live1 c ≠ 0) :
    ∀ (ns : List Nat) (live : List Nat), live.length = N → (∀ n ∈ ns, n < N ∧ P n) →
      List.count 0 live < bound →
      ∃ live1, chain_calls f live ns = some live1 ∧ MarkPost b P live live1 ∧
        ∀ n ∈ ns, rd live1 n ≠ 0
  | [], live, _, _, _ => ⟨live, rfl, mark_post_refl b P live, by simp⟩
  | n :: ns, live, hlen, hns, hc => by
    obtain ⟨hn1, hn2⟩ := hns n (List.mem_cons_self _ _)
    obtain ⟨l1, e1, p1, m1⟩ := hf live n hlen hn1 hn2 hc
    obtain ⟨l2, e2, p2, m2⟩ := chain_calls_spec b P N f bound hf ns l1 (p1.1.trans hlen)
      (fun k hk => hns k (List.mem_cons_of_mem _ hk)) (lt_of_le_of_lt p1.2.2.2 hc)
    refine ⟨l2, by simp [chain_calls, e1, e2], mark_post_trans p1 p2, ?_⟩
    intro k hk
    rcases List.mem_cons.mp hk with rfl | hk
    · rw [p2.2.1 k m1]; exact m1
    · exact m2 k hk

/-- Specification of the recursive flood fill: with more fuel than unmarked
cells it returns, and the result extends the array by cells of any set `P` that
contains the start cell and is closed under the guarded neighbours. -/
lemma mark_live_spec (b : Board) (P : Nat → Prop)
    (hP : ∀ x n, P x → n ∈ live_next b x → P n) :
    ∀ (fuel : Nat) (live : List Nat) (c : Nat), live.length = b.w * b.h → c < b.w * b.h → P c →
      List.count 0 live < fuel →
      ∃ live1, mark_live b fuel live c = some live1 ∧ MarkPost b P live live1 ∧ rd live1 c ≠ 0
  | 0, _, _, _, _, _, h => by omega
  | fuel + 1, live, c, hlen, hc, hPc, hcount => by
    unfold mark_live
    by_cases hm : rd live c ≠ 0
    · rw [if_pos hm]
      exact ⟨live, rfl, mark_post_refl b P live, hm⟩
    · rw [if_neg hm]
      have hm0 : rd live c = 0 := by simpa using hm
      have hset := count_zero_set live c (by omega) hm0
      obtain ⟨l1, e1, p1, m1⟩ := chain_calls_spec b P (b.w * b.h) (mark_live b fuel) fuel
        (fun l k h1 h2 h3 h4 => mark_live_spec b P hP fuel l k h1 h2 h3 h4)
        (live_next b c) (live.set c 1) (by simp [hlen])
        (fun n hn => ⟨pull_step_in_grid b c n hc ((mem_live_next b c n).mp hn), hP c n hPc hn⟩)
        (by omega)
      have hc1 : rd (live.set c 1) c = 1 := by rw [rd_set]; simp; omega
      refine ⟨l1, e1, ⟨?_, ?_, ?_, ?_⟩, ?_⟩
      · rw [p1.1]; simp
      · intro x hx
        have hxc : x ≠ c := fun e => hm (e ▸ hx)
        have hx1 : rd (live.set c 1) x = rd live x := by rw [rd_set]; simp [hxc]
        rw [p1.2.1 x (by rw [hx1]; exact hx), hx1]
      · intro x hx0 hx1
        by_cases hxc : x = c
        · subst hxc
          refine ⟨by rw [p1.2.1 x (by rw [hc1]; simp), hc1], hPc, m1⟩
        · have hx1' : rd (live.set c 1) x = 0 := by rw [rd_set]; simp [hxc, hx0]
          exact p1.2.2.1 x hx1' hx1
      · have := p1.2.2.2
        omega
      · rw [p1.2.1 c (by rw [hc1]; simp), hc1]; simp

lemma pull_congr {b b1 : Board} (hw : b.w = b1.w) (hh : b.h = b1.h) (hb : b.board = b1.board)
    (hg : b.goals = b1.goals) {c : Nat} (h : Pull b c) : Pull b1 c := by
  induction h with
  | goal c hc => exact Pull.goal c (hg ▸ hc)
  | step c n _ hs ih =>
    refine Pull.step c n ih ?_
    unfold pull_step at hs ⊢
    rw [← hw, ← hh, ← hb]
    exact hs

lemma live_inv_step (b : Board) (live live1 : List Nat) (i : Nat) (hinv : LiveInv b live i)
    (hp : MarkPost b (Pull b) live live1) (hi : rd b.goals i ≠ 0 → rd live1 i ≠ 0) :
    LiveInv b live1 (i + 1) := by
  obtain ⟨i1, i2, i3, i4⟩ := hinv
  obtain ⟨p1, p2, p3, -⟩ := hp
  refine ⟨p1.trans i1, ?_, ?_, ?_⟩
  · intro x
    by_cases hx : rd live x = 0
    · by_cases hx1 : rd live1 x = 0
      · exact Or.inl hx1
      · exact Or.inr (p3 x hx hx1).1
    · rw [p2 x hx]; exact i2 x
  · intro x hx1
    by_cases hx : rd live x = 0
    · exact (p3 x hx hx1).2
    · refine ⟨(i3 x hx).1, fun n hn => ?_⟩
      have := (i3 x hx).2 n hn
      rw [p2 n this]; exact this
  · intro g hg hgoal
    rcases Nat.lt_succ_iff_lt_or_eq.mp hg with hlt | rfl
    · have := i4 g hlt hgoal
      rw [p2 g this]; exact this
    · exact hi hgoal

/-- The seeding loop of `parse_board` returns when the fuel exceeds the number
of cells, and keeps the invariant. -/
lemma place_loop_live (b : Board) (s : List Char) (fuel : Nat) (hfuel : b.w * b.h < fuel) :
    ∀ (k i : Nat) (acc : List Nat × List Nat × Nat), i + k = b.w * b.h → LiveInv b acc.1 i →
      ∃ r, place_loop b s fuel k i acc = some r ∧ LiveInv b r.1 (b.w * b.h)
  | 0, i, acc, hik, hinv => by
    refine ⟨acc, by simp [place_loop], ?_⟩
    have : i = b.w * b.h := by omega
    rw [← this]; exact hinv
  | k + 1, i, (live, cs, j), hik, hinv => by
    have hcount : List.count 0 live < fuel :=
      lt_of_le_of_lt (List.count_le_length _ _) (by rw [hinv.1]; exact hfuel)
    have hstep : ∃ live1, (if rd b.goals i ≠ 0 then mark_live b fuel live i else some live)
        = some live1 ∧ LiveInv b live1 (i + 1) := by
      by_cases hg : rd b.goals i ≠ 0
      · obtain ⟨l1, e1, p1, m1⟩ := mark_live_spec b (Pull b)
          (fun x n hx hn => Pull.step x n hx ((mem_live_next b x n).mp hn))
          fuel live i hinv.1 (by omega) (Pull.goal i hg) hcount
        exact ⟨l1, by rw [if_pos hg, e1], live_inv_step b live l1 i hinv p1 (fun _ => m1)⟩
      · exact ⟨live, by rw [if_neg hg],
          live_inv_step b live live i hinv (mark_post_refl _ _ _) (fun h => absurd h hg)⟩
    obtain ⟨l1, e1, inv1⟩ := hstep
    unfold place_loop
    rw [e1]
    simp only
    split_ifs
    · exact place_loop_live b s fuel hfuel k (i + 1) _ (by omega) inv1
    · exact place_loop_live b s fuel hfuel k (i + 1) _ (by omega) inv1
    · exact place_loop_live b s fuel hfuel k (i + 1) _ (by omega) inv1

lemma scan_board_length : ∀ (s : List Char) (i : Nat) (acc : List Nat × List Nat × Nat),
    (scan_board s i acc).1.length = acc.1.length ∧ (scan_board s i acc).2.1.length = acc.2.1.length
  | [], _, _ => by simp [scan_board]
  | ch :: rest, i, (bd, gl, n) => by
    unfold scan_board
    split_ifs
    · simp
    · have := scan_board_length rest (i + 1) (bd.set i wall, gl, n); simpa using this
    · have := scan_board_length rest (i + 1) (bd, gl.set i 1, n); simpa using this
    · have := scan_board_length rest (i + 1) (bd, gl.set i 1, n + 1); simpa using this
    · have := scan_board_length rest (i + 1) (bd, gl, n + 1); simpa using this
    · have := scan_board_length rest (i + 1) (bd, gl, n); simpa using this

lemma rd_replicate_zero (n x : Nat) : rd (List.replicate n 0) x = 0 := by
  unfold rd
  by_cases h : x < n
  · rw [List.getD_eq_getElem _ _ (by simpa using h)]; simp
  · rw [List.getD_eq_default _ _ (by simpa using h)]

lemma live_inv_closed_iff (b : Board) (live : List Nat) (hg : b.goals.length = b.w * b.h)
    (hinv : LiveInv b live (b.w * b.h)) (c : Nat) : rd live c = 1 ↔ Pull b c := by
  obtain ⟨i1, i2, i3, i4⟩ := hinv
  constructor
  · intro h
    exact (i3 c (by rw [h]; simp)).1
  · intro h
    induction h with
    | goal c hc =>
      have hlt : c < b.w * b.h := hg ▸ rd_lt_of_ne_zero hc
      rcases i2 c with h0 | h1
      · exact absurd h0 (i4 c hlt hc)
      · exact h1
    | step c n _ hs ih =>
      have hn := (i3 c (by rw [ih]; simp)).2 n ((mem_live_next b c n).mpr hs)
      rcases i2 n with h0 | h1
      · exact absurd h0 hn
      · exact h1

/-- C13: `parse_board` returns when the fuel of the embedding exceeds the number
of cells, and in the board it returns `live[c] = 1` holds exactly for the cells
of the smallest set that contains every goal cell and is closed under the pull
step. -/
theorem parse_board_live_is_pull_closure (w h : Nat) (s : List Char) (fuel : Nat) (m : Machine)
    (hfuel : w * h < fuel) :
    ∃ b st m1, parse_board w h s fuel m = some (b, st, m1) ∧
      ∀ c, rd b.live c = 1 ↔ Pull b c := by
  have hw : (scanned w h s).w = w := rfl
  have hh : (scanned w h s).h = h := rfl
  have hgl : (scanned w h s).goals.length = (scanned w h s).w * (scanned w h s).h := by
    simp [scanned, (scan_board_length s 0 _).2]
  have hinv0 : LiveInv (scanned w h s) (List.replicate (w * h) 0) 0 := by
    refine ⟨by simp [hw, hh], fun x => Or.inl (rd_replicate_zero _ x), ?_, ?_⟩
    · intro x hx; exact absurd (rd_replicate_zero _ x) hx
    · intro g hg; omega
  obtain ⟨r, e, inv⟩ := place_loop_live (scanned w h s) s fuel (by rw [hw, hh]; exact hfuel)
    (w * h) 0 (List.replicate (w * h) 0,
      cells_of (scanned w h s).n_boxes ((newstate m none).2.mem (newstate m none).1).c, 0)
    (by rw [hw, hh]; omega) hinv0
  obtain ⟨live, cs, j⟩ := r
  unfold parse_board
  simp only
  rw [e]
  refine ⟨_, _, _, rfl, ?_⟩
  intro c
  have := live_inv_closed_iff (scanned w h s) live hgl inv c
  simp only
  rw [this]
  constructor
  · exact fun hp =>
      @pull_congr (scanned w h s) { scanned w h s with live := live } rfl rfl rfl rfl c hp
  · exact fun hp =>
      @pull_congr { scanned w h s with live := live } (scanned w h s) rfl rfl rfl rfl c hp

/-- Witness for C13: the layout of `row_board`. -/
theorem parse_board_live_is_pull_closure_witness :
    ∃ b st m1, parse_board 5 3 "######@$.######".toList 16 row_machine = some (b, st, m1) ∧
      ∀ c, rd b.live c = 1 ↔ Pull b c :=
  parse_board_live_is_pull_closure 5 3 "######@$.######".toList 16 row_machine (by decide)

/-- C14 (failing input): on the wall-free layout `open_layout` the explicit-stack
fill seeded at the goal cell 0 pushes a 49th entry on its 48-entry stack, while
the recursive fill of the sequential `parse_board` returns. -/
theorem mark_live_iterative_overflows :
    layout_w open_layout = 8 ∧ layout_h open_layout = 6 ∧
    seed_iterative (scanned 8 6 open_layout) 1000 48 0 (List.replicate 48 0) = Fill.overflow ∧
    (parse_board 8 6 open_layout 49 (Machine.start (fun _ => default) 0)).isSome = true := by
  refine ⟨by decide, by decide, by decide, by decide⟩

/-! ## Soundness of the live-set pruning -/

lemma coords {w a q r : Nat} (hw : 0 < w) (h1 : r + w * q = a) (h2 : r < w) :
    a / w = q ∧ a % w = r :=
  (Nat.div_mod_unique hw).mpr ⟨h1, h2⟩

lemma rdI_natCast (l : List Nat) (n : Nat) : rdI l (n : Int) = rd l n := by
  unfold rdI rd
  have : ¬ ((n : Int) < 0) := by omega
  simp [this]

lemma interior_lt (b : Board) (c : Nat) (h : interior b c) : c < b.w * b.h ∧ 0 < b.w := by
  obtain ⟨h1, h2, h3, h4⟩ := h
  have hw : 0 < b.w := by omega
  refine ⟨?_, hw⟩
  have hdm := Nat.div_add_mod c b.w
  have : b.w * (c / b.w + 1) ≤ b.w * b.h := Nat.mul_le_mul_left _ (by omega)
  have e : b.w * (c / b.w + 1) = b.w * (c / b.w) + b.w := by ring
  have := Nat.mod_lt c hw
  omega

/-- Geometry of one step from an interior cell `a` to an interior cell: the
destination as a natural number, and the pull step back from the cell one step
further. -/
lemma step_geometry (b : Board) (a : Nat) (d : Int × Int) (hd : d ∈ dirs) (ha : interior b a) :
    ∃ c1 c2 : Nat, ((a : Int) + d.1 * b.w + d.2 = c1) ∧ c1 ∈ [a - b.w, a + b.w, a - 1, a + 1] ∧
      (interior b c1 → ((c1 : Int) + d.1 * b.w + d.2 = c2) ∧
        c2 ∈ [c1 - b.w, c1 + b.w, c1 - 1, c1 + 1] ∧
        (rd b.board c1 ≠ wall → rd b.board a ≠ wall → pull_step b c2 c1)) := by
  obtain ⟨h1, h2, h3, h4⟩ := ha
  have hw : 0 < b.w := by omega
  have hdm := Nat.div_add_mod a b.w
  have hge : b.w ≤ a := by
    have : b.w * 1 ≤ b.w * (a / b.w) := Nat.mul_le_mul_left _ h1
    omega
  simp only [dirs, List.mem_cons, List.mem_singleton, List.not_mem_nil, or_false] at hd
  rcases hd with rfl | rfl | rfl | rfl
  · refine ⟨a + 1, a + 2, by push_cast; ring, by simp, ?_⟩
    rintro ⟨i1, i2, i3, i4⟩
    have e1 := coords hw (by omega : (a % b.w + 1) + b.w * (a / b.w) = a + 1) (by omega)
    rw [e1.2] at i4
    have e2 := coords hw (by omega : (a % b.w + 2) + b.w * (a / b.w) = a + 2) (by omega)
    refine ⟨by push_cast; ring, by simp, fun hb1 hba => ?_⟩
    right; right; left
    exact ⟨by rw [e2.2]; omega, by omega, hb1, by simpa using hba⟩
  · refine ⟨a - 1, a - 2, by push_cast [Nat.cast_sub (by omega : 1 ≤ a)]; ring, by simp, ?_⟩
    rintro ⟨i1, i2, i3, i4⟩
    have e1 := coords hw (by omega : (a % b.w - 1) + b.w * (a / b.w) = a - 1) (by omega)
    rw [e1.2] at i3
    have e2 := coords hw (by omega : (a % b.w - 2) + b.w * (a / b.w) = a - 2) (by omega)
    have ha2 : 2 ≤ a := by omega
    refine ⟨by push_cast [Nat.cast_sub (by omega : 1 ≤ a), Nat.cast_sub ha2]; ring,
      by simp; omega, fun hb1 hba => ?_⟩
    right; right; right
    refine ⟨by rw [e2.2]; omega, by omega, hb1, ?_⟩
    have : a - 2 + 2 = a := by omega
    rw [this]; exact hba
  · refine ⟨a - b.w, a - b.w * 2, by push_cast [Nat.cast_sub hge]; ring, by simp, ?_⟩
    rintro ⟨i1, i2, i3, i4⟩
    have hq : b.w * (a / b.w) = b.w * (a / b.w - 1) + b.w := by
      have : a / b.w = (a / b.w - 1) + 1 := by omega
      conv_lhs => rw [this]
      ring
    have e1 := coords hw (by omega : (a % b.w) + b.w * (a / b.w - 1) = a - b.w)
      (Nat.mod_lt _ hw)
    rw [e1.1] at i1
    have hq2 : b.w * (a / b.w) = b.w * (a / b.w - 2) + b.w * 2 := by
      have : a / b.w = (a / b.w - 2) + 2 := by omega
      conv_lhs => rw [this]
      ring
    have hge2 : b.w * 2 ≤ a := by omega
    have e2 := coords hw (by omega : (a % b.w) + b.w * (a / b.w - 2) = a - b.w * 2)
      (Nat.mod_lt _ hw)
    refine ⟨by push_cast [Nat.cast_sub hge, Nat.cast_sub hge2]; ring, by simp; omega,
      fun hb1 hba => ?_⟩
    right; left
    refine ⟨by rw [e2.1]; omega, by omega, hb1, ?_⟩
    have : a - b.w * 2 + b.w * 2 = a := by omega
    rw [this]; exact hba
  · refine ⟨a + b.w, a + b.w * 2, by push_cast; ring, by simp, ?_⟩
    rintro ⟨i1, i2, i3, i4⟩
    have e2 := coords hw (by
      have : b.w * (a / b.w + 2) = b.w * (a / b.w) + b.w * 2 := by ring
      omega : (a % b.w) + b.w * (a / b.w + 2) = a + b.w * 2) (Nat.mod_lt _ hw)
    refine ⟨by push_cast; ring, by simp; omega, fun hb1 hba => ?_⟩
    left
    refine ⟨by rw [e2.1]; omega, by omega, hb1, ?_⟩
    have : a + b.w * 2 - b.w * 2 = a := by omega
    rw [this]; exact hba

lemma mem_boxes_iff_find_box (n : Nat) (c : List Nat) (d : Int) (hlen : c.length = n + 1)
    (h0 : 0 ≤ d) : d.toNat ∈ boxes c ↔ find_box n c d ≠ 0 := by
  rw [mem_boxes_iff n c hlen]
  constructor
  · rintro ⟨i, hi, he⟩ hz
    exact find_box_zero _ _ _ hz i hi (by rw [he]; omega)
  · intro hne
    obtain ⟨k1, k2, k3⟩ := find_box_pos _ _ _ hne
    refine ⟨find_box n c d - 1, by omega, ?_⟩
    have : find_box n c d - 1 + 1 = find_box n c d := by omega
    rw [this]; omega

/-- An accepted move stays accepted, with the same result, on a board that
differs in the live flags only, provided the live check of that board passes. -/
lemma move_cells_live_congr (b b1 : Board) (hw : b1.w = b.w) (hh : b1.h = b.h)
    (hn : b1.n_boxes = b.n_boxes) (hb : b1.board = b.board) (c c1 : List Nat) (dy dx : Int)
    (hlen : c.length = b.n_boxes + 1) (h : move_cells b1 c dy dx = some c1)
    (hl : (dest b c dy dx).toNat ∈ boxes c → rdI b.live (dest b c dy dx + dy * b.w + dx) ≠ 0) :
    move_cells b c dy dx = some c1 := by
  unfold move_cells at h ⊢
  simp only [hw, hh, hn, hb] at h
  simp only [dest_eq] at h ⊢
  split at h
  · exact absurd h (by simp)
  rename_i h1
  rw [if_neg h1]
  split at h
  · exact absurd h (by simp)
  rename_i h2
  have hnn : 0 ≤ dest b c dy dx := by
    have hy := dest_eq b c dy dx
    rw [← hy]
    have h1' := not_or.mp h1
    have h1'' := not_or.mp (not_or.mp h1'.2).2
    have : (0:Int) ≤ (((c.getD 0 0 / b.w : Nat) : Int) + dy) * b.w :=
      mul_nonneg (by omega) (by omega)
    omega
  rw [if_neg]
  · exact h
  · rintro ⟨hat, hor⟩
    apply h2
    refine ⟨hat, ?_⟩
    rcases hor with hc | hc | hc
    · exact Or.inl hc
    · exact absurd hc (hl ((mem_boxes_iff_find_box _ c _ hlen hnn).mpr hat))
    · exact Or.inr (Or.inr hc)

lemma wall_enclosed_step (b : Board) (henc : wall_enclosed b) (a n : Nat) (ha : interior b a)
    (hopen : rd b.board a ≠ wall) (hn : n ∈ [a - b.w, a + b.w, a - 1, a + 1])
    (hnw : rd b.board n ≠ wall) : interior b n := by
  rcases henc a (interior_lt b a ha).1 ha hopen n hn with h | h
  · exact absurd h hnw
  · exact h

/-- One move under the rules without the live check, read backwards: when all
boxes of the successor are on live cells, the move passes the live check, all
boxes of the state itself are on live cells and the actor stays on an interior
cell that is not a wall. -/
lemma step_backward (b : Board) (henc : wall_enclosed b) (hfit : b.w * b.h ≤ 65536)
    (hclosed : ∀ x, rd b.live x ≠ 0 → ∀ n ∈ live_next b x, rd b.live n ≠ 0)
    (c c1 : List Nat) (d : Int × Int) (hd : d ∈ dirs) (hlen : c.length = b.n_boxes + 1)
    (hint : interior b (actor c)) (hopen : rd b.board (actor c) ≠ wall)
    (hmove : move_cells (free_rules b) c d.1 d.2 = some c1)
    (hlive : ∀ v ∈ boxes c1, rd b.live v ≠ 0) :
    move_cells b c d.1 d.2 = some c1 ∧ (∀ v ∈ boxes c, rd b.live v ≠ 0) ∧
    c1.length = b.n_boxes + 1 ∧ interior b (actor c1) ∧ rd b.board (actor c1) ≠ wall ∧
    ((dest b c d.1 d.2).toNat ∈ boxes c → rdI b.live (dest b c d.1 d.2 + d.1 * b.w + d.2) ≠ 0) := by
  obtain ⟨h0, hwall, hlen1, hact, hpush, hwalk⟩ :=
    move_cells_spec (free_rules b) c c1 d.1 d.2 hlen hmove
  have hdest : dest (free_rules b) c d.1 d.2 = dest b c d.1 d.2 := rfl
  have hbd : (free_rules b).board = b.board := rfl
  have hfw : ((free_rules b).w : Int) = b.w := rfl
  have hfn : (free_rules b).n_boxes = b.n_boxes := rfl
  simp only [hdest, hbd, hfw, hfn] at h0 hwall hact hpush hwalk hlen1
  obtain ⟨k1, k2, e1, m1, hrest⟩ := step_geometry b (actor c) d hd hint
  have hd1 : dest b c d.1 d.2 = (k1 : Int) := by unfold dest; exact e1
  rw [hd1] at hwall hpush hwalk hact h0 ⊢
  rw [rdI_natCast] at hwall
  have hk1int : interior b k1 := wall_enclosed_step b henc _ k1 hint hopen m1 hwall
  have hk1lt := (interior_lt b k1 hk1int).1
  obtain ⟨e2, m2, hpull⟩ := hrest hk1int
  rw [e2] at hpush ⊢
  simp only [Int.toNat_ofNat] at hpush hwalk ⊢
  have hact1 : actor c1 = k1 := by
    rw [hact]
    have : ((k1 : Int) % 65536) = k1 := Int.emod_eq_of_lt (by omega) (by omega)
    rw [this]; simp
  have hlandlive : k1 ∈ boxes c → rd b.live k2 ≠ 0 := by
    intro hin
    obtain ⟨hw2, -, -, hperm⟩ := hpush hin
    rw [rdI_natCast] at hw2
    have hk2int : interior b k2 := wall_enclosed_step b henc _ k2 hk1int hwall m2 hw2
    have hk2lt := (interior_lt b k2 hk2int).1
    have : ((k2 : Int) % 65536) = k2 := Int.emod_eq_of_lt (by omega) (by omega)
    rw [this] at hperm
    simp only [Int.toNat_ofNat] at hperm
    exact hlive k2 (hperm.mem_iff.mpr (List.mem_cons_self _ _))
  refine ⟨?_, ?_, hlen1, by rw [hact1]; exact hk1int, by rw [hact1]; exact hwall, ?_⟩
  · apply move_cells_live_congr b (free_rules b) rfl rfl rfl rfl c c1 d.1 d.2 hlen hmove
    rw [hd1, e2]
    simp only [Int.toNat_ofNat]
    intro hin
    rw [rdI_natCast]
    exact hlandlive hin
  · intro v hv
    by_cases hin : k1 ∈ boxes c
    · obtain ⟨hw2, -, -, hperm⟩ := hpush hin
      rw [rdI_natCast] at hw2
      have hk2int : interior b k2 := wall_enclosed_step b henc _ k2 hk1int hwall m2 hw2
      have hk2lt := (interior_lt b k2 hk2int).1
      have : ((k2 : Int) % 65536) = k2 := Int.emod_eq_of_lt (by omega) (by omega)
      rw [this] at hperm
      simp only [Int.toNat_ofNat] at hperm
      by_cases hvk : v = k1
      · subst hvk
        exact hclosed k2 (hlandlive hin) v ((mem_live_next b k2 v).mpr (hpull hwall hopen))
      · apply hlive v
        rw [hperm.mem_iff]
        exact List.mem_cons_of_mem _ ((List.mem_erase_of_ne hvk).mpr hv)
    · exact hlive v ((hwalk hin).mem_iff.mpr hv)
  · intro hin
    rw [rdI_natCast]
    exact hlandlive hin

lemma step_forward (b : Board) (henc : wall_enclosed b) (hfit : b.w * b.h ≤ 65536)
    (c c1 : List Nat) (d : Int × Int) (hd : d ∈ dirs) (hlen : c.length = b.n_boxes + 1)
    (hint : interior b (actor c)) (hopen : rd b.board (actor c) ≠ wall)
    (hmove : move_cells (free_rules b) c d.1 d.2 = some c1) :
    c1.length = b.n_boxes + 1 ∧ interior b (actor c1) ∧ rd b.board (actor c1) ≠ wall := by
  obtain ⟨h0, hwall, hlen1, hact, -, -⟩ :=
    move_cells_spec (free_rules b) c c1 d.1 d.2 hlen hmove
  have hdest : dest (free_rules b) c d.1 d.2 = dest b c d.1 d.2 := rfl
  have hbd : (free_rules b).board = b.board := rfl
  have hfn : (free_rules b).n_boxes = b.n_boxes := rfl
  simp only [hdest, hbd, hfn] at h0 hwall hact hlen1
  obtain ⟨k1, k2, e1, m1, -⟩ := step_geometry b (actor c) d hd hint
  have hd1 : dest b c d.1 d.2 = (k1 : Int) := by unfold dest; exact e1
  rw [hd1] at hwall hact
  rw [rdI_natCast] at hwall
  have hk1int : interior b k1 := wall_enclosed_step b henc _ k1 hint hopen m1 hwall
  have hk1lt := (interior_lt b k1 hk1int).1
  have hact1 : actor c1 = k1 := by
    rw [hact]
    have : ((k1 : Int) % 65536) = k1 := Int.emod_eq_of_lt (by omega) (by omega)
    rw [this]; simp
  exact ⟨hlen1, by rw [hact1]; exact hk1int, by rw [hact1]; exact hwall⟩

lemma live_inv_congr {b b1 : Board} (hw : b.w = b1.w) (hh : b.h = b1.h) (hb : b.board = b1.board)
    (hg : b.goals = b1.goals) {live : List Nat} {i : Nat} (h : LiveInv b live i) :
    LiveInv b1 live i := by
  obtain ⟨i1, i2, i3, i4⟩ := h
  have hnext : ∀ x, live_next b1 x = live_next b x := by
    intro x; unfold live_next; rw [← hw, ← hh, ← hb]
  refine ⟨by rw [← hw, ← hh]; exact i1, i2, ?_, ?_⟩
  · intro x hx
    refine ⟨pull_congr hw hh hb hg (i3 x hx).1, fun n hn => (i3 x hx).2 n ?_⟩
    rw [← hnext]; exact hn
  · intro g hgi hgoal
    exact i4 g hgi (by rw [hg]; exact hgoal)

/-- What the board returned by `parse_board` satisfies. -/
lemma parse_board_inv (w h : Nat) (s : List Char) (fuel : Nat) (m : Machine) (b : Board)
    (hfuel : w * h < fuel)
    (hp : (parse_board w h s fuel m).map (fun r => r.1) = some b) :
    b.w = w ∧ b.h = h ∧ b.goals.length = w * h ∧ b.board.length = w * h ∧
    b.n_boxes = (scanned w h s).n_boxes ∧ b.board = (scanned w h s).board ∧
    b.goals = (scanned w h s).goals ∧ LiveInv b b.live (w * h) := by
  have hgl : (scanned w h s).goals.length = w * h := by
    simp [scanned, (scan_board_length s 0 _).2]
  have hbl : (scanned w h s).board.length = w * h := by
    simp [scanned, (scan_board_length s 0 _).1]
  have hinv0 : LiveInv (scanned w h s) (List.replicate (w * h) 0) 0 := by
    refine ⟨by simp [scanned], fun x => Or.inl (rd_replicate_zero _ x), ?_, ?_⟩
    · intro x hx; exact absurd (rd_replicate_zero _ x) hx
    · intro g hg; omega
  obtain ⟨r, e, inv⟩ := place_loop_live (scanned w h s) s fuel hfuel
    (w * h) 0 (List.replicate (w * h) 0,
      cells_of (scanned w h s).n_boxes ((newstate m none).2.mem (newstate m none).1).c, 0)
    (by simp [scanned]) hinv0
  obtain ⟨live, cs, j⟩ := r
  unfold parse_board at hp
  simp only at hp
  rw [e] at hp
  simp only [Option.map_some', Option.some.injEq] at hp
  subst hp
  refine ⟨rfl, rfl, hgl, hbl, rfl, rfl, rfl, ?_⟩
  exact @live_inv_congr (scanned w h s) { scanned w h s with live := live } rfl rfl rfl rfl _ _ inv

lemma success_boxes (b : Board) (c : List Nat) (hlen : c.length = b.n_boxes + 1)
    (h : success b c = true) : ∀ v ∈ boxes c, rd b.goals v ≠ 0 := by
  intro v hv
  obtain ⟨i, hi, rfl⟩ := (mem_boxes_iff b.n_boxes c hlen v).mp hv
  unfold success at h
  rw [List.all_eq_true] at h
  have := h i (by simpa using hi)
  simpa using this

/-- Moves made under the rules without the live check that end with every box
on a goal: backward induction from the final state. -/
lemma run_backward (b : Board) (henc : wall_enclosed b) (hfit : b.w * b.h ≤ 65536)
    (hgl : b.goals.length = b.w * b.h) (hinv : LiveInv b b.live (b.w * b.h)) (cf : List Nat)
    (hgoal : success b cf = true) :
    ∀ (ds : List (Int × Int)) (c : List Nat), (∀ d ∈ ds, d ∈ dirs) → c.length = b.n_boxes + 1 →
      interior b (actor c) → rd b.board (actor c) ≠ wall →
      run_cells (free_rules b) ds c = some cf →
      run_cells b ds c = some cf ∧ pushes_live b ds c ∧ ∀ v ∈ boxes c, rd b.live v ≠ 0
  | [], c, _, hlen, _, _, hrun => by
    simp only [run_cells, Option.some.injEq] at hrun
    subst hrun
    refine ⟨rfl, trivial, fun v hv => ?_⟩
    have hg := success_boxes b c hlen hgoal v hv
    exact hinv.2.2.2 v (hgl ▸ rd_lt_of_ne_zero hg) hg
  | d :: ds, c, hds, hlen, hint, hopen, hrun => by
    unfold run_cells at hrun
    cases hm : move_cells (free_rules b) c d.1 d.2 with
    | none => rw [hm] at hrun; simp at hrun
    | some c1 =>
      rw [hm] at hrun
      simp only at hrun
      have hd := hds d (List.mem_cons_self _ _)
      obtain ⟨f1, f2, f3⟩ := step_forward b henc hfit c c1 d hd hlen hint hopen hm
      obtain ⟨r1, r2, r3⟩ := run_backward b henc hfit hgl hinv cf hgoal ds c1
        (fun k hk => hds k (List.mem_cons_of_mem _ hk)) f1 f2 f3 hrun
      obtain ⟨s1, s2, -, -, -, s6⟩ := step_backward b henc hfit
        (fun x hx => (hinv.2.2.1 x hx).2) c c1 d hd hlen hint hopen hm r3
      refine ⟨?_, ?_, s2⟩
      · unfold run_cells; rw [s1]; exact r1
      · unfold pushes_live; rw [hm]; exact ⟨s6, r2⟩

/-- C12: live-set pruning is sound. On a wall-enclosed board parsed by
`parse_board` (at most `2^16` cells), from any state whose actor is on an
interior non-wall cell, for every finite sequence of moves that is legal under
the rules without the live check and ends with every box on a goal: no push of
the sequence places a box on a cell whose live flag is `0`, and the same
sequence is accepted by `move_me` with the same resulting cells. -/
theorem live_pruning_sound (w h : Nat) (s : List Char) (fuel : Nat) (m : Machine) (b : Board)
    (hfuel : w * h < fuel)
    (hp : (parse_board w h s fuel m).map (fun r => r.1) = some b)
    (hfit : w * h ≤ 65536) (henc : wall_enclosed b)
    (c : List Nat) (hlen : c.length = b.n_boxes + 1)
    (hint : interior b (actor c)) (hopen : rd b.board (actor c) ≠ wall)
    (ds : List (Int × Int)) (hds : ∀ d ∈ ds, d ∈ dirs) (cf : List Nat)
    (hrun : run_cells (free_rules b) ds c = some cf) (hgoal : success b cf = true) :
    pushes_live b ds c ∧ run_cells b ds c = some cf := by
  obtain ⟨hw, hh, hgl, -, -, -, -, hinv⟩ := parse_board_inv w h s fuel m b hfuel hp
  rw [← hw, ← hh] at hfit hgl hinv
  obtain ⟨r1, r2, -⟩ := run_backward b henc hfit hgl hinv cf hgoal ds c hds hlen hint hopen hrun
  exact ⟨r2, r1⟩

/-- Witness for C12: the single push to the right on `row_layout`. -/
theorem live_pruning_sound_witness :
    pushes_live ⟨6, 3, 1, [1, 1, 1, 1, 1, 0, 1, 0, 0, 0, 1, 0, 1, 1, 1, 1, 1, 0],
        [0, 0, 0, 0, 0, 0, 0, 0, 0, 1, 0, 0, 0, 0, 0, 0, 0, 0],
        [0, 0, 0, 0, 0, 0, 0, 0, 1, 1, 0, 0, 0, 0, 0, 0, 0, 0]⟩ [(0, 1)] [7, 8] ∧
    run_cells ⟨6, 3, 1, [1, 1, 1, 1, 1, 0, 1, 0, 0, 0, 1, 0, 1, 1, 1, 1, 1, 0],
        [0, 0, 0, 0, 0, 0, 0, 0, 0, 1, 0, 0, 0, 0, 0, 0, 0, 0],
        [0, 0, 0, 0, 0, 0, 0, 0, 1, 1, 0, 0, 0, 0, 0, 0, 0, 0]⟩ [(0, 1)] [7, 8] = some [8, 9] :=
  live_pruning_sound 6 3 row_layout 19 (Machine.start (fun _ => default) 0) _
    (by decide) (by decide) (by decide) (by decide) [7, 8] (by decide) (by decide) (by decide)
    [(0, 1)] (by decide) [8, 9] (by decide) (by decide)

/-! ## The initial state of a layout -/

lemma rd_set_ne_zero (l : List Nat) (i x : Nat) (h : rd l x ≠ 0) : rd (l.set i 1) x ≠ 0 := by
  rw [rd_set]
  split_ifs
  · simp
  · exact h

lemma scan_board_goals_mono : ∀ (s : List Char) (i : Nat) (acc : List Nat × List Nat × Nat)
    (x : Nat), rd acc.2.1 x ≠ 0 → rd (scan_board s i acc).2.1 x ≠ 0
  | [], _, _, _, h => by simpa [scan_board] using h
  | ch :: rest, i, (bd, gl, n), x, h => by
    unfold scan_board
    split_ifs
    · exact h
    · exact scan_board_goals_mono rest (i + 1) _ x h
    · exact scan_board_goals_mono rest (i + 1) _ x (rd_set_ne_zero gl i x h)
    · exact scan_board_goals_mono rest (i + 1) _ x (rd_set_ne_zero gl i x h)
    · exact scan_board_goals_mono rest (i + 1) _ x h
    · exact scan_board_goals_mono rest (i + 1) _ x h

lemma scan_board_spec : ∀ (s : List Char) (i : Nat) (acc : List Nat × List Nat × Nat),
    nul ∉ s →
    (scan_board s i acc).2.2 = acc.2.2 + s.countP is_box ∧
    ∀ k, k < s.length → s.getD k nul = '*' → i + k < acc.2.1.length →
      rd (scan_board s i acc).2.1 (i + k) ≠ 0
  | [], _, _, _ => by simp [scan_board]
  | ch :: rest, i, (bd, gl, n), hnul => by
    have hch : ch ≠ nul := fun e => hnul (e ▸ List.mem_cons_self _ _)
    have hrest : nul ∉ rest := fun e => hnul (List.mem_cons_of_mem _ e)
    have key : ∀ (acc1 : List Nat × List Nat × Nat), acc1.2.1.length = gl.length →
        (ch = '*' → rd acc1.2.1 i ≠ 0) →
        ∀ k, k < (ch :: rest).length → (ch :: rest).getD k nul = '*' → i + k < gl.length →
          rd (scan_board rest (i + 1) acc1).2.1 (i + k) ≠ 0 := by
      intro acc1 hl h0 k hk hs hik
      cases k with
      | zero =>
        exact scan_board_goals_mono rest (i + 1) acc1 i (h0 (by simpa using hs))
      | succ k =>
        have := (scan_board_spec rest (i + 1) acc1 hrest).2 k (by simpa using hk)
          (by simpa using hs) (by omega)
        have e : i + 1 + k = i + (k + 1) := by omega
        rw [e] at this; exact this
    unfold scan_board
    rw [if_neg hch]
    split_ifs with h1 h2 h3 h4
    · refine ⟨?_, key _ rfl (fun e => by rw [h1] at e; exact absurd e (by decide))⟩
      rw [(scan_board_spec rest (i + 1) _ hrest).1]
      simp [List.countP_cons, is_box, h1]
    · refine ⟨?_, key _ (by simp) (fun e => by
        rcases h2 with h2 | h2 <;> rw [h2] at e <;> exact absurd e (by decide))⟩
      rw [(scan_board_spec rest (i + 1) _ hrest).1]
      rcases h2 with h2 | h2 <;> simp [List.countP_cons, is_box, h2]
    · refine ⟨?_, ?_⟩
      · rw [(scan_board_spec rest (i + 1) _ hrest).1]
        simp [List.countP_cons, is_box, h3]; omega
      · intro k hk hs hik
        refine key (bd, gl.set i 1, n + 1) (by simp) (fun _ => ?_) k hk hs hik
        have hi : i < gl.length := by simp at hik; omega
        rw [rd_set]
        simp [hi]
    · refine ⟨?_, key _ rfl (fun e => absurd e h3)⟩
      rw [(scan_board_spec rest (i + 1) _ hrest).1]
      simp [List.countP_cons, is_box, h4]; omega
    · refine ⟨?_, key _ rfl (fun e => absurd e h3)⟩
      rw [(scan_board_spec rest (i + 1) _ hrest).1]
      simp [List.countP_cons, is_box, h3, h4]

lemma countP_take_succ (s : List Char) (i : Nat) :
    (s.take (i + 1)).countP is_box =
      (s.take i).countP is_box + (if is_box (s.getD i nul) then 1 else 0) := by
  rw [List.take_succ, List.countP_append]
  by_cases hi : i < s.length
  · rw [List.getElem?_eq_getElem hi, List.getD_eq_getElem _ _ hi]
    simp [List.countP_cons]
  · rw [List.getElem?_eq_none (by omega), List.getD_eq_default _ _ (by omega)]
    simp [is_box, nul]

lemma place_loop_cells (b : Board) (s : List Char) (fuel : Nat) (hs : '$' ∉ s)
    (hgoals : ∀ i, i < s.length → s.getD i nul = '*' → i < b.w * b.h → rd b.goals i ≠ 0)
    (hn : b.n_boxes = s.countP is_box) (hfit : b.w * b.h ≤ 65536) :
    ∀ (k i : Nat) (acc r : List Nat × List Nat × Nat), i + k = b.w * b.h →
      place_loop b s fuel k i acc = some r → CellInv b s i acc → CellInv b s (b.w * b.h) r
  | 0, i, acc, r, hik, hr, hinv => by
    simp only [place_loop, Option.some.injEq] at hr
    subst hr
    have : i = b.w * b.h := by omega
    rw [← this]; exact hinv
  | k + 1, i, (live, cs, j), r, hik, hr, hinv => by
    obtain ⟨i1, i2, i3⟩ := hinv
    simp only at i1 i2 i3
    unfold place_loop at hr
    cases hm : (if rd b.goals i ≠ 0 then mark_live b fuel live i else some live) with
    | none => rw [hm] at hr; simp at hr
    | some live1 =>
      rw [hm] at hr
      simp only at hr
      have hct := countP_take_succ s i
      split_ifs at hr with h1 h2
      · have hbox : is_box (s.getD i nul) = true := by simpa [is_box] using h1
        have hlt : i < s.length := by
          by_contra hge
          rw [List.getD_eq_default _ _ (by omega)] at hbox
          revert hbox; decide
        have hstar : s.getD i nul = '*' := by
          rcases h1 with h1 | h1
          · exfalso; apply hs
            rw [← h1, List.getD_eq_getElem _ _ hlt]; exact List.getElem_mem hlt
          · exact h1
        rw [hbox] at hct
        simp only [if_true] at hct
        have hle : (s.take (i + 1)).countP is_box ≤ s.countP is_box :=
          (List.take_sublist _ _).countP_le _
        have hj : j + 1 < cs.length := by omega
        apply place_loop_cells b s fuel hs hgoals hn hfit k (i + 1) _ r (by omega) hr
        refine ⟨by simp [i1], by simp only; rw [hct, i2], ?_⟩
        intro t ht1 ht2
        simp only at ht2 ⊢
        by_cases htj : t = j + 1
        · subst htj
          rw [List.getD_eq_getElem _ _ (by simpa using hj)]
          simp only [List.getElem_set_self]
          rw [Nat.mod_eq_of_lt (by omega)]
          exact hgoals i hlt hstar (by omega)
        · rw [List.getD_eq_getElem?_getD, List.getElem?_set_ne (by omega),
            ← List.getD_eq_getElem?_getD]
          exact i3 t ht1 (by omega)
      · have hbox : is_box (s.getD i nul) = false := by simpa [is_box] using h1
        rw [hbox] at hct
        apply place_loop_cells b s fuel hs hgoals hn hfit k (i + 1) _ r (by omega) hr
        refine ⟨by simp [i1], by simp only; rw [hct, i2]; simp, ?_⟩
        intro t ht1 ht2
        simp only at ht2 ⊢
        rw [List.getD_eq_getElem?_getD, List.getElem?_set_ne (by omega),
          ← List.getD_eq_getElem?_getD]
        exact i3 t ht1 ht2
      · have hbox : is_box (s.getD i nul) = false := by simpa [is_box] using h1
        rw [hbox] at hct
        apply place_loop_cells b s fuel hs hgoals hn hfit k (i + 1) _ r (by omega) hr
        exact ⟨i1, by simp only; rw [hct, i2]; simp, i3⟩

lemma extend_table_start (m : Machine) (h0 : m.hash_size = 0) (hb : m.buckets = []) :
    extend_table m = { m with hash_size := 1024, filled := 0, fill_limit := 768,
                              buckets := List.replicate 1024 [] } := by
  unfold extend_table
  simp only [h0, hb, ↓reduceIte, List.take_nil, List.nil_append, Nat.sub_zero, rehash]

lemma hash_mem (b : Board) (m : Machine) (s q : Nat) :
    ((hash b m s).mem q).c = (m.mem q).c ∧ ((hash b m s).mem q).prev = (m.mem q).prev ∧
    (hash b m s).next_level = m.next_level ∧ (hash b m s).done = m.done := by
  unfold hash
  split
  · by_cases hq : q = s
    · subst hq; simp [upd]
    · simp [upd, hq]
  · simp

lemma getD_replicate_nil (n i : Nat) : (List.replicate n ([] : List Nat)).getD i [] = [] := by
  by_cases h : i < n
  · rw [List.getD_eq_getElem _ _ (by simpa using h)]; simp
  · rw [List.getD_eq_default _ _ (by simpa using h)]

/-- Inserting into a table all of whose buckets are empty and which is below
its fill limit: the state is admitted and only the table changes. -/
lemma add_to_table_empty (b : Board) (m : Machine) (s : Nat)
    (hb : ∀ i, m.buckets.getD i [] = []) (hf : m.filled < m.fill_limit) :
    (add_to_table b m s).1 = true ∧
    (∀ q, ((add_to_table b m s).2.mem q).c = (m.mem q).c ∧
          ((add_to_table b m s).2.mem q).prev = (m.mem q).prev) ∧
    (add_to_table b m s).2.next_level = m.next_level ∧ (add_to_table b m s).2.done = m.done := by
  obtain ⟨h1, h2, h3, h4⟩ := hash_sizes b m s
  have hfind : (lookup b m s).1 = none := by
    unfold lookup
    simp only [h4, hb, List.find?_nil]
  have hl2 : (lookup b m s).2 = hash b m s := rfl
  unfold add_to_table
  simp only [hfind, hl2, h2, h3]
  have hnot : ¬ (m.filled ≥ m.fill_limit) := by omega
  simp only [if_neg hnot]
  refine ⟨trivial, fun q => ⟨(hash_mem b m s q).1, (hash_mem b m s q).2.1⟩,
    (hash_mem b m s 0).2.2.1, (hash_mem b m s 0).2.2.2⟩

lemma place_loop_length (b : Board) (s : List Char) (fuel : Nat) :
    ∀ (k i : Nat) (acc r : List Nat × List Nat × Nat),
      place_loop b s fuel k i acc = some r → r.2.1.length = acc.2.1.length
  | 0, _, acc, r, hr => by
    simp only [place_loop, Option.some.injEq] at hr
    rw [← hr]
  | k + 1, i, (live, cs, j), r, hr => by
    unfold place_loop at hr
    cases hm : (if rd b.goals i ≠ 0 then mark_live b fuel live i else some live) with
    | none => rw [hm] at hr; simp at hr
    | some live1 =>
      rw [hm] at hr
      simp only at hr
      split_ifs at hr
      · rw [place_loop_length b s fuel k (i + 1) _ r hr]; simp
      · rw [place_loop_length b s fuel k (i + 1) _ r hr]; simp
      · rw [place_loop_length b s fuel k (i + 1) _ r hr]

/-- The result of `parse_board` on the start-up machine, field by field. -/
lemma parse_board_start (w h : Nat) (s : List Char) (fuel : Nat) (mem : Nat → Slot) (brk : Nat)
    (b : Board) (st : Nat) (m1 : Machine)
    (hp : parse_board w h s fuel (Machine.start mem brk) = some (b, st, m1)) :
    st = brk + 1 ∧ (m1.mem st).h = 0 ∧ (m1.mem st).prev = none ∧
    (m1.mem st).c.length = b.n_boxes + 1 ∧
    m1.hash_size = 0 ∧ m1.buckets = [] ∧ m1.next_level = [] ∧ m1.done = none ∧
    m1.brk = brk + 64 ∧ m1.block_size = 64 ∧ m1.block_root = [brk] ∧
    m1.block_head = (List.range 62).map (fun k => brk + 2 + k) ∧
    (∃ live j, place_loop (scanned w h s) s fuel (w * h) 0
      (List.replicate (w * h) 0, cells_of (scanned w h s).n_boxes (mem (brk + 1)).c, 0)
        = some (live, (m1.mem st).c, j) ∧ b = { scanned w h s with live := live }) := by
  unfold parse_board at hp
  simp only at hp
  have hn1 : (newstate (Machine.start mem brk) none).1 = brk + 1 := rfl
  have hn2 : (newstate (Machine.start mem brk) none).2.mem (brk + 1)
      = ⟨0, none, (mem (brk + 1)).c⟩ := by
    simp [newstate, grow_arena, Machine.start, upd]
  rw [hn1, hn2] at hp
  cases hpl : place_loop (scanned w h s) s fuel (w * h) 0
      (List.replicate (w * h) 0, cells_of (scanned w h s).n_boxes (mem (brk + 1)).c, 0) with
  | none => rw [hpl] at hp; simp at hp
  | some r =>
    obtain ⟨live, cs, j⟩ := r
    have hlen := place_loop_length _ s fuel _ _ _ _ hpl
    rw [hpl] at hp
    simp only [Option.some.injEq, Prod.mk.injEq] at hp
    obtain ⟨hb, hst, hm⟩ := hp
    subst hb hst hm
    simp only at hlen
    refine ⟨rfl, by simp [upd], by simp [upd], ?_, rfl, rfl, rfl, rfl, rfl, rfl, rfl, rfl,
      live, j, by simp [upd], rfl⟩
    simp only [upd, if_true]
    rw [hlen]
    simp [cells_of]

/-- C18: for a layout in which no box is off a goal (no `$`; also a layout
without boxes), `queue_move` of the initial state sets `done` to the initial
state, the search loop is left at once with an empty next frontier and the
machine untouched (no state is expanded), and `show_moves` prints only the
terminating newline, so the run ends solved. The layout is a C string that fits
the grid of at most `2^16` cells. -/
theorem solved_layout_immediate (w h : Nat) (s : List Char) (fuel : Nat) (mem : Nat → Slot)
    (brk : Nat) (hfuel : w * h < fuel) (hlen : s.length ≤ w * h) (hnul : nul ∉ s)
    (hfit : w * h ≤ 65536) (hgoal : '$' ∉ s) :
    ∃ b st m1, parse_board w h s fuel (Machine.start mem brk) = some (b, st, m1) ∧
      (queue_move b (extend_table m1) (some st)).1 = true ∧
      (queue_move b (extend_table m1) (some st)).2.done = some st ∧
      (queue_move b (extend_table m1) (some st)).2.next_level = [] ∧
      search b fuel (queue_move b (extend_table m1) (some st)).2
        = some (true, (queue_move b (extend_table m1) (some st)).2) ∧
      run w h s fuel (Machine.start mem brk) = some (Exit.solved ['\n']) := by
  obtain ⟨b, st, m1, hp, -⟩ := parse_board_live_is_pull_closure w h s fuel
    (Machine.start mem brk) hfuel
  obtain ⟨hst, hh0, hprev, hclen, hs0, hbk, hnl, hdone, -, -, -, -, live, j, hpl, hb⟩ :=
    parse_board_start w h s fuel mem brk b st m1 hp
  have hscan := scan_board_spec s 0 (List.replicate (w * h) 0, List.replicate (w * h) 0, 0) hnul
  have hn : (scanned w h s).n_boxes = s.countP is_box := by
    simp only [scanned]; rw [hscan.1]; simp
  have hgoals : ∀ i, i < s.length → s.getD i nul = '*' → i < (scanned w h s).w * (scanned w h s).h →
      rd (scanned w h s).goals i ≠ 0 := by
    intro i hi hs hiN
    have := hscan.2 i hi hs (by simpa [scanned] using hiN)
    simpa [scanned] using this
  have hcinv := place_loop_cells (scanned w h s) s fuel hgoal hgoals hn hfit (w * h) 0 _ _
    (by simp [scanned]) hpl
    ⟨by simp [cells_of], by simp, fun t h1 h2 => by simp at h2; omega⟩
  obtain ⟨-, c2, c3⟩ := hcinv
  simp only at c2 c3
  have hj : j = b.n_boxes := by
    rw [c2, hb]
    simp only [scanned] at hn ⊢
    rw [List.take_of_length_le (by simpa [scanned] using hlen), hn]
  have hsucc : success b (m1.mem st).c = true := by
    unfold success
    rw [List.all_eq_true]
    intro i hi
    have hi' : i < b.n_boxes := by simpa using hi
    have := c3 (i + 1) (by omega) (by omega)
    rw [hb]
    simpa using this
  have hext := extend_table_start m1 hs0 hbk
  have hadd := add_to_table_empty b (extend_table m1) st
    (by rw [hext]; exact fun i => getD_replicate_nil 1024 i) (by rw [hext]; simp)
  obtain ⟨a1, a2, a3, a4⟩ := hadd
  have hqm : queue_move b (extend_table m1) (some st) =
      (true, { (add_to_table b (extend_table m1) st).2 with done := some st }) := by
    unfold queue_move
    simp only [a1]
    have hc : ((add_to_table b (extend_table m1) st).2.mem st).c = (m1.mem st).c := by
      rw [(a2 st).1, hext]
    rw [hc, hsucc]
    simp
  have hfuel1 : ∃ f, fuel = f + 1 := ⟨fuel - 1, by omega⟩
  obtain ⟨f, rfl⟩ := hfuel1
  have hsearch : search b (f + 1) (queue_move b (extend_table m1) (some st)).2
      = some (true, (queue_move b (extend_table m1) (some st)).2) := by
    rw [hqm]; simp [search]
  have hshow : show_moves b (queue_move b (extend_table m1) (some st)).2.mem (f + 1) st (-1)
      = some (Shown.printed ['\n']) := by
    have hpr : ((queue_move b (extend_table m1) (some st)).2.mem st).prev = none := by
      rw [hqm]; simp only; rw [(a2 st).2, hext]; exact hprev
    simp [show_moves, hpr]
  refine ⟨b, st, m1, hp, by rw [hqm], by rw [hqm], ?_, hsearch, ?_⟩
  · rw [hqm]; simp only; rw [a3, hext]; exact hnl
  · unfold run
    rw [hp]
    simp only
    rw [hsearch]
    simp only
    have hd : (queue_move b (extend_table m1) (some st)).2.done = some st := by rw [hqm]
    rw [hd]
    simp only [Option.getD_some]
    rw [hshow]

/-- Witness for C18: the layout `#####` / `#@*.#` / `#####`. -/
theorem solved_layout_immediate_witness :
    ∃ b st m1, parse_board 6 3 "#####\n#@*.#\n#####\n".toList 19
        (Machine.start (fun _ => default) 0) = some (b, st, m1) ∧
      (queue_move b (extend_table m1) (some st)).1 = true ∧
      (queue_move b (extend_table m1) (some st)).2.done = some st ∧
      (queue_move b (extend_table m1) (some st)).2.next_level = [] ∧
      search b 19 (queue_move b (extend_table m1) (some st)).2
        = some (true, (queue_move b (extend_table m1) (some st)).2) ∧
      run 6 3 "#####\n#@*.#\n#####\n".toList 19 (Machine.start (fun _ => default) 0)
        = some (Exit.solved ['\n']) :=
  solved_layout_immediate 6 3 "#####\n#@*.#\n#####\n".toList 19 (fun _ => default) 0
    (by decide) (by decide) (by decide) (by decide) (by decide)

/-! ## Round trip of the move string -/

/-- C15 (failing input): on `wrap_layout` (`w = 4`, `h = 4`) the run ends solved
and `show_moves` prints `rlD`: the second step, accepted by `move_me` because
its bound test is `x1 > w`, takes the actor from the newline column of row 0
to column 0 of row 1 and is printed as `l`. Replaying `rlD` from the initial
state with `move_me` is rejected at the third letter. -/
theorem replay_diverges_on_wrap_layout :
    layout_w wrap_layout = 4 ∧ layout_h wrap_layout = 4 ∧
    main wrap_layout 50 (Machine.start (fun _ => default) 0)
      = some (Exit.solved ['r', 'l', 'D', '\n']) ∧
    (parse_board 4 4 wrap_layout 50 (Machine.start (fun _ => default) 0)).map
      (fun r => (move_cells r.1 [3, 8] 0 1, replay r.1 ['r', 'l', 'D'] (r.2.2.mem r.2.1).c))
      = some (some [4, 8], none) := by
  refine ⟨by decide, by decide, by decide, by decide⟩

/-! ## State hash table -/

lemma getD_set_list {α : Type} (l : List α) (j idx : Nat) (x d : α) :
    (l.set j x).getD idx d = if idx = j ∧ j < l.length then x else l.getD idx d := by
  rw [List.getD_eq_getElem?_getD, List.getD_eq_getElem?_getD, List.getElem?_set]
  by_cases h : j = idx
  · subst h
    by_cases h2 : j < l.length
    · simp [h2]
    · simp [h2, List.getElem?_eq_none (by omega : l.length ≤ j)]
  · have : ¬ idx = j := fun e => h e.symm
    simp [h, this]

lemma flatten_set_cons : ∀ (bk : List (List Nat)) (j p : Nat), j < bk.length →
    (bk.set j (p :: bk.getD j [])).flatten.Perm (p :: bk.flatten)
  | [], _, _, h => by simp at h
  | c :: t, 0, p, _ => by simp
  | c :: t, j + 1, p, h => by
    have ih := flatten_set_cons t j p (by simpa using h)
    simp only [List.set_cons_succ, List.getD_cons_succ, List.flatten_cons]
    exact (List.Perm.append_left c ih).trans List.perm_middle

lemma flatten_set_nil : ∀ (bk : List (List Nat)) (i : Nat),
    ((bk.set i []).flatten ++ bk.getD i []).Perm bk.flatten
  | [], _ => by simp
  | c :: t, 0 => by
    simp only [List.set_cons_zero, List.flatten_cons, List.nil_append, List.getD_cons_zero]
    exact List.perm_append_comm
  | c :: t, i + 1 => by
    have ih := flatten_set_nil t i
    simp only [List.set_cons_succ, List.getD_cons_succ, List.flatten_cons, List.append_assoc]
    exact List.Perm.append_left c ih

lemma mem_flatten_iff_getD (bk : List (List Nat)) (p : Nat) :
    p ∈ bk.flatten ↔ ∃ i, p ∈ bk.getD i [] := by
  rw [List.mem_flatten]
  constructor
  · rintro ⟨l, hl, hp⟩
    obtain ⟨i, hi, rfl⟩ := List.mem_iff_getElem.mp hl
    exact ⟨i, by rw [List.getD_eq_getElem _ _ hi]; exact hp⟩
  · rintro ⟨i, hp⟩
    by_cases hi : i < bk.length
    · rw [List.getD_eq_getElem _ _ hi] at hp
      exact ⟨bk[i], List.getElem_mem hi, hp⟩
    · rw [List.getD_eq_default _ _ (by omega)] at hp
      simp at hp

/-- The inner loop of `extend_table`: every state of the chain goes to the head
of the bucket its cached hash selects. -/
lemma rehash_chain_spec (mem : Nat → Slot) (bits N : Nat) :
    ∀ (chain : List Nat) (bk : List (List Nat)), bk.length = N → bits < N →
      (rehash_chain mem bits chain bk).length = N ∧
      (rehash_chain mem bits chain bk).flatten.Perm (chain ++ bk.flatten) ∧
      ∀ idx p, p ∈ (rehash_chain mem bits chain bk).getD idx [] ↔
        (p ∈ chain ∧ (mem p).h &&& bits = idx) ∨ p ∈ bk.getD idx []
  | [], bk, hl, _ => by simp [rehash_chain, hl]
  | head :: next, bk, hl, hb => by
    have hj : (mem head).h &&& bits < bk.length := by
      have := @Nat.and_le_right (mem head).h bits
      omega
    obtain ⟨r1, r2, r3⟩ := rehash_chain_spec mem bits N next
      (bk.set ((mem head).h &&& bits) (head :: bk.getD ((mem head).h &&& bits) []))
      (by simp [hl]) hb
    unfold rehash_chain
    refine ⟨r1, ?_, ?_⟩
    · refine r2.trans ?_
      refine (List.Perm.append_left next (flatten_set_cons bk _ head hj)).trans ?_
      exact List.perm_middle
    · intro idx p
      rw [r3 idx p, getD_set_list]
      by_cases hidx : idx = (mem head).h &&& bits
      · rw [if_pos ⟨hidx, hj⟩]
        simp only [List.mem_cons]
        constructor
        · rintro (⟨h1, h2⟩ | rfl | h3)
          · exact Or.inl ⟨Or.inr h1, h2⟩
          · exact Or.inl ⟨Or.inl rfl, hidx.symm⟩
          · exact Or.inr (hidx ▸ h3)
        · rintro (⟨rfl | h1, h2⟩ | h3)
          · exact Or.inr (Or.inl rfl)
          · exact Or.inl ⟨h1, h2⟩
          · exact Or.inr (Or.inr (hidx ▸ h3))
      · rw [if_neg (fun h => hidx h.1)]
        simp only [List.mem_cons]
        constructor
        · rintro (⟨h1, h2⟩ | h3)
          · exact Or.inl ⟨Or.inr h1, h2⟩
          · exact Or.inr h3
        · rintro (⟨rfl | h1, h2⟩ | h3)
          · exact absurd h2.symm hidx
          · exact Or.inl ⟨h1, h2⟩
          · exact Or.inr h3

/-- The outer loop of `extend_table`: the stored states are kept and every
state of a bucket already visited, or beyond the old size, sits in the bucket
its cached hash selects. -/
lemma rehash_spec (mem : Nat → Slot) (bits N old : Nat) (hb : bits < N) (hold : old ≤ N) :
    ∀ (k i : Nat) (bk : List (List Nat)), i + k = old → bk.length = N →
      (∀ idx, (idx < i ∨ old ≤ idx) → ∀ p ∈ bk.getD idx [], (mem p).h &&& bits = idx) →
      (rehash mem bits k i bk).length = N ∧
      (rehash mem bits k i bk).flatten.Perm bk.flatten ∧
      (∀ idx, (idx < old ∨ old ≤ idx) → ∀ p ∈ (rehash mem bits k i bk).getD idx [],
        (mem p).h &&& bits = idx)
  | 0, i, bk, hik, hl, hinv => by
    refine ⟨hl, List.Perm.refl _, fun idx hidx p hp => hinv idx ?_ p hp⟩
    rcases hidx with h | h
    · exact Or.inl (by omega)
    · exact Or.inr h
  | k + 1, i, bk, hik, hl, hinv => by
    obtain ⟨c1, c2, c3⟩ := rehash_chain_spec mem bits N (bk.getD i []) (bk.set i [])
      (by simp [hl]) hb
    obtain ⟨r1, r2, r3⟩ := rehash_spec mem bits N old hb hold k (i + 1)
      (rehash_chain mem bits (bk.getD i []) (bk.set i [])) (by omega) c1 (by
        intro idx hidx p hp
        rw [c3 idx p, getD_set_list] at hp
        rcases hp with ⟨-, h2⟩ | h3
        · exact h2
        · by_cases hii : idx = i
          · have hi : i < bk.length := by omega
            rw [if_pos ⟨hii, hi⟩] at h3
            simp at h3
          · rw [if_neg (fun h => hii h.1)] at h3
            refine hinv idx ?_ p h3
            rcases hidx with h | h
            · exact Or.inl (by omega)
            · exact Or.inr h)
    unfold rehash
    refine ⟨r1, ?_, r3⟩
    refine r2.trans (c2.trans ?_)
    exact List.perm_append_comm.trans (flatten_set_nil bk i)

lemma flatten_replicate_nil (n : Nat) : (List.replicate n ([] : List Nat)).flatten = [] := by
  induction n with
  | zero => rfl
  | succ n ih => simp [List.replicate_succ, ih]

/-- A capacity-doubling `extend_table` on a table of `2^k` buckets, `k ≤ 30`:
sizes double, the stored states are kept, every state ends in the bucket its
cached hash selects under the new mask, and nothing else changes. -/
lemma extend_table_grow (m : Machine) (k : Nat) (hk : k ≤ 30) (hs : m.hash_size = 2 ^ k)
    (hfl : m.fill_limit = 3 * 2 ^ (k - 2)) (hk2 : 2 ≤ k) (hl : m.buckets.length = m.hash_size) :
    (extend_table m).hash_size = 2 ^ (k + 1) ∧
    (extend_table m).fill_limit = 3 * 2 ^ (k + 1 - 2) ∧
    (extend_table m).filled = m.filled ∧
    (extend_table m).buckets.length = 2 ^ (k + 1) ∧
    (stored (extend_table m)).Perm (stored m) ∧
    (∀ idx p, p ∈ (extend_table m).buckets.getD idx [] →
      (m.mem p).h &&& mask (extend_table m) = idx) ∧
    (extend_table m).mem = m.mem ∧ (extend_table m).next_level = m.next_level ∧
    (extend_table m).done = m.done ∧ (extend_table m).block_head = m.block_head ∧
    (extend_table m).brk = m.brk ∧ (extend_table m).block_size = m.block_size ∧
    (extend_table m).block_root = m.block_root := by
  have hpow : (2:Nat) ^ k ≤ 2 ^ 30 := Nat.pow_le_pow_right (by norm_num) hk
  have hpow2 : (2:Nat) ^ (k - 2) ≤ 2 ^ 28 := Nat.pow_le_pow_right (by norm_num) (by omega)
  have hpos : 0 < (2:Nat) ^ k := Nat.pos_pow_of_pos _ (by norm_num)
  have hne : m.hash_size ≠ 0 := by rw [hs]; omega
  have h2k : (2:Nat) ^ (k + 1) = 2 ^ k * 2 := pow_succ 2 k
  have h2k2 : (2:Nat) ^ (k + 1 - 2) = 2 ^ (k - 2) * 2 := by
    have : k + 1 - 2 = (k - 2) + 1 := by omega
    rw [this, pow_succ]
  have e1 : (m.hash_size * 2) % 2 ^ 32 = 2 ^ (k + 1) := by
    rw [hs, h2k]; apply Nat.mod_eq_of_lt; norm_num at hpow ⊢; omega
  have e2 : (m.fill_limit * 2) % 2 ^ 32 = 3 * 2 ^ (k + 1 - 2) := by
    rw [hfl, h2k2, Nat.mod_eq_of_lt (by norm_num at hpow2 ⊢; omega)]; ring
  have e3 : (2 ^ (k + 1) + 2 ^ 32 - 1) % 2 ^ 32 = 2 ^ (k + 1) - 1 := by
    have : 2 ^ (k + 1) + 2 ^ 32 - 1 = (2 ^ (k + 1) - 1) + 2 ^ 32 := by
      rw [h2k]; omega
    rw [this, Nat.add_mod_right, Nat.mod_eq_of_lt]
    rw [h2k]; norm_num at hpow ⊢; omega
  have hspec := rehash_spec m.mem (2 ^ (k + 1) - 1) (2 ^ (k + 1)) m.hash_size
    (by rw [h2k]; omega) (by rw [hs, h2k]; omega) m.hash_size 0
    (m.buckets.take (2 ^ (k + 1)) ++ List.replicate (2 ^ (k + 1) - m.hash_size) [])
    (by omega) (by
      rw [List.length_append, List.length_take, List.length_replicate, hl, hs, h2k]; omega)
    (by
      intro idx hidx p hp
      exfalso
      rcases hidx with h | h
      · omega
      · rw [List.take_of_length_le (by rw [hl, hs, h2k]; omega), List.getD_append_right _ _ _ _
          (by rw [hl]; exact h), getD_replicate_nil] at hp
        simp at hp)
  obtain ⟨r1, r2, r3⟩ := hspec
  have hexp : extend_table m = { m with
      hash_size := 2 ^ (k + 1), fill_limit := 3 * 2 ^ (k + 1 - 2),
      buckets := rehash m.mem (2 ^ (k + 1) - 1) m.hash_size 0
        (m.buckets.take (2 ^ (k + 1)) ++ List.replicate (2 ^ (k + 1) - m.hash_size) []) } := by
    unfold extend_table
    simp only [if_neg hne, e1, e2, e3]
  rw [hexp]
  refine ⟨rfl, rfl, rfl, r1, ?_, ?_, rfl, rfl, rfl, rfl, rfl, rfl, rfl⟩
  · unfold stored
    refine r2.trans ?_
    rw [List.take_of_length_le (by rw [hl, hs, h2k]; omega), List.flatten_append,
      flatten_replicate_nil, List.append_nil]
  · intro idx p hp
    have hm : ∀ m1 : Machine, m1.hash_size = 2 ^ (k + 1) → mask m1 = 2 ^ (k + 1) - 1 := by
      intro m1 h1; unfold mask; rw [h1]; exact e3
    rw [hm _ rfl]
    exact r3 idx (by omega) p hp

lemma cells_of_getD (n : Nat) (c : List Nat) (i : Nat) (hi : i < n + 1) :
    (cells_of n c).getD i 0 = c.getD i 0 := by
  unfold cells_of
  rw [List.getD_eq_getElem _ _ (by simpa using hi)]
  simp

lemma digest_congr (n : Nat) (c d : List Nat) (h : cells_of n c = cells_of n d) :
    digest n c = digest n d := by
  unfold digest
  apply List.foldl_ext
  intro a i hi
  have hi' : i < n + 1 := by simpa using hi
  rw [← cells_of_getD n c i hi', ← cells_of_getD n d i hi', h]

lemma cells_of_eq_self (n : Nat) (c : List Nat) (h : c.length = n + 1) : cells_of n c = c := by
  unfold cells_of
  apply List.ext_getElem
  · simp [h]
  · intro i h1 h2
    simp [List.getElem?_eq_getElem h2]

/-- The effect of `hash(s)` on a slot whose cached hash is `0` or already the
digest of its cells. -/
lemma hash_eq (b : Board) (m : Machine) (s : Nat)
    (hs0 : (m.mem s).h = 0 ∨ (m.mem s).h = digest b.n_boxes (m.mem s).c) :
    hash b m s = with_hash m s (digest b.n_boxes (m.mem s).c) := by
  unfold hash with_hash
  split
  · rfl
  · rename_i hne
    have hd : (m.mem s).h = digest b.n_boxes (m.mem s).c := by
      rcases hs0 with h | h
      · exact absurd h hne
      · exact h
    have : upd m.mem s { m.mem s with h := digest b.n_boxes (m.mem s).c } = m.mem := by
      funext q
      unfold upd
      split_ifs with hq
      · subst hq; rw [← hd]
      · rfl
    rw [this]

/-- Changing the cached hash of a slot that is not stored keeps the table
well-formed. -/
lemma table_ok_upd_h (b : Board) (m : Machine) (s d : Nat) (hok : TableOK b m)
    (hns : s ∉ stored m) :
    TableOK b (with_hash m s d) := by
  obtain ⟨t1, t2, t3, t4, t5⟩ := hok
  have hmem : ∀ p, p ∈ stored m → (with_hash m s d).mem p = m.mem p := by
    intro p hp
    unfold with_hash upd
    simp only
    rw [if_neg (by rintro rfl; exact hns hp)]
  refine ⟨t1, t2, t3, ?_, ?_⟩
  · intro i p hp
    have hps : p ∈ stored m := (mem_flatten_iff_getD _ p).mpr ⟨i, hp⟩
    simp only [hmem p hps]
    exact t4 i p hp
  · have : (stored m).map (key b (with_hash m s d)) = (stored m).map (key b m) := by
      apply List.map_congr_left
      intro p hp
      unfold key
      simp only [hmem p hp]
    exact this ▸ t5

/-- In a well-formed table the bucket of `s` holds a state with the cells of
`s` exactly when some stored state has the cells of `s`. -/
lemma lookup_none_iff (b : Board) (m : Machine) (s : Nat) (hok : TableOK b m)
    (hs : (m.mem s).h = digest b.n_boxes (m.mem s).c) :
    (m.buckets.getD ((m.mem s).h &&& mask m) []).find?
        (fun f => same_cells b.n_boxes (m.mem s).c (m.mem f).c) = none ↔
      key b m s ∉ (stored m).map (key b m) := by
  obtain ⟨-, -, -, t4, -⟩ := hok
  rw [List.find?_eq_none]
  constructor
  · intro hnone hin
    obtain ⟨p, hp, hkey⟩ := List.mem_map.mp hin
    obtain ⟨i, hpi⟩ := (mem_flatten_iff_getD _ p).mp hp
    obtain ⟨h1, h2⟩ := t4 i p hpi
    have hd : (m.mem p).h = (m.mem s).h := by
      rw [h1, hs]; exact digest_congr _ _ _ hkey
    rw [hd] at h2
    rw [← h2] at hpi
    exact hnone p hpi (by simp [same_cells]; exact hkey.symm)
  · intro hnot f hf hsame
    apply hnot
    refine List.mem_map.mpr ⟨f, (mem_flatten_iff_getD _ f).mpr ⟨_, hf⟩, ?_⟩
    simp [same_cells] at hsame
    exact hsame.symm

lemma mask_lt (m : Machine) (k : Nat) (hk : k ≤ 31) (hs : m.hash_size = 2 ^ k) :
    mask m = 2 ^ k - 1 ∧ mask m < m.hash_size := by
  have hpow : (2:Nat) ^ k ≤ 2 ^ 31 := Nat.pow_le_pow_right (by norm_num) hk
  have hpos : 0 < (2:Nat) ^ k := Nat.pos_pow_of_pos _ (by norm_num)
  have e : mask m = 2 ^ k - 1 := by
    unfold mask
    rw [hs]
    have : 2 ^ k + 2 ^ 32 - 1 = (2 ^ k - 1) + 2 ^ 32 := by omega
    rw [this, Nat.add_mod_right, Nat.mod_eq_of_lt]
    norm_num at hpow ⊢; omega
  exact ⟨e, by rw [e, hs]; omega⟩

/-- Linking a new state at the head of its bucket: the table is well-formed
again once `filled` already counts the new state. -/
lemma link_state_ok (b : Board) (m : Machine) (s : Nat)
    (hsz : ∃ k, 10 ≤ k ∧ k ≤ 31 ∧ m.hash_size = 2 ^ k ∧ m.fill_limit = 3 * 2 ^ (k - 2) ∧
      m.filled ≤ m.fill_limit)
    (hl : m.buckets.length = m.hash_size) (hf : (stored m).length + 1 = m.filled)
    (hb : ∀ i p, p ∈ m.buckets.getD i [] →
      (m.mem p).h = digest b.n_boxes (m.mem p).c ∧ (m.mem p).h &&& mask m = i)
    (hu : ((stored m).map (key b m)).Nodup)
    (hs : (m.mem s).h = digest b.n_boxes (m.mem s).c)
    (hnew : key b m s ∉ (stored m).map (key b m)) :
    TableOK b (link_state m s) ∧ (stored (link_state m s)).Perm (s :: stored m) := by
  obtain ⟨k, hk1, hk2, hsize, hfl, hfill⟩ := hsz
  obtain ⟨hmask, hmlt⟩ := mask_lt m k hk2 hsize
  have hi : (m.mem s).h &&& mask m < m.buckets.length := by
    have := @Nat.and_le_right (m.mem s).h (mask m)
    omega
  have hperm : (stored (link_state m s)).Perm (s :: stored m) := by
    unfold stored link_state
    exact flatten_set_cons m.buckets _ s hi
  refine ⟨⟨⟨k, hk1, hk2, hsize, hfl, hfill⟩, ?_, ?_, ?_, ?_⟩, hperm⟩
  · simp [link_state, hl]
  · rw [hperm.length_eq]; simpa using hf
  · intro i p hp
    have hp' : p ∈ (m.buckets.set ((m.mem s).h &&& mask m)
        (s :: m.buckets.getD ((m.mem s).h &&& mask m) [])).getD i [] := hp
    rw [getD_set_list] at hp'
    have hmk : mask (link_state m s) = mask m := rfl
    have hmm : (link_state m s).mem = m.mem := rfl
    rw [hmk, hmm]
    by_cases hii : i = (m.mem s).h &&& mask m
    · rw [if_pos ⟨hii, hi⟩] at hp'
      rcases List.mem_cons.mp hp' with rfl | hp''
      · exact ⟨hs, hii.symm⟩
      · exact hb i p (hii ▸ hp'')
    · rw [if_neg (fun h => hii h.1)] at hp'
      exact hb i p hp'
  · have hk : ∀ p, key b (link_state m s) p = key b m p := fun _ => rfl
    have : (stored (link_state m s)).map (key b (link_state m s))
        = (stored (link_state m s)).map (key b m) := List.map_congr_left (fun p _ => hk p)
    rw [this, (hperm.map (key b m)).nodup_iff, List.map_cons, List.nodup_cons]
    exact ⟨hnew, hu⟩

lemma add_to_table_new (b : Board) (m : Machine) (s : Nat)
    (hs0 : (m.mem s).h = 0 ∨ (m.mem s).h = digest b.n_boxes (m.mem s).c)
    (hfind : ((with_hash m s (digest b.n_boxes (m.mem s).c)).buckets.getD
          (((with_hash m s (digest b.n_boxes (m.mem s).c)).mem s).h &&&
            mask (with_hash m s (digest b.n_boxes (m.mem s).c))) []).find?
          (fun f => same_cells b.n_boxes ((with_hash m s (digest b.n_boxes (m.mem s).c)).mem s).c
            ((with_hash m s (digest b.n_boxes (m.mem s).c)).mem f).c) = none) :
    add_to_table b m s
      = (true, link_state (grown (with_hash m s (digest b.n_boxes (m.mem s).c))) s) := by
  unfold mask at hfind
  unfold add_to_table lookup
  simp only [hash_eq b m s hs0, hfind]
  unfold link_state grown bump_filled mask
  simp only

lemma add_to_table_dup (b : Board) (m : Machine) (s f : Nat)
    (hs0 : (m.mem s).h = 0 ∨ (m.mem s).h = digest b.n_boxes (m.mem s).c)
    (hfind : ((with_hash m s (digest b.n_boxes (m.mem s).c)).buckets.getD
          (((with_hash m s (digest b.n_boxes (m.mem s).c)).mem s).h &&&
            mask (with_hash m s (digest b.n_boxes (m.mem s).c))) []).find?
          (fun f => same_cells b.n_boxes ((with_hash m s (digest b.n_boxes (m.mem s).c)).mem s).c
            ((with_hash m s (digest b.n_boxes (m.mem s).c)).mem f).c) = some f) :
    add_to_table b m s
      = (false, unnewstate (with_hash m s (digest b.n_boxes (m.mem s).c)) s) := by
  unfold mask at hfind
  unfold add_to_table lookup
  simp only [hash_eq b m s hs0, hfind]

/-- Specification of `add_to_table` on a well-formed table holding fewer than
`3 * 2^29` states, for a slot that is not stored and whose cached hash is `0` or
the digest of its cells. -/
lemma add_to_table_spec (b : Board) (m : Machine) (s : Nat) (hok : TableOK b m)
    (hs0 : (m.mem s).h = 0 ∨ (m.mem s).h = digest b.n_boxes (m.mem s).c)
    (hns : s ∉ stored m) (hcap : m.filled < 3 * 2 ^ 29) :
    TableOK b (add_to_table b m s).2 ∧
    ((add_to_table b m s).1 = true ↔ key b m s ∉ (stored m).map (key b m)) ∧
    ((add_to_table b m s).1 = true →
      (stored (add_to_table b m s).2).Perm (s :: stored m) ∧
      (add_to_table b m s).2.block_head = m.block_head ∧
      (add_to_table b m s).2.filled = m.filled + 1) ∧
    ((add_to_table b m s).1 = false →
      (add_to_table b m s).2.buckets = m.buckets ∧
      (add_to_table b m s).2.hash_size = m.hash_size ∧
      (add_to_table b m s).2.fill_limit = m.fill_limit ∧
      (add_to_table b m s).2.block_head = s :: m.block_head ∧
      (add_to_table b m s).2.filled = m.filled) ∧
    (∀ q, ((add_to_table b m s).2.mem q).c = (m.mem q).c ∧
      ((add_to_table b m s).2.mem q).prev = (m.mem q).prev) ∧
    (add_to_table b m s).2.next_level = m.next_level ∧
    (add_to_table b m s).2.done = m.done ∧ (add_to_table b m s).2.brk = m.brk ∧
    (add_to_table b m s).2.block_size = m.block_size ∧
    (add_to_table b m s).2.block_root = m.block_root := by
  obtain ⟨d, hd⟩ : ∃ d, digest b.n_boxes (m.mem s).c = d := ⟨_, rfl⟩
  have hok1 : TableOK b (with_hash m s d) := table_ok_upd_h b m s d hok hns
  have hmem1 : ∀ q, ((with_hash m s d).mem q).c = (m.mem q).c ∧
      ((with_hash m s d).mem q).prev = (m.mem q).prev := by
    intro q
    unfold with_hash upd
    by_cases hq : q = s
    · subst hq; simp
    · simp [hq]
  have hh1 : ((with_hash m s d).mem s).h = digest b.n_boxes ((with_hash m s d).mem s).c := by
    rw [(hmem1 s).1, hd]
    simp [with_hash, upd]
  have hkeys : (stored (with_hash m s d)).map (key b (with_hash m s d))
      = (stored m).map (key b m) := by
    apply List.map_congr_left
    intro p _
    unfold key
    rw [(hmem1 p).1]
  have hkey_s : key b (with_hash m s d) s = key b m s := by
    unfold key; rw [(hmem1 s).1]
  have hiff := lookup_none_iff b (with_hash m s d) s hok1 hh1
  rw [hkeys, hkey_s] at hiff
  cases hfind : ((with_hash m s d).buckets.getD
      (((with_hash m s d).mem s).h &&& mask (with_hash m s d)) []).find?
      (fun f => same_cells b.n_boxes ((with_hash m s d).mem s).c ((with_hash m s d).mem f).c) with
  | some f =>
    rw [add_to_table_dup b m s f hs0 (by rw [hd]; exact hfind)]
    rw [hd]
    have hnotnew : ¬ key b m s ∉ (stored m).map (key b m) := by
      intro h; rw [← hiff, hfind] at h; simp at h
    refine ⟨hok1, ⟨fun h => by simp at h, fun h => absurd h hnotnew⟩,
      fun h => by simp at h, fun _ => ⟨rfl, rfl, rfl, rfl, rfl⟩, hmem1, rfl, rfl, rfl, rfl, rfl⟩
  | none =>
    rw [add_to_table_new b m s hs0 (by rw [hd]; exact hfind)]
    rw [hd]
    have hnew : key b m s ∉ (stored m).map (key b m) := hiff.mp hfind
    obtain ⟨⟨k, hk1, hk2, hsize, hfl, hfill⟩, t2, t3, t4, t5⟩ := hok1
    have hpow2 : ∀ j, j ≤ 29 → (2:Nat) ^ j ≤ 2 ^ 29 :=
      fun j hj => Nat.pow_le_pow_right (by norm_num) hj
    have hf32 : (m.filled + 1) % 2 ^ 32 = m.filled + 1 := Nat.mod_eq_of_lt (by omega)
    have hfilled1 : (with_hash m s d).filled = m.filled := rfl
    have hfl1 : (with_hash m s d).fill_limit = m.fill_limit := rfl
    -- the machine after the growth test
    have hgrown : (∃ k, 10 ≤ k ∧ k ≤ 31 ∧ (grown (with_hash m s d)).hash_size = 2 ^ k ∧
          (grown (with_hash m s d)).fill_limit = 3 * 2 ^ (k - 2) ∧
          (grown (with_hash m s d)).filled ≤ (grown (with_hash m s d)).fill_limit) ∧
        (grown (with_hash m s d)).buckets.length = (grown (with_hash m s d)).hash_size ∧
        (stored (grown (with_hash m s d))).Perm (stored (with_hash m s d)) ∧
        (∀ i p, p ∈ (grown (with_hash m s d)).buckets.getD i [] →
          ((with_hash m s d).mem p).h &&& mask (grown (with_hash m s d)) = i) ∧
        (grown (with_hash m s d)).mem = (with_hash m s d).mem ∧
        (grown (with_hash m s d)).filled = m.filled + 1 ∧
        (grown (with_hash m s d)).next_level = m.next_level ∧
        (grown (with_hash m s d)).done = m.done ∧
        (grown (with_hash m s d)).block_head = m.block_head ∧
        (grown (with_hash m s d)).brk = m.brk ∧
        (grown (with_hash m s d)).block_size = m.block_size ∧
        (grown (with_hash m s d)).block_root = m.block_root := by
      unfold grown
      by_cases hge : (with_hash m s d).filled ≥ (with_hash m s d).fill_limit
      · rw [if_pos hge]
        have hk30 : k ≤ 30 := by
          by_contra hlt
          have h29 : k - 2 = 29 := by omega
          have hflm : m.fill_limit = 3 * 2 ^ (k - 2) := hfl
          have hgem : m.filled ≥ m.fill_limit := hge
          rw [h29] at hflm
          omega
        obtain ⟨g1, g2, g3, g4, g5, g6, g7, g8, g9, g10, g11, g12, g13⟩ :=
          extend_table_grow (bump_filled (with_hash m s d)) k hk30 hsize hfl (by omega) t2
        have hb3 : (bump_filled (with_hash m s d)).filled = m.filled + 1 := hf32
        refine ⟨⟨k + 1, by omega, by omega, g1, g2, ?_⟩, by rw [g4, g1], g5, g6, g7,
          by rw [g3, hb3], g8, g9, g10, g11, g12, g13⟩
        rw [g3, hb3, g2]
        have h2k2 : (2:Nat) ^ (k + 1 - 2) = 2 ^ (k - 2) * 2 := by
          have : k + 1 - 2 = (k - 2) + 1 := by omega
          rw [this, pow_succ]
        rw [h2k2]
        have hflm : m.fill_limit = 3 * 2 ^ (k - 2) := hfl
        have hfillm : m.filled ≤ m.fill_limit := hfill
        have hpos : 0 < (2:Nat) ^ (k - 2) := Nat.pos_pow_of_pos _ (by norm_num)
        omega
      · rw [if_neg hge]
        refine ⟨⟨k, hk1, hk2, hsize, hfl, ?_⟩, t2, List.Perm.refl _, fun i p hp => (t4 i p hp).2,
          rfl, hf32, rfl, rfl, rfl, rfl, rfl, rfl⟩
        show (m.filled + 1) % 2 ^ 32 ≤ m.fill_limit
        rw [hf32]
        have hgem : ¬ m.filled ≥ m.fill_limit := hge
        omega
    obtain ⟨gs, gl, gp, gb, gm, gf, g8, g9, g10, g11, g12, g13⟩ := hgrown
    have hlink := link_state_ok b (grown (with_hash m s d)) s gs gl
      (by rw [gp.length_eq, t3, gf]; rfl)
      (by
        intro i p hp
        rw [gm]
        have hps : p ∈ stored (with_hash m s d) :=
          gp.subset ((mem_flatten_iff_getD _ p).mpr ⟨i, hp⟩)
        obtain ⟨i0, hp0⟩ := (mem_flatten_iff_getD _ p).mp hps
        exact ⟨(t4 i0 p hp0).1, gb i p hp⟩)
      (by
        have : (stored (grown (with_hash m s d))).map (key b (grown (with_hash m s d)))
            = (stored (grown (with_hash m s d))).map (key b (with_hash m s d)) := by
          apply List.map_congr_left
          intro p _
          unfold key; rw [gm]
        rw [this, (gp.map _).nodup_iff]
        exact t5)
      (by rw [gm]; exact hh1)
      (by
        have e1 : key b (grown (with_hash m s d)) s = key b m s := by
          unfold key; rw [gm, (hmem1 s).1]
        have e2 : (stored (grown (with_hash m s d))).map (key b (grown (with_hash m s d)))
            = (stored (grown (with_hash m s d))).map (key b m) := by
          apply List.map_congr_left
          intro p _
          unfold key; rw [gm, (hmem1 p).1]
        rw [e1, e2]
        intro hin
        apply hnew
        obtain ⟨p, hp, hpk⟩ := List.mem_map.mp hin
        exact List.mem_map.mpr ⟨p, gp.subset hp, hpk⟩)
    obtain ⟨lk1, lk2⟩ := hlink
    refine ⟨lk1, ⟨fun _ => hnew, fun _ => rfl⟩, fun _ => ⟨lk2.trans (List.Perm.cons s gp), g10, gf⟩,
      fun h => by simp at h, ?_, g8, g9, g11, g12, g13⟩
    intro q
    have : (link_state (grown (with_hash m s d)) s).mem = (with_hash m s d).mem := gm
    rw [this]
    exact hmem1 q

/-! ## Search invariants -/

/-- The table stays well-formed under any change of the machine that keeps the
table globals and the slots of the stored states. -/
lemma table_ok_congr (b : Board) (m m1 : Machine) (hok : TableOK b m)
    (hbk : m1.buckets = m.buckets) (hsz : m1.hash_size = m.hash_size)
    (hfl : m1.fill_limit = m.fill_limit) (hf : m1.filled = m.filled)
    (hmem : ∀ p ∈ stored m, m1.mem p = m.mem p) : TableOK b m1 := by
  obtain ⟨t1, t2, t3, t4, t5⟩ := hok
  have hst : stored m1 = stored m := by unfold stored; rw [hbk]
  have hmask : mask m1 = mask m := by unfold mask; rw [hsz]
  refine ⟨by rw [hsz, hfl, hf]; exact t1, by rw [hbk, hsz]; exact t2,
    by rw [hst, hf]; exact t3, ?_, ?_⟩
  · intro i p hp
    rw [hbk] at hp
    have hps : p ∈ stored m := (mem_flatten_iff_getD _ p).mpr ⟨i, hp⟩
    rw [hmem p hps, hmask]
    exact t4 i p hp
  · rw [hst]
    have : (stored m).map (key b m1) = (stored m).map (key b m) := by
      apply List.map_congr_left
      intro p hp
      unfold key; rw [hmem p hp]
    rw [this]; exact t5

/-- What `newstate` returns on a well-formed arena. -/
lemma newstate_spec (m : Machine) (parent : Option Nat) (ha : ArenaOK m) :
    ArenaOK (newstate m parent).2 ∧
    (newstate m parent).1 < (newstate m parent).2.brk ∧
    (newstate m parent).1 ∉ (newstate m parent).2.block_head ∧
    m.brk ≤ (newstate m parent).2.brk ∧
    ((newstate m parent).1 ∈ m.block_head ∨ m.brk < (newstate m parent).1) ∧
    (∀ q ∈ (newstate m parent).2.block_head, q ∈ m.block_head ∨ m.brk < q) ∧
    (newstate m parent).2.buckets = m.buckets ∧
    (newstate m parent).2.hash_size = m.hash_size ∧
    (newstate m parent).2.fill_limit = m.fill_limit ∧
    (newstate m parent).2.filled = m.filled ∧
    (newstate m parent).2.next_level = m.next_level ∧
    (newstate m parent).2.done = m.done := by
  obtain ⟨a1, a2, a3⟩ := ha
  have htab : (newstate m parent).2.buckets = m.buckets ∧
      (newstate m parent).2.hash_size = m.hash_size ∧
      (newstate m parent).2.fill_limit = m.fill_limit ∧
      (newstate m parent).2.filled = m.filled ∧
      (newstate m parent).2.next_level = m.next_level ∧
      (newstate m parent).2.done = m.done := by
    unfold newstate grow_arena
    cases m.block_head <;> exact ⟨rfl, rfl, rfl, rfl, rfl, rfl⟩
  cases hb : m.block_head with
  | nil =>
    have e1 : (newstate m parent).1 = m.brk + 1 := by simp [newstate, grow_arena, hb]
    have e2 : (newstate m parent).2.block_head
        = (List.range (m.block_size * 2 - 2)).map (fun k => m.brk + 2 + k) := by
      simp [newstate, grow_arena, hb]
    have e3 : (newstate m parent).2.brk = m.brk + m.block_size * 2 := by
      simp [newstate, grow_arena, hb]
    have e4 : (newstate m parent).2.block_size = m.block_size * 2 := by
      simp [newstate, grow_arena, hb]
    have hnd : ((List.range (m.block_size * 2 - 2)).map (fun k => m.brk + 2 + k)).Nodup := by
      apply List.Nodup.map
      · intro x y hxy; simpa using hxy
      · exact List.nodup_range _
    unfold ArenaOK
    rw [e1, e2, e3, e4]
    refine ⟨⟨hnd, ?_, by omega⟩, by omega, ?_, by omega, Or.inr (by omega), ?_, htab⟩
    · intro q hq
      obtain ⟨k, hk, rfl⟩ := List.mem_map.mp hq
      have := List.mem_range.mp hk
      omega
    · intro hq
      obtain ⟨k, -, hk⟩ := List.mem_map.mp hq
      omega
    · intro q hq
      obtain ⟨k, -, rfl⟩ := List.mem_map.mp hq
      exact Or.inr (by omega)
  | cons x t =>
    rw [hb] at a1 a2
    have e1 : (newstate m parent).1 = x := by simp [newstate, grow_arena, hb]
    have e2 : (newstate m parent).2.block_head = t := by simp [newstate, grow_arena, hb]
    have e3 : (newstate m parent).2.brk = m.brk := by simp [newstate, grow_arena, hb]
    have e4 : (newstate m parent).2.block_size = m.block_size := by
      simp [newstate, grow_arena, hb]
    have hx := List.nodup_cons.mp a1
    unfold ArenaOK
    rw [e1, e2, e3, e4]
    exact ⟨⟨hx.2, fun q hq => a2 q (List.mem_cons_of_mem _ hq), a3⟩,
      a2 x (List.mem_cons_self _ _), hx.1, le_refl _, Or.inl (List.mem_cons_self _ _),
      fun q hq => Or.inl (List.mem_cons_of_mem _ hq), htab⟩


/-- The number of stored states is bounded by the size of the set `U` that
holds the cell arrays of the search. -/
lemma filled_le_universe (b : Board) (U : List (List Nat)) (Q : List Nat → Prop) (m : Machine)
    (hq : QSpec b U Q) (hinv : SearchInv b Q m) : m.filled ≤ U.length := by
  obtain ⟨⟨-, -, t3, -, t5⟩, -, hst, -⟩ := hinv
  rw [← t3]
  have hsub : (stored m).map (key b m) ⊆ U := by
    intro c hc
    obtain ⟨p, hp, rfl⟩ := List.mem_map.mp hc
    unfold key
    rw [cells_of_eq_self _ _ (hq.len _ (hst p hp).2.2)]
    exact hq.sub _ (hst p hp).2.2
  have := (t5.subperm hsub).length_le
  simpa using this

lemma progress_refl (m : Machine) : Progress m m :=
  ⟨fun _ h => h, le_refl _, Nat.add_comm _ _, rfl⟩

lemma progress_trans {m m1 m2 : Machine} (h1 : Progress m m1) (h2 : Progress m1 m2) :
    Progress m m2 := by
  obtain ⟨a1, a2, a3, a4⟩ := h1
  obtain ⟨b1, b2, b3, b4⟩ := h2
  exact ⟨fun p hp => b1 p (a1 p hp), a2.trans b2, by omega, b4.trans a4⟩

/-- One disjunct of `do_move` on a stored state, when no array with `Q`
satisfies the goal predicate: it returns false and keeps the invariant. -/
lemma try_move_spec (b : Board) (U : List (List Nat)) (Q : List Nat → Prop) (m : Machine) (s : Nat) (d : Int × Int)
    (hq : QSpec b U Q) (hinv : SearchInv b Q m) (hs : s ∈ stored m) (hd : d ∈ dirs) :
    (try_move b m s d.1 d.2).1 = false ∧ SearchInv b Q (try_move b m s d.1 d.2).2 ∧
    Progress m (try_move b m s d.1 d.2).2 := by
  have hU := filled_le_universe b U Q m hq hinv
  have hcap := hq.cap
  obtain ⟨hok, ha, hst, hnl⟩ := hinv
  obtain ⟨hsb, hsf, hsQ⟩ := hst s hs
  unfold try_move
  rw [move_me_eq b m s d.1 d.2 hsf hsb]
  cases hc : move_cells b (m.mem s).c d.1 d.2 with
  | none =>
    have hqm : queue_move b m none = (false, m) := rfl
    rw [hqm]
    exact ⟨rfl, ⟨hok, ha, hst, hnl⟩, progress_refl m⟩
  | some cs =>
    simp only
    obtain ⟨na, n1, n2, n3, n4, n5, n6, n7, n8, n9, n10, n11⟩ := newstate_spec m (some s) ha
    have hmem0 := newstate_mem m (some s)
    generalize hn : (newstate m (some s)).1 = n at *
    generalize hm0 : (newstate m (some s)).2 = m0 at *
    have hQc : Q cs := hq.move _ d cs hsQ hd hc
    have hnst : n ∉ stored m := by
      intro hin
      obtain ⟨p1, p2, -⟩ := hst n hin
      rcases n4 with h | h
      · exact p2 h
      · omega
    generalize hm1 : ({ m0 with mem := upd m0.mem n ⟨0, some s, cs⟩ } : Machine) = m1
    have f_mem : ∀ p, p ≠ n → m1.mem p = m.mem p := by
      intro p hp
      rw [← hm1]
      simp only [upd, hmem0, if_neg hp]
    have f_n : m1.mem n = ⟨0, some s, cs⟩ := by rw [← hm1]; simp [upd]
    have f_bk : m1.buckets = m.buckets := by rw [← hm1]; exact n6
    have f_hs : m1.hash_size = m.hash_size := by rw [← hm1]; exact n7
    have f_fl : m1.fill_limit = m.fill_limit := by rw [← hm1]; exact n8
    have f_f : m1.filled = m.filled := by rw [← hm1]; exact n9
    have f_nl : m1.next_level = m.next_level := by rw [← hm1]; exact n10
    have f_dn : m1.done = m.done := by rw [← hm1]; exact n11
    have f_bh : m1.block_head = m0.block_head := by rw [← hm1]
    have f_brk : m1.brk = m0.brk := by rw [← hm1]
    have f_bs : m1.block_size = m0.block_size := by rw [← hm1]
    have f_st : stored m1 = stored m := by unfold stored; rw [f_bk]
    have hok1 : TableOK b m1 := table_ok_congr b m m1 hok f_bk f_hs f_fl f_f
      (fun p hp => f_mem p (fun e => hnst (e ▸ hp)))
    obtain ⟨s1, s2, s3, s4, s5, s6, s7, s8, s9, s10⟩ := add_to_table_spec b m1 n hok1
      (Or.inl (by rw [f_n])) (by rw [f_st]; exact hnst) (by rw [f_f]; omega)
    have hold : ∀ p ∈ stored m, p < m0.brk ∧ p ≠ n ∧ p ∉ m0.block_head ∧
        Q ((add_to_table b m1 n).2.mem p).c := by
      intro p hp
      obtain ⟨p1, p2, p3⟩ := hst p hp
      have hpn : p ≠ n := fun e => hnst (e ▸ hp)
      refine ⟨by omega, hpn, ?_, ?_⟩
      · intro hin
        rcases n5 p hin with h | h
        · exact p2 h
        · omega
      · rw [(s5 p).1, f_mem p hpn]; exact p3
    cases hr : (add_to_table b m1 n).1 with
    | false =>
      have hqm : queue_move b m1 (some n) = (false, (add_to_table b m1 n).2) := by
        unfold queue_move; simp only [hr, if_true]
      rw [hqm]
      obtain ⟨d1, d2, d3, d4, d5⟩ := s4 hr
      have hst' : stored (add_to_table b m1 n).2 = stored m := by
        unfold stored; rw [d1, f_bk]
      refine ⟨rfl, ⟨s1, ⟨?_, ?_, ?_⟩, ?_, ?_⟩, ?_⟩
      · rw [d4, f_bh]; exact List.nodup_cons.mpr ⟨n2, na.1⟩
      · intro q hq'
        rw [d4, f_bh] at hq'
        rw [s8, f_brk]
        rcases List.mem_cons.mp hq' with rfl | h
        · exact n1
        · exact na.2.1 q h
      · rw [s9, f_bs]; exact na.2.2
      · intro p hp
        rw [hst'] at hp
        obtain ⟨h1, h2, h3, h4⟩ := hold p hp
        refine ⟨by rw [s8, f_brk]; exact h1, ?_, h4⟩
        rw [d4, f_bh]
        intro hin
        rcases List.mem_cons.mp hin with h | h
        · exact h2 h
        · exact h3 h
      · intro p hp
        rw [s6, f_nl] at hp
        rw [hst']; exact hnl p hp
      · refine ⟨fun p hp => by rw [hst']; exact hp, by rw [d5, f_f], ?_, by rw [s7, f_dn]⟩
        rw [s6, f_nl, d5, f_f]
        exact Nat.add_comm _ _
    | true =>
      obtain ⟨e1, e2, e3⟩ := s3 hr
      have hsucc : success b ((add_to_table b m1 n).2.mem n).c = false := by
        rw [(s5 n).1, f_n]; exact hq.fail cs hQc
      have hqm : queue_move b m1 (some n) = (false, { (add_to_table b m1 n).2 with
          next_level := n :: (add_to_table b m1 n).2.next_level }) := by
        unfold queue_move; simp [hr, hsucc]
      rw [hqm]
      have hmemst : ∀ p, p ∈ stored (add_to_table b m1 n).2 ↔ p = n ∨ p ∈ stored m := by
        intro p
        rw [e1.mem_iff, f_st, List.mem_cons]
      refine ⟨rfl, ⟨s1, ⟨?_, ?_, ?_⟩, ?_, ?_⟩, ?_⟩
      · show (add_to_table b m1 n).2.block_head.Nodup
        rw [e2, f_bh]; exact na.1
      · intro q hq'
        have hq'' : q ∈ (add_to_table b m1 n).2.block_head := hq'
        rw [e2, f_bh] at hq''
        show q < (add_to_table b m1 n).2.brk
        rw [s8, f_brk]
        exact na.2.1 q hq''
      · show 1 ≤ (add_to_table b m1 n).2.block_size
        rw [s9, f_bs]; exact na.2.2
      · intro p hp
        have hp' : p ∈ stored (add_to_table b m1 n).2 := hp
        show p < (add_to_table b m1 n).2.brk ∧ p ∉ (add_to_table b m1 n).2.block_head ∧
          Q ((add_to_table b m1 n).2.mem p).c
        rw [s8, f_brk, e2, f_bh]
        rcases (hmemst p).mp hp' with rfl | h
        · exact ⟨n1, n2, by rw [(s5 p).1, f_n]; exact hQc⟩
        · obtain ⟨h1, h2, h3, h4⟩ := hold p h
          exact ⟨h1, h3, h4⟩
      · intro p hp
        have hp' : p ∈ n :: (add_to_table b m1 n).2.next_level := hp
        show p ∈ stored (add_to_table b m1 n).2
        rw [hmemst]
        rcases List.mem_cons.mp hp' with h | h
        · exact Or.inl h
        · rw [s6, f_nl] at h
          exact Or.inr (hnl p h)
      · refine ⟨fun p hp => (hmemst p).mpr (Or.inr hp), ?_, ?_, ?_⟩
        · show m.filled ≤ (add_to_table b m1 n).2.filled
          rw [e3, f_f]; omega
        · show (n :: (add_to_table b m1 n).2.next_level).length + m.filled
            = (add_to_table b m1 n).2.filled + m.next_level.length
          rw [e3, f_f, s6, f_nl]; simp; omega
        · show (add_to_table b m1 n).2.done = m.done
          rw [s7, f_dn]

/-- `do_move` on a stored state when no array with `Q` satisfies the goal
predicate. -/
lemma do_move_spec (b : Board) (U : List (List Nat)) (Q : List Nat → Prop) (m : Machine) (s : Nat)
    (hq : QSpec b U Q) (hinv : SearchInv b Q m) (hs : s ∈ stored m) :
    (do_move b m s).1 = false ∧ SearchInv b Q (do_move b m s).2 ∧
    Progress m (do_move b m s).2 := by
  obtain ⟨a1, a2, a3⟩ := try_move_spec b U Q m s (0, 1) hq hinv hs (by simp [dirs])
  obtain ⟨b1, b2, b3⟩ := try_move_spec b U Q _ s (0, -1) hq a2 (a3.1 s hs) (by simp [dirs])
  obtain ⟨c1, c2, c3⟩ := try_move_spec b U Q _ s (-1, 0) hq b2 (b3.1 s (a3.1 s hs))
    (by simp [dirs])
  obtain ⟨d1, d2, d3⟩ := try_move_spec b U Q _ s (1, 0) hq c2 (c3.1 s (b3.1 s (a3.1 s hs)))
    (by simp [dirs])
  simp only at a1 b1 c1 d1
  unfold do_move
  simp only [a1, b1, c1, Bool.false_eq_true, if_false]
  exact ⟨d1, d2, progress_trans a3 (progress_trans b3 (progress_trans c3 d3))⟩

/-- The expansion of one frontier when no goal state can be admitted. -/
lemma expand_level_spec (b : Board) (U : List (List Nat)) (Q : List Nat → Prop)
    (hq : QSpec b U Q) :
    ∀ (heads : List Nat) (m : Machine), SearchInv b Q m → m.done = none →
      (∀ p ∈ heads, p ∈ stored m) →
      SearchInv b Q (expand_level b heads m) ∧ Progress m (expand_level b heads m)
  | [], m, hinv, _, _ => ⟨hinv, progress_refl m⟩
  | head :: rest, m, hinv, hdone, hheads => by
    obtain ⟨-, d2, d3⟩ := do_move_spec b U Q m head hq hinv (hheads head (List.mem_cons_self _ _))
    obtain ⟨e1, e2⟩ := expand_level_spec b U Q hq rest (do_move b m head).2 d2
      (by rw [d3.2.2.2]; exact hdone)
      (fun p hp => d3.1 p (hheads p (List.mem_cons_of_mem _ hp)))
    unfold expand_level
    simp only [hdone, Option.isSome_none, Bool.false_eq_true, if_false]
    exact ⟨e1, progress_trans d3 e2⟩

/-- The search loop ends with the no-solution outcome when no array with `Q`
satisfies the goal predicate, as soon as the fuel exceeds the number of cell
arrays not yet stored. -/
lemma search_exhausts (b : Board) (U : List (List Nat)) (Q : List Nat → Prop)
    (hq : QSpec b U Q) :
    ∀ (fuel : Nat) (m : Machine), SearchInv b Q m → m.done = none →
      U.length - m.filled < fuel →
      ∃ m1, search b fuel m = some (false, m1)
  | 0, _, _, _, h => by omega
  | fuel + 1, m, hinv, hdone, hfuel => by
    obtain ⟨hok, ha, hst, hnlm⟩ := hinv
    have hinv0 : SearchInv b Q { m with next_level := [] } :=
      ⟨hok, ha, hst, fun p hp => by simp at hp⟩
    obtain ⟨e1, e2⟩ := expand_level_spec b U Q hq m.next_level { m with next_level := [] }
      hinv0 hdone hnlm
    have h1 : ¬ (m.done.isSome = true) := by rw [hdone]; simp
    unfold search
    rw [if_neg h1]
    simp only
    by_cases hnl : (expand_level b m.next_level { m with next_level := [] }).next_level = []
    · exact ⟨_, by rw [if_pos hnl]⟩
    · rw [if_neg hnl]
      have hU := filled_le_universe b U Q _ hq e1
      obtain ⟨-, p2, p3, p4⟩ := e2
      have hlen : 0 < (expand_level b m.next_level
          { m with next_level := [] }).next_level.length := List.length_pos.mpr hnl
      simp only [List.length_nil, Nat.add_zero] at p3
      have p2' : m.filled ≤ (expand_level b m.next_level { m with next_level := [] }).filled := p2
      have p3' : (expand_level b m.next_level { m with next_level := [] }).next_level.length
          + m.filled = (expand_level b m.next_level { m with next_level := [] }).filled := p3
      exact search_exhausts b U Q hq fuel _ e1 (by rw [p4]; exact hdone) (by omega)

/-! ## A box on a cell that is not live -/

/-- An accepted move keeps a box that stands on a cell that is not live. -/
lemma stuck_step (b : Board) (v0 : Nat) (henc : wall_enclosed b) (hfit : b.w * b.h ≤ 65536)
    (hclosed : ∀ x, rd b.live x ≠ 0 → ∀ n ∈ live_next b x, rd b.live n ≠ 0)
    (hdead : rd b.live v0 = 0) (c c1 : List Nat) (d : Int × Int) (hd : d ∈ dirs)
    (hc : Stuck b v0 c) (hmove : move_cells b c d.1 d.2 = some c1) : Stuck b v0 c1 := by
  obtain ⟨hlen, hint, hopen, hbox, hv0⟩ := hc
  obtain ⟨h0, hwall, hlen1, hact, hpush, hwalk⟩ := move_cells_spec b c c1 d.1 d.2 hlen hmove
  obtain ⟨k1, k2, e1, m1, hrest⟩ := step_geometry b (actor c) d hd hint
  have hd1 : dest b c d.1 d.2 = (k1 : Int) := by unfold dest; exact e1
  rw [hd1] at hwall hpush hwalk hact h0
  rw [rdI_natCast] at hwall
  have hk1int : interior b k1 := wall_enclosed_step b henc _ k1 hint hopen m1 hwall
  have hk1lt := (interior_lt b k1 hk1int).1
  obtain ⟨e2, m2, hpull⟩ := hrest hk1int
  rw [e2] at hpush
  simp only [Int.toNat_ofNat] at hpush hwalk
  have hact1 : actor c1 = k1 := by
    rw [hact]
    have : ((k1 : Int) % 65536) = k1 := Int.emod_eq_of_lt (by omega) (by omega)
    rw [this]; simp
  refine ⟨hlen1, by rw [hact1]; exact hk1int, by rw [hact1]; exact hwall, ?_, ?_⟩
  · intro v hv
    by_cases hin : k1 ∈ boxes c
    · obtain ⟨hw2, -, -, hperm⟩ := hpush hin
      rw [rdI_natCast] at hw2
      have hk2int : interior b k2 := wall_enclosed_step b henc _ k2 hk1int hwall m2 hw2
      have hk2lt := (interior_lt b k2 hk2int).1
      have : ((k2 : Int) % 65536) = k2 := Int.emod_eq_of_lt (by omega) (by omega)
      rw [this] at hperm
      simp only [Int.toNat_ofNat] at hperm
      rcases List.mem_cons.mp (hperm.mem_iff.mp hv) with rfl | h
      · exact hk2lt
      · exact hbox v (List.mem_of_mem_erase h)
    · exact hbox v ((hwalk hin).mem_iff.mp hv)
  · by_cases hin : k1 ∈ boxes c
    · obtain ⟨hw2, hl2, -, hperm⟩ := hpush hin
      rw [rdI_natCast] at hw2 hl2
      have hk2int : interior b k2 := wall_enclosed_step b henc _ k2 hk1int hwall m2 hw2
      have hk2lt := (interior_lt b k2 hk2int).1
      have : ((k2 : Int) % 65536) = k2 := Int.emod_eq_of_lt (by omega) (by omega)
      rw [this] at hperm
      simp only [Int.toNat_ofNat] at hperm
      have hk1live : rd b.live k1 ≠ 0 :=
        hclosed k2 hl2 k1 ((mem_live_next b k2 k1).mpr (hpull hwall hopen))
      have hne : v0 ≠ k1 := fun e => hk1live (e ▸ hdead)
      exact hperm.mem_iff.mpr (List.mem_cons_of_mem _ ((List.mem_erase_of_ne hne).mpr hv0))
    · exact (hwalk hin).mem_iff.mpr hv0

lemma mem_cells (c : List Nat) (v : Nat) (hv : v ∈ c) : v = actor c ∨ v ∈ boxes c := by
  cases c with
  | nil => simp at hv
  | cons a t =>
    rcases List.mem_cons.mp hv with rfl | h
    · exact Or.inl (by simp [actor])
    · exact Or.inr h

/-- The arrays of a move-closed set `U` with a stuck box form a property the
search maintains. -/
lemma stuck_qspec (b : Board) (U : List (List Nat)) (v0 : Nat) (henc : wall_enclosed b)
    (hfit : b.w * b.h ≤ 65536)
    (hclosed : ∀ x, rd b.live x ≠ 0 → ∀ n ∈ live_next b x, rd b.live n ≠ 0)
    (hgoal : ∀ g, rd b.goals g ≠ 0 → rd b.live g ≠ 0)
    (hdead : rd b.live v0 = 0) (hU : MoveClosed b U) (hcard : U.length < 3 * 2 ^ 29) :
    QSpec b U (fun c => Stuck b v0 c ∧ c ∈ U) where
  len := fun c hc => hc.1.1
  sub := fun c hc => hc.2
  move := fun c d c1 hc hd hm =>
    ⟨stuck_step b v0 henc hfit hclosed hdead c c1 d hd hc.1 hm,
      hU c hc.2 d hd c1 (Option.mem_def.mpr hm)⟩
  fail := fun c hc => by
    cases hs : success b c with
    | false => rfl
    | true =>
      exfalso
      exact hgoal v0 (success_boxes b c hc.1.1 hs v0 hc.1.2.2.2.2) hdead
  cap := hcard

/-- The table right after the initial `extend_table` is well-formed and empty. -/
lemma table_ok_start (b : Board) (m : Machine) (h0 : m.hash_size = 0) (hb : m.buckets = []) :
    TableOK b (extend_table m) ∧ stored (extend_table m) = [] ∧
    (extend_table m).filled = 0 := by
  have hext := extend_table_start m h0 hb
  have e_bk : (extend_table m).buckets = List.replicate 1024 [] := by rw [hext]
  have e_hs : (extend_table m).hash_size = 1024 := by rw [hext]
  have e_fl : (extend_table m).fill_limit = 768 := by rw [hext]
  have e_f : (extend_table m).filled = 0 := by rw [hext]
  have hst : stored (extend_table m) = [] := by
    unfold stored; rw [e_bk]; exact flatten_replicate_nil 1024
  refine ⟨⟨⟨10, le_refl _, by norm_num, by rw [e_hs]; norm_num, by rw [e_fl]; norm_num,
    by rw [e_f]; exact Nat.zero_le _⟩, ?_, ?_, ?_, ?_⟩, hst, e_f⟩
  · rw [e_bk, e_hs]; exact List.length_replicate _ _
  · rw [hst, e_f]; rfl
  · intro i p hp
    rw [e_bk, getD_replicate_nil] at hp
    simp at hp
  · rw [hst]; exact List.nodup_nil

/-- The machine after `extend_table` and `queue_move` of the initial state, when
the cells of the initial state satisfy `Q`. -/
lemma initial_search_inv (b : Board) (U : List (List Nat)) (Q : List Nat → Prop)
    (hq : QSpec b U Q) (m1 : Machine)
    (st : Nat) (hh : (m1.mem st).h = 0) (hs0 : m1.hash_size = 0) (hbk : m1.buckets = [])
    (hnl : m1.next_level = []) (hdone : m1.done = none) (ha : ArenaOK m1)
    (hst1 : st < m1.brk) (hst2 : st ∉ m1.block_head) (hQ : Q (m1.mem st).c) :
    SearchInv b Q (queue_move b (extend_table m1) (some st)).2 ∧
    (queue_move b (extend_table m1) (some st)).2.done = none := by
  obtain ⟨t1, t2, t3⟩ := table_ok_start b m1 hs0 hbk
  have hext := extend_table_start m1 hs0 hbk
  have f_mem : (extend_table m1).mem = m1.mem := by rw [hext]
  have f_nl : (extend_table m1).next_level = [] := by rw [hext]; exact hnl
  have f_dn : (extend_table m1).done = none := by rw [hext]; exact hdone
  have f_bh : (extend_table m1).block_head = m1.block_head := by rw [hext]
  have f_brk : (extend_table m1).brk = m1.brk := by rw [hext]
  have f_bs : (extend_table m1).block_size = m1.block_size := by rw [hext]
  obtain ⟨s1, s2, s3, -, s5, s6, s7, s8, s9, -⟩ := add_to_table_spec b (extend_table m1) st t1
    (Or.inl (by rw [f_mem]; exact hh)) (by rw [t2]; simp) (by rw [t3]; norm_num)
  have hr : (add_to_table b (extend_table m1) st).1 = true := s2.mpr (by rw [t2]; simp)
  obtain ⟨e1, e2, e3⟩ := s3 hr
  have hc : ((add_to_table b (extend_table m1) st).2.mem st).c = (m1.mem st).c := by
    rw [(s5 st).1, f_mem]
  have hsucc : success b ((add_to_table b (extend_table m1) st).2.mem st).c = false := by
    rw [hc]; exact hq.fail _ hQ
  have hqm : queue_move b (extend_table m1) (some st) =
      (false, { (add_to_table b (extend_table m1) st).2 with
        next_level := st :: (add_to_table b (extend_table m1) st).2.next_level }) := by
    unfold queue_move; simp [hr, hsucc]
  rw [hqm]
  have hmemst : ∀ p, p ∈ stored (add_to_table b (extend_table m1) st).2 ↔ p = st := by
    intro p
    rw [e1.mem_iff, t2]; simp
  refine ⟨⟨s1, ⟨?_, ?_, ?_⟩, ?_, ?_⟩, ?_⟩
  · show (add_to_table b (extend_table m1) st).2.block_head.Nodup
    rw [e2, f_bh]; exact ha.1
  · intro q hq'
    have hq'' : q ∈ (add_to_table b (extend_table m1) st).2.block_head := hq'
    rw [e2, f_bh] at hq''
    show q < (add_to_table b (extend_table m1) st).2.brk
    rw [s8, f_brk]
    exact ha.2.1 q hq''
  · show 1 ≤ (add_to_table b (extend_table m1) st).2.block_size
    rw [s9, f_bs]; exact ha.2.2
  · intro p hp
    have hp' : p ∈ stored (add_to_table b (extend_table m1) st).2 := hp
    have hpst := (hmemst p).mp hp'
    rw [hpst]
    show st < (add_to_table b (extend_table m1) st).2.brk ∧
      st ∉ (add_to_table b (extend_table m1) st).2.block_head ∧
      Q ((add_to_table b (extend_table m1) st).2.mem st).c
    rw [s8, f_brk, e2, f_bh, hc]
    exact ⟨hst1, hst2, hQ⟩
  · intro p hp
    have hp' : p ∈ st :: (add_to_table b (extend_table m1) st).2.next_level := hp
    show p ∈ stored (add_to_table b (extend_table m1) st).2
    rw [s6, f_nl] at hp'
    rw [hmemst]
    simpa using hp'
  · show (add_to_table b (extend_table m1) st).2.done = none
    rw [s7, f_dn]

/-- C17: for a wall-enclosed layout (grid of at most `2^16` cells, actor
starting on an interior cell that is not a wall, boxes inside the grid) in which
a box starts on a cell whose live flag is `0`, and whose initial cell array lies
in a set `U` of fewer than `3 * 2^29` cell arrays closed under the moves of
`move_me` in the four directions (the table then stays within the range of its
32-bit counters), the run returns, for every fuel of the embedding above `w * h`
and the size of `U`, with the no-solution outcome. -/
theorem stuck_box_no_solution (w h : Nat) (s : List Char) (fuel : Nat) (mem : Nat → Slot)
    (brk : Nat) (b : Board) (c0 : List Nat) (v0 : Nat) (U : List (List Nat))
    (hp : (parse_board w h s fuel (Machine.start mem brk)).map
      (fun r => (r.1, (r.2.2.mem r.2.1).c)) = some (b, c0))
    (hfuel1 : w * h < fuel) (hfuel2 : U.length < fuel)
    (hfit : w * h ≤ 65536)
    (hc0 : c0 ∈ U) (hU : MoveClosed b U) (hcard : U.length < 3 * 2 ^ 29)
    (henc : wall_enclosed b) (hint : interior b (actor c0))
    (hopen : rd b.board (actor c0) ≠ wall) (hboxes : ∀ v ∈ boxes c0, v < w * h)
    (hv0 : v0 ∈ boxes c0) (hdead : rd b.live v0 = 0) :
    run w h s fuel (Machine.start mem brk) = some Exit.no_solution := by
  cases hpb : parse_board w h s fuel (Machine.start mem brk) with
  | none => rw [hpb] at hp; simp at hp
  | some r =>
    obtain ⟨b1, st, m1⟩ := r
    rw [hpb] at hp
    simp only [Option.map_some', Option.some.injEq, Prod.mk.injEq] at hp
    obtain ⟨hb1, hc0e⟩ := hp
    subst hb1
    obtain ⟨hst, hh0, -, hclen, hs0, hbk, hnl, hdone, hbrk, hbs, -, hbh, -⟩ :=
      parse_board_start w h s fuel mem brk b1 st m1 hpb
    obtain ⟨hw, hh, hgl, -, -, -, -, hinv⟩ := parse_board_inv w h s fuel (Machine.start mem brk)
      b1 hfuel1 (by rw [hpb]; rfl)
    rw [← hw, ← hh] at hfit hboxes hinv hgl
    have hq : QSpec b1 U (fun c => Stuck b1 v0 c ∧ c ∈ U) := stuck_qspec b1 U v0 henc hfit
      (fun x hx => (hinv.2.2.1 x hx).2)
      (fun g hg => hinv.2.2.2 g (hgl ▸ rd_lt_of_ne_zero hg) hg) hdead hU hcard
    have ha : ArenaOK m1 := by
      refine ⟨?_, ?_, by rw [hbs]; norm_num⟩
      · rw [hbh]
        apply List.Nodup.map
        · intro x y hxy; simpa using hxy
        · exact List.nodup_range _
      · intro q hq'
        rw [hbh] at hq'
        obtain ⟨k, hk, rfl⟩ := List.mem_map.mp hq'
        have := List.mem_range.mp hk
        omega
    have hQ : Stuck b1 v0 (m1.mem st).c ∧ (m1.mem st).c ∈ U := by
      rw [hc0e]
      exact ⟨⟨by rw [← hc0e]; exact hclen, hint, hopen, hboxes, hv0⟩, hc0⟩
    obtain ⟨i1, i2⟩ := initial_search_inv b1 U (fun c => Stuck b1 v0 c ∧ c ∈ U) hq m1 st
      hh0 hs0 hbk hnl hdone ha (by omega) (by
        rw [hbh]
        intro hin
        obtain ⟨k, -, hk⟩ := List.mem_map.mp hin
        omega) hQ
    obtain ⟨m3, hsearch⟩ := search_exhausts b1 U (fun c => Stuck b1 v0 c ∧ c ∈ U) hq fuel _
      i1 i2 (by omega)
    unfold run
    rw [hpb]
    simp only
    rw [hsearch]

/-- Witness for C17: `corner_layout`, whose box starts in a corner; `U` lists
the five cell arrays of its state space. -/
theorem stuck_box_no_solution_witness :
    run 6 4 corner_layout 600 (Machine.start (fun _ => default) 0) = some Exit.no_solution :=
  stuck_box_no_solution 6 4 corner_layout 600 (fun _ => default) 0
    ⟨6, 4, 1, [1, 1, 1, 1, 1, 0, 1, 0, 0, 0, 1, 0, 1, 0, 0, 0, 1, 0, 1, 1, 1, 1, 1, 0],
      [0, 0, 0, 0, 0, 0, 0, 0, 0, 1, 0, 0, 0, 0, 0, 0, 0, 0, 0, 0, 0, 0, 0, 0],
      [0, 0, 0, 0, 0, 0, 0, 0, 1, 1, 0, 0, 0, 0, 0, 0, 0, 0, 0, 0, 0, 0, 0, 0]⟩
    [13, 7] 7 [[13, 7], [14, 7], [15, 7], [8, 7], [9, 7]]
    (by decide) (by decide) (by decide) (by decide) (by decide) (by decide) (by decide)
    (by decide) (by decide) (by decide) (by decide) (by decide) (by decide)

/-! ## Defects found by evaluation -/

/-- C1 (failing input): on `row_layout` the only push admits a goal state while
the next frontier is still empty; `done` is set, yet the loop of `main` takes
the empty-frontier exit and the run ends with the no-solution outcome. -/
theorem done_set_but_no_solution :
    layout_w row_layout = 6 ∧ layout_h row_layout = 3 ∧
    main row_layout 50 fresh_machine = some Exit.no_solution ∧
    (parse_board 6 3 row_layout 50 fresh_machine).map
      (fun r => (search r.1 50 (queue_move r.1 (extend_table r.2.2) (some r.2.1)).2).map
        (fun x => (x.1, x.2.done.isSome, x.2.next_level)))
      = some (some (false, true, [])) := by
  refine ⟨by decide, by decide, by decide, by decide⟩

/-- C2 (failing input): on `row_layout` the run ends with the no-solution
outcome although one `move_me` step to the right from the initial state
reaches a state that satisfies the goal predicate. -/
theorem no_solution_but_goal_reachable :
    main row_layout 50 fresh_machine = some Exit.no_solution ∧
    (parse_board 6 3 row_layout 50 fresh_machine).map
      (fun r => ((r.2.2.mem r.2.1).c, (run_cells r.1 [(0, 1)] (r.2.2.mem r.2.1).c).map
        (fun c => (c, success r.1 c))))
      = some ([7, 8], some ([8, 9], true)) := by
  refine ⟨by decide, by decide⟩

set_option maxRecDepth 100000 in
/-- C4 (failing input): on `two_box_layout` the initial state has the ascending
box cells 14, 15; pushing the first box down gives the successor with box cells
20, 15, which are not ascending (the sort of `move_me` never compares the last
box cell); `do_move` admits this successor to the hash table. -/
theorem successor_boxes_not_sorted :
    (parse_board 6 5 two_box_layout 31 fresh_machine).map
      (fun r => ((r.2.2.mem r.2.1).c, move_cells r.1 (r.2.2.mem r.2.1).c 1 0,
        decide ([14, 20, 15] ∈ (stored (do_move r.1
            (queue_move r.1 (extend_table r.2.2) (some r.2.1)).2 r.2.1).2).map
          (key r.1 (do_move r.1 (queue_move r.1 (extend_table r.2.2) (some r.2.1)).2 r.2.1).2))))
      = some ([8, 14, 15], some [14, 20, 15], true) := by
  decide

/-- C9 (failing input): on the board of `wrap_layout` (`w = 4`, `h = 4`) the
actor on cell 3 (row 0, column 3) moving right has destination column `4 = w`,
outside the grid columns `0 .. 3`; `move_me` does not return `NULL` but creates
a state with the actor on cell 4 (row 1, column 0). -/
theorem move_me_accepts_column_w :
    (parse_board 4 4 wrap_layout 50 fresh_machine).map
      (fun r => ((move_me r.1 (Machine.start (fun _ => ⟨0, none, [3, 8]⟩) 1) 0 0 1).1,
        ((move_me r.1 (Machine.start (fun _ => ⟨0, none, [3, 8]⟩) 1) 0 0 1).2.mem 2).c))
      = some (some 2, [4, 8]) := by
  decide

set_option maxRecDepth 1000000 in
set_option maxHeartbeats 4000000 in
/-- C5 (failing input): on `twin_layout` the search ends with the no-solution
outcome, and the table then holds the two distinct states of slots 18 and 17,
both with the actor on cell 14 and boxes on the cells 7, 8 and 13; their box
cells are stored in the orders 7, 8, 13 and 7, 13, 8 (the sort of `move_me`
never compares the last box cell), so the second was not rejected. -/
theorem twin_states_stored :
    (parse_board 6 5 twin_layout 40 fresh_machine).map
      (fun r => (search r.1 40 (queue_move r.1 (extend_table r.2.2) (some r.2.1)).2).map
        (fun x => (x.1, (x.2.mem 18).c, (x.2.mem 17).c,
          decide (18 ∈ stored x.2), decide (17 ∈ stored x.2))))
      = some (some (false, [14, 7, 8, 13], [14, 7, 13, 8], true, true)) := by
  decide


/-! ## Table contracts -/

lemma table_built_ok (b : Board) (m : Machine) (h : TableBuilt b m) : TableOK b m := by
  induction h with
  | init m h0 hb => exact (table_ok_start b m h0 hb).1
  | add m s _ hh hns hcap ih => exact (add_to_table_spec b m s ih (Or.inl hh) hns hcap).1
  | frame m m1 _ h1 h2 h3 h4 h5 ih => exact table_ok_congr b m m1 ih h1 h2 h3 h4 h5

/-- C6: in every table built by the initial `extend_table` and `add_to_table`
calls on freshly created states (growth included), the cells arrays of the
stored states are pairwise different, and `filled` is the number of stored
states. -/
theorem stored_states_unique (b : Board) (m : Machine) (h : TableBuilt b m) :
    ((stored m).map (key b m)).Nodup ∧ (stored m).length = m.filled := by
  obtain ⟨-, -, t3, -, t5⟩ := table_built_ok b m h
  exact ⟨t5, t3⟩

set_option maxRecDepth 100000 in
/-- The table `two_state_table` is built by `extend_table` and two calls of
`add_to_table` on freshly created states. -/
lemma two_state_table_built : TableBuilt row_board two_state_table :=
  TableBuilt.add _ 1
    (TableBuilt.add _ 0 (TableBuilt.init table_machine rfl rfl) (by decide) (by decide)
      (by decide))
    (by decide) (by decide) (by decide)

set_option maxRecDepth 100000 in
/-- Witness for C6: the table that holds the two different states of slots 0
and 1 of `table_machine`, after it rejected the state of slot 2, which has the
cells of slot 0. -/
theorem stored_states_unique_witness :
    ((add_to_table row_board two_state_table 2).1 = false ∧
      (stored (add_to_table row_board two_state_table 2).2).length = 2) ∧
    ((stored (add_to_table row_board two_state_table 2).2).map
      (key row_board (add_to_table row_board two_state_table 2).2)).Nodup ∧
    (stored (add_to_table row_board two_state_table 2).2).length
      = (add_to_table row_board two_state_table 2).2.filled :=
  ⟨⟨by decide, by decide⟩,
    stored_states_unique row_board (add_to_table row_board two_state_table 2).2
      (TableBuilt.add two_state_table 2 two_state_table_built (by decide) (by decide)
        (by decide))⟩

/-- C7: for a table built by `extend_table` and `add_to_table` calls and a
freshly created state `s`, `add_to_table(s)` returns true exactly when no
stored state has the cells array of `s`; when it returns true, `s` is stored
afterwards and every state stored before is still stored (also when the call
doubles the capacity), and `filled` has grown by one. -/
theorem add_to_table_true_iff_absent (b : Board) (m : Machine) (s : Nat)
    (hb : TableBuilt b m) (hh : (m.mem s).h = 0) (hns : s ∉ stored m)
    (hcap : m.filled < 3 * 2 ^ 29) :
    ((add_to_table b m s).1 = true ↔ ∀ p ∈ stored m, key b m p ≠ key b m s) ∧
    ((add_to_table b m s).1 = true →
      s ∈ stored (add_to_table b m s).2 ∧
      (∀ p ∈ stored m, p ∈ stored (add_to_table b m s).2) ∧
      (add_to_table b m s).2.filled = m.filled + 1) := by
  obtain ⟨-, s2, s3, -⟩ := add_to_table_spec b m s (table_built_ok b m hb) (Or.inl hh) hns hcap
  refine ⟨?_, fun ht => ?_⟩
  · rw [s2, List.mem_map]
    constructor
    · intro h p hp he
      exact h ⟨p, hp, he⟩
    · rintro h ⟨p, hp, he⟩
      exact h p hp he
  · obtain ⟨e1, -, e3⟩ := s3 ht
    exact ⟨e1.mem_iff.mpr (List.mem_cons_self _ _),
      fun p hp => e1.mem_iff.mpr (List.mem_cons_of_mem _ hp), e3⟩

set_option maxRecDepth 100000 in
/-- Witness for C7: the state of slot 3 of `table_machine`, whose cells differ
from those of the two states that `two_state_table` holds, is admitted. -/
theorem add_to_table_true_iff_absent_witness :
    ((add_to_table row_board two_state_table 3).1 = true ∧
      (stored two_state_table).length = 2) ∧
    ((add_to_table row_board two_state_table 3).1 = true ↔
      ∀ p ∈ stored two_state_table,
        key row_board two_state_table p ≠ key row_board two_state_table 3) ∧
    ((add_to_table row_board two_state_table 3).1 = true →
      3 ∈ stored (add_to_table row_board two_state_table 3).2 ∧
      (∀ p ∈ stored two_state_table,
        p ∈ stored (add_to_table row_board two_state_table 3).2) ∧
      (add_to_table row_board two_state_table 3).2.filled = two_state_table.filled + 1) :=
  ⟨⟨by decide, by decide⟩,
    add_to_table_true_iff_absent row_board two_state_table 3 two_state_table_built
      (by decide) (by decide) (by decide)⟩

/-- C8: when `add_to_table(s)` returns false, the table is left unchanged (same
bucket chains, `hash_size`, `fill_limit` and `filled`), the slot `s` is pushed
once on the free list, of which it becomes the head with the previous free list
behind it, and the cells and parents of all slots are unchanged. -/
theorem add_to_table_duplicate_frame (b : Board) (m : Machine) (s : Nat)
    (h : (add_to_table b m s).1 = false) :
    (add_to_table b m s).2.buckets = m.buckets ∧
    (add_to_table b m s).2.hash_size = m.hash_size ∧
    (add_to_table b m s).2.fill_limit = m.fill_limit ∧
    (add_to_table b m s).2.filled = m.filled ∧
    (add_to_table b m s).2.block_head = s :: m.block_head ∧
    (∀ q, ((add_to_table b m s).2.mem q).c = (m.mem q).c ∧
      ((add_to_table b m s).2.mem q).prev = (m.mem q).prev) := by
  obtain ⟨h1, h2, h3, h4⟩ := hash_sizes b m s
  have hbh : (hash b m s).block_head = m.block_head := by unfold hash; split <;> rfl
  have hl2 : (lookup b m s).2 = hash b m s := rfl
  have hu : add_to_table b m s = (false, unnewstate (hash b m s) s) := by
    unfold add_to_table at h ⊢
    dsimp only at h ⊢
    cases hl : (lookup b m s).1 with
    | none => rw [hl] at h; simp at h
    | some f => rw [hl2]
  rw [hu]
  simp only [unnewstate]
  exact ⟨h4, h1, h2, h3, by rw [hbh],
    fun q => ⟨(hash_mem b m s q).1, (hash_mem b m s q).2.1⟩⟩

/-- Witness for C8: the state of slot 1 of `row_machine` offered after the
equal state of slot 0 was admitted. -/
theorem add_to_table_duplicate_frame_witness :
    (add_to_table row_board (add_to_table row_board (extend_table row_machine) 0).2 1).2.buckets
      = (add_to_table row_board (extend_table row_machine) 0).2.buckets ∧
    (add_to_table row_board (add_to_table row_board (extend_table row_machine) 0).2 1).2.hash_size
      = (add_to_table row_board (extend_table row_machine) 0).2.hash_size ∧
    (add_to_table row_board (add_to_table row_board (extend_table row_machine) 0).2 1).2.fill_limit
      = (add_to_table row_board (extend_table row_machine) 0).2.fill_limit ∧
    (add_to_table row_board (add_to_table row_board (extend_table row_machine) 0).2 1).2.filled
      = (add_to_table row_board (extend_table row_machine) 0).2.filled ∧
    (add_to_table row_board (add_to_table row_board (extend_table row_machine) 0).2 1).2.block_head
      = 1 :: (add_to_table row_board (extend_table row_machine) 0).2.block_head ∧
    (∀ q, ((add_to_table row_board
          (add_to_table row_board (extend_table row_machine) 0).2 1).2.mem q).c
        = ((add_to_table row_board (extend_table row_machine) 0).2.mem q).c ∧
      ((add_to_table row_board
          (add_to_table row_board (extend_table row_machine) 0).2 1).2.mem q).prev
        = ((add_to_table row_board (extend_table row_machine) 0).2.mem q).prev) :=
  add_to_table_duplicate_frame row_board
    (add_to_table row_board (extend_table row_machine) 0).2 1 (by decide)

/-! ## Push rule -/

/-- C10: for a state `s` in use with `1 + n_boxes` cells and a direction in
which the destination `c1` of the actor is inside the grid, is not a wall and
holds a box, `move_me` returns `NULL` exactly when the cell `c2` one step beyond
`c1` is a wall, has `live[c2] == 0` or holds a box of `s` (a read outside the
arrays yields `0`); and when it returns a successor `n`, `c2` is not a wall, is
live, holds no box of `s`, and (when `c2` fits `cidx_t`) is a box cell of `n`. -/
theorem move_me_push_blocked_iff (b : Board) (m : Machine) (s : Nat) (dy dx : Int)
    (hlen : (m.mem s).c.length = b.n_boxes + 1)
    (hfree : s ∉ m.block_head) (hbrk : s < m.brk)
    (hy0 : 0 ≤ ((actor (m.mem s).c / b.w : Nat) : Int) + dy)
    (hy1 : ((actor (m.mem s).c / b.w : Nat) : Int) + dy < b.h)
    (hx0 : 0 ≤ ((actor (m.mem s).c % b.w : Nat) : Int) + dx)
    (hx1 : ((actor (m.mem s).c % b.w : Nat) : Int) + dx < b.w)
    (hwall : rdI b.board (dest b (m.mem s).c dy dx) ≠ wall)
    (hbox : (dest b (m.mem s).c dy dx).toNat ∈ boxes (m.mem s).c) :
    ((move_me b m s dy dx).1 = none ↔
      (rdI b.board (dest b (m.mem s).c dy dx + dy * b.w + dx) = wall ∨
       rdI b.live (dest b (m.mem s).c dy dx + dy * b.w + dx) = 0 ∨
       ∃ v ∈ boxes (m.mem s).c, (v : Int) = dest b (m.mem s).c dy dx + dy * b.w + dx)) ∧
    (∀ n, (move_me b m s dy dx).1 = some n →
      rdI b.board (dest b (m.mem s).c dy dx + dy * b.w + dx) ≠ wall ∧
      rdI b.live (dest b (m.mem s).c dy dx + dy * b.w + dx) ≠ 0 ∧
      (∀ v ∈ boxes (m.mem s).c, (v : Int) ≠ dest b (m.mem s).c dy dx + dy * b.w + dx) ∧
      (dest b (m.mem s).c dy dx + dy * b.w + dx < 65536 →
        (dest b (m.mem s).c dy dx + dy * b.w + dx).toNat
          ∈ boxes ((move_me b m s dy dx).2.mem n).c)) := by
  have hd0 : 0 ≤ dest b (m.mem s).c dy dx := by
    rw [← dest_eq]
    have : (0:Int) ≤ (((actor (m.mem s).c / b.w : Nat) : Int) + dy) * b.w :=
      mul_nonneg hy0 (by omega)
    unfold actor at hx0 this
    omega
  have hab := (mem_boxes_iff_find_box b.n_boxes (m.mem s).c _ hlen hd0).mp hbox
  have hnone : move_cells b (m.mem s).c dy dx = none ↔
      (rdI b.board (dest b (m.mem s).c dy dx + dy * b.w + dx) = wall ∨
       rdI b.live (dest b (m.mem s).c dy dx + dy * b.w + dx) = 0 ∨
       ∃ v ∈ boxes (m.mem s).c, (v : Int) = dest b (m.mem s).c dy dx + dy * b.w + dx) := by
    have hany : ((List.range b.n_boxes).any (fun i => ((((m.mem s).c.getD (i + 1) 0 : Nat) : Int)
          = dest b (m.mem s).c dy dx + dy * b.w + dx)) = true) ↔
        ∃ v ∈ boxes (m.mem s).c, (v : Int) = dest b (m.mem s).c dy dx + dy * b.w + dx := by
      rw [List.any_eq_true]
      constructor
      · rintro ⟨i, hi, he⟩
        exact ⟨_, (mem_boxes_iff b.n_boxes _ hlen _).mpr ⟨i, by simpa using hi, rfl⟩,
          by simpa using he⟩
      · rintro ⟨v, hv, he⟩
        obtain ⟨i, hi, rfl⟩ := (mem_boxes_iff b.n_boxes _ hlen v).mp hv
        exact ⟨i, by simpa using hi, by simpa using he⟩
    unfold move_cells
    simp only [dest_eq]
    unfold actor at hy0 hy1 hx0 hx1
    have hc1 : ¬ ((((((m.mem s).c.getD 0 0 / b.w : Nat) : Int) + dy < 0) ∨
        ((((m.mem s).c.getD 0 0 / b.w : Nat) : Int) + dy > b.h) ∨
        ((((m.mem s).c.getD 0 0 % b.w : Nat) : Int) + dx < 0) ∨
        ((((m.mem s).c.getD 0 0 % b.w : Nat) : Int) + dx > b.w) ∨
        rdI b.board (dest b (m.mem s).c dy dx) = wall)) := by
      rintro (h | h | h | h | h)
      · omega
      · omega
      · omega
      · omega
      · exact hwall h
    rw [if_neg hc1]
    constructor
    · intro h
      split at h
      · rename_i h2
        rw [← hany]
        exact h2.2
      · exact absurd h (by simp)
    · intro h
      rw [if_pos ⟨hab, by rw [hany]; exact h⟩]
  have hme := move_me_eq b m s dy dx hfree hbrk
  refine ⟨?_, ?_⟩
  · rw [← hnone, hme]
    cases move_cells b (m.mem s).c dy dx <;> simp
  · intro n hn
    cases hc : move_cells b (m.mem s).c dy dx with
    | none => rw [hme, hc] at hn; simp at hn
    | some cs =>
      obtain ⟨-, -, -, -, hpush, -⟩ := move_cells_spec b _ cs dy dx hlen hc
      obtain ⟨p1, p2, p3, p4⟩ := hpush hbox
      refine ⟨p1, p2, p3, fun hfit => ?_⟩
      have hc2 : 0 ≤ dest b (m.mem s).c dy dx + dy * b.w + dx := by
        by_contra hneg
        apply p2
        unfold rdI
        rw [if_pos (by omega)]
      rw [hme, hc] at hn ⊢
      simp only [Option.some.injEq] at hn
      subst hn
      simp only [upd, if_true]
      rw [Int.emod_eq_of_lt hc2 hfit] at p4
      exact p4.mem_iff.mpr (List.mem_cons_self _ _)

/-- Witness for C10: the push to the right on `row_board`. -/
theorem move_me_push_blocked_iff_witness :
    ((move_me row_board row_machine 0 0 1).1 = none ↔
      (rdI row_board.board (dest row_board (row_machine.mem 0).c 0 1 + 0 * row_board.w + 1) = wall ∨
       rdI row_board.live (dest row_board (row_machine.mem 0).c 0 1 + 0 * row_board.w + 1) = 0 ∨
       ∃ v ∈ boxes (row_machine.mem 0).c,
         (v : Int) = dest row_board (row_machine.mem 0).c 0 1 + 0 * row_board.w + 1)) ∧
    (∀ n, (move_me row_board row_machine 0 0 1).1 = some n →
      rdI row_board.board (dest row_board (row_machine.mem 0).c 0 1 + 0 * row_board.w + 1) ≠ wall ∧
      rdI row_board.live (dest row_board (row_machine.mem 0).c 0 1 + 0 * row_board.w + 1) ≠ 0 ∧
      (∀ v ∈ boxes (row_machine.mem 0).c,
        (v : Int) ≠ dest row_board (row_machine.mem 0).c 0 1 + 0 * row_board.w + 1) ∧
      (dest row_board (row_machine.mem 0).c 0 1 + 0 * row_board.w + 1 < 65536 →
        (dest row_board (row_machine.mem 0).c 0 1 + 0 * row_board.w + 1).toNat
          ∈ boxes ((move_me row_board row_machine 0 0 1).2.mem n).c)) :=
  move_me_push_blocked_iff row_board row_machine 0 0 1
    (by decide) (by decide) (by decide) (by decide) (by decide) (by decide) (by decide)
    (by decide) (by decide)

/-! ## Breadth-first order of the search -/

set_option maxRecDepth 1000000 in
set_option maxHeartbeats 4000000 in
/-- C28 (failing input): on the board of the wall-enclosed `room_layout`
(`w * h = 180` cells) the call `mark_live_iterative(19)` for its first goal cell
makes a push with `top = 180`, beyond the `w * h` entries of `stack`. -/
theorem mark_live_iterative_stack_overflow :
    layout_w room_layout = 18 ∧ layout_h room_layout = 10 ∧
    rd (scanned 18 10 room_layout).goals 19 = 1 ∧
    mark_live_iterative (scanned 18 10 room_layout) 1000 (List.replicate 180 0) 19
      = Fill.overflow := by
  refine ⟨by decide, by decide, by decide, by decide⟩

/-! ## Cached digest -/

lemma digest_fold (c : List Nat) : ∀ n : Nat,
    (List.range (n + 1)).foldl (fun ha i => (c.getD i 0 + 31 * ha) % 2 ^ 32) 0
      = (∑ i in Finset.range (n + 1), c.getD i 0 * 31 ^ (n - i)) % 2 ^ 32
  | 0 => by simp [List.range_succ]
  | n + 1 => by
    rw [List.range_succ, List.foldl_append, digest_fold c n]
    simp only [List.foldl_cons, List.foldl_nil]
    rw [Finset.sum_range_succ _ (n + 1)]
    have hs : ∑ i in Finset.range (n + 1), c.getD i 0 * 31 ^ (n + 1 - i)
        = 31 * ∑ i in Finset.range (n + 1), c.getD i 0 * 31 ^ (n - i) := by
      rw [Finset.mul_sum]
      apply Finset.sum_congr rfl
      intro i hi
      have hi' : i ≤ n := by
        have := Finset.mem_range.mp hi
        omega
      have : n + 1 - i = (n - i) + 1 := by omega
      rw [this, pow_succ]
      ring
    rw [hs]
    simp only [Nat.sub_self, pow_zero, Nat.mul_one]
    rw [Nat.add_comm (31 * _) _]
    omega

lemma upd_self (mem : Nat → Slot) (s : Nat) (v : Slot) (h : v = mem s) : upd mem s v = mem := by
  funext q
  unfold upd
  split_ifs with hq
  · rw [hq]; exact h
  · rfl

/-- C25: for a state `s` whose cached `h` is `0`, `hash(s)` sets `h` to
`(Σ c[i] * 31^(n_boxes - i)) mod 2^32` over `i = 0 .. n_boxes` and changes
nothing else (cells and parent of `s`, every other slot, every global); a
second call changes nothing, also when the digest is `0`; and a state `t` with
cached `h = 0` and the same cells gets the same `h`. -/
theorem hash_sets_digest (b : Board) (m : Machine) (s : Nat) (h0 : (m.mem s).h = 0) :
    ((hash b m s).mem s).h
      = (∑ i in Finset.range (b.n_boxes + 1), (m.mem s).c.getD i 0 * 31 ^ (b.n_boxes - i))
          % 2 ^ 32 ∧
    ((hash b m s).mem s).c = (m.mem s).c ∧ ((hash b m s).mem s).prev = (m.mem s).prev ∧
    (∀ q, q ≠ s → (hash b m s).mem q = m.mem q) ∧
    hash b m s = { m with mem := (hash b m s).mem } ∧
    hash b (hash b m s) s = hash b m s ∧
    (∀ t, (m.mem t).h = 0 → cells_of b.n_boxes (m.mem t).c = cells_of b.n_boxes (m.mem s).c →
      ((hash b (hash b m s) t).mem t).h = ((hash b (hash b m s) t).mem s).h) := by
  have he : hash b m s = with_hash m s (digest b.n_boxes (m.mem s).c) :=
    hash_eq b m s (Or.inl h0)
  have hs : (hash b m s).mem s = { m.mem s with h := digest b.n_boxes (m.mem s).c } := by
    rw [he]; simp [with_hash, upd]
  have hq : ∀ q, q ≠ s → (hash b m s).mem q = m.mem q := by
    intro q hne
    rw [he]; simp [with_hash, upd, hne]
  have hidem : hash b (hash b m s) s = hash b m s := by
    rw [hash_eq b (hash b m s) s (Or.inr (by rw [hs]))]
    unfold with_hash
    rw [upd_self _ _ _ (by rw [hs])]
  refine ⟨?_, by rw [hs], by rw [hs], hq, by rw [he]; rfl, hidem, ?_⟩
  · rw [hs]
    exact digest_fold _ _
  · intro t ht hc
    by_cases hts : t = s
    · rw [hts]
    · have ht0 : ((hash b m s).mem t).h = 0 := by rw [hq t hts]; exact ht
      have he2 := hash_eq b (hash b m s) t (Or.inl ht0)
      rw [he2]
      have hst : s ≠ t := fun e => hts e.symm
      simp only [with_hash, upd, if_true, if_neg hst]
      rw [hs, hq t hts]
      exact digest_congr _ _ _ hc

/-- Witness for C25: slot 0 of `row_machine`, with cells 6, 7 and digest
`6 * 31 + 7`. -/
theorem hash_sets_digest_witness :
    ((hash row_board row_machine 0).mem 0).h
      = (∑ i in Finset.range (row_board.n_boxes + 1),
          (row_machine.mem 0).c.getD i 0 * 31 ^ (row_board.n_boxes - i)) % 2 ^ 32 ∧
    ((hash row_board row_machine 0).mem 0).c = (row_machine.mem 0).c ∧
    ((hash row_board row_machine 0).mem 0).prev = (row_machine.mem 0).prev ∧
    (∀ q, q ≠ 0 → (hash row_board row_machine 0).mem q = row_machine.mem q) ∧
    hash row_board row_machine 0
      = { row_machine with mem := (hash row_board row_machine 0).mem } ∧
    hash row_board (hash row_board row_machine 0) 0 = hash row_board row_machine 0 ∧
    (∀ t, (row_machine.mem t).h = 0 →
      cells_of row_board.n_boxes (row_machine.mem t).c
        = cells_of row_board.n_boxes (row_machine.mem 0).c →
      ((hash row_board (hash row_board row_machine 0) t).mem t).h
        = ((hash row_board (hash row_board row_machine 0) t).mem 0).h) :=
  hash_sets_digest row_board row_machine 0 (by decide)

/-! ## Termination of the recursive fill -/

lemma live_next_length (b : Board) (c : Nat) : (live_next b c).length ≤ 4 := by
  unfold live_next
  simp only [List.length_append]
  split_ifs <;> simp

/-- Erasing the ghost counters of `chain_counts` gives `chain_calls`. -/
lemma chain_counts_erase (f : List Nat → Nat → Option (List Nat × Nat × Nat))
    (g : List Nat → Nat → Option (List Nat))
    (hfg : ∀ live c, (f live c).map (fun r => r.1) = g live c) :
    ∀ (ns live : List Nat), (chain_counts f live ns).map (fun r => r.1) = chain_calls g live ns
  | [], live => rfl
  | n :: ns, live => by
    have h1 := hfg live n
    unfold chain_counts chain_calls
    cases hf : f live n with
    | none => rw [hf] at h1; rw [← h1]; rfl
    | some r =>
      obtain ⟨l1, k1, n1⟩ := r
      rw [hf] at h1
      simp only [Option.map_some'] at h1
      rw [← h1]
      simp only
      have h2 := chain_counts_erase f g hfg ns l1
      cases hc : chain_counts f l1 ns with
      | none => rw [hc] at h2; rw [← h2]
      | some r2 =>
        obtain ⟨l2, k2, n2⟩ := r2
        rw [hc] at h2
        rw [← h2]; rfl

/-- Erasing the ghost counters of `mark_live_counts` gives `mark_live`. -/
lemma mark_live_counts_erase (b : Board) :
    ∀ (fuel : Nat) (live : List Nat) (c : Nat),
      (mark_live_counts b fuel live c).map (fun r => r.1) = mark_live b fuel live c
  | 0, _, _ => rfl
  | fuel + 1, live, c => by
    unfold mark_live_counts mark_live
    split
    · rfl
    · have h := chain_counts_erase (mark_live_counts b fuel) (mark_live b fuel)
        (mark_live_counts_erase b fuel) (live_next b c) (live.set c 1)
      cases hc : chain_counts (mark_live_counts b fuel) (live.set c 1) (live_next b c) with
      | none => rw [hc] at h; rw [← h]
      | some r =>
        obtain ⟨l1, k1, n1⟩ := r
        rw [hc] at h
        rw [← h]; rfl

/-- What the counters of a chain of calls say, given what they say for one
call: every marking call turns one `0` of the array into a `1`, and there is
one call per cell of the list plus at most four per marking call. -/
lemma chain_counts_spec (N : Nat) (f : List Nat → Nat → Option (List Nat × Nat × Nat))
    (hf : ∀ live c live1 k n, live.length = N → c < N → f live c = some (live1, k, n) →
      live1.length = N ∧ k + List.count 0 live1 = List.count 0 live ∧ n ≤ 4 * k + 1) :
    ∀ (ns live live1 : List Nat) (k n : Nat), live.length = N → (∀ x ∈ ns, x < N) →
      chain_counts f live ns = some (live1, k, n) →
      live1.length = N ∧ k + List.count 0 live1 = List.count 0 live ∧ n ≤ 4 * k + ns.length
  | [], live, live1, k, n, hlen, _, h => by
    simp only [chain_counts, Option.some.injEq, Prod.mk.injEq] at h
    obtain ⟨rfl, rfl, rfl⟩ := h
    exact ⟨hlen, by simp, by simp⟩
  | x :: ns, live, live1, k, n, hlen, hns, h => by
    unfold chain_counts at h
    cases hfx : f live x with
    | none => rw [hfx] at h; simp at h
    | some r =>
      obtain ⟨l1, k1, n1⟩ := r
      rw [hfx] at h
      simp only at h
      obtain ⟨a1, a2, a3⟩ := hf live x l1 k1 n1 hlen (hns x (List.mem_cons_self _ _)) hfx
      cases hc : chain_counts f l1 ns with
      | none => rw [hc] at h; simp at h
      | some r2 =>
        obtain ⟨l2, k2, n2⟩ := r2
        rw [hc] at h
        simp only [Option.some.injEq, Prod.mk.injEq] at h
        obtain ⟨rfl, rfl, rfl⟩ := h
        obtain ⟨b1, b2, b3⟩ := chain_counts_spec N f hf ns l1 l2 k2 n2 a1
          (fun y hy => hns y (List.mem_cons_of_mem _ hy)) hc
        refine ⟨b1, by omega, ?_⟩
        simp only [List.length_cons]
        omega

/-- The counters of `mark_live_counts`: the marking calls are exactly the cells
that went from `0` to `1`, and there are at most four further calls per marking
call. -/
lemma mark_live_counts_spec (b : Board) :
    ∀ (fuel : Nat) (live : List Nat) (c : Nat) (live1 : List Nat) (k n : Nat),
      live.length = b.w * b.h → c < b.w * b.h →
      mark_live_counts b fuel live c = some (live1, k, n) →
      live1.length = b.w * b.h ∧ k + List.count 0 live1 = List.count 0 live ∧ n ≤ 4 * k + 1
  | 0, _, _, _, _, _, _, _, h => by simp [mark_live_counts] at h
  | fuel + 1, live, c, live1, k, n, hlen, hc, h => by
    unfold mark_live_counts at h
    split at h
    · simp only [Option.some.injEq, Prod.mk.injEq] at h
      obtain ⟨rfl, rfl, rfl⟩ := h
      exact ⟨hlen, by simp, by simp⟩
    · rename_i hm
      have hm0 : rd live c = 0 := by simpa using hm
      cases hch : chain_counts (mark_live_counts b fuel) (live.set c 1) (live_next b c) with
      | none => rw [hch] at h; simp at h
      | some r =>
        obtain ⟨l1, k1, n1⟩ := r
        rw [hch] at h
        simp only [Option.some.injEq, Prod.mk.injEq] at h
        obtain ⟨rfl, rfl, rfl⟩ := h
        obtain ⟨a1, a2, a3⟩ := chain_counts_spec (b.w * b.h) (mark_live_counts b fuel)
          (fun l x l2 k2 n2 h1 h2 h3 => mark_live_counts_spec b fuel l x l2 k2 n2 h1 h2 h3)
          (live_next b c) (live.set c 1) l1 k1 n1 (by simp [hlen])
          (fun x hx => pull_step_in_grid b c x hc ((mem_live_next b c x).mp hx)) hch
        have hset := count_zero_set live c (by omega) hm0
        have h4 := live_next_length b c
        exact ⟨a1, by omega, by omega⟩

/-- C26: on a board of `w * h` cells, for every `live` array of that length and
every start cell inside the grid, the recursive `mark_live` returns as soon as
the recursion bound of the embedding exceeds the number of unmarked cells. The
calls that mark a cell number exactly the cells that went from `0` to non-zero,
at most `w * h`; the calls altogether number at most four times that plus one;
and no cell that was marked is changed. -/
theorem mark_live_terminates (b : Board) (fuel : Nat) (live : List Nat) (c : Nat)
    (hlen : live.length = b.w * b.h) (hc : c < b.w * b.h)
    (hfuel : List.count 0 live < fuel) :
    ∃ live1 k n, mark_live b fuel live c = some live1 ∧
      mark_live_counts b fuel live c = some (live1, k, n) ∧
      k + List.count 0 live1 = List.count 0 live ∧ k ≤ b.w * b.h ∧ n ≤ 4 * k + 1 ∧
      live1.length = live.length ∧ rd live1 c ≠ 0 ∧
      ∀ x, rd live x ≠ 0 → rd live1 x = rd live x := by
  obtain ⟨live1, e1, p1, m1⟩ := mark_live_spec b (fun _ => True) (fun _ _ _ _ => trivial)
    fuel live c hlen hc trivial hfuel
  have he := mark_live_counts_erase b fuel live c
  rw [e1] at he
  cases hcnt : mark_live_counts b fuel live c with
  | none => rw [hcnt] at he; simp at he
  | some r =>
    obtain ⟨l1, k, n⟩ := r
    rw [hcnt] at he
    simp only [Option.map_some', Option.some.injEq] at he
    subst he
    obtain ⟨a1, a2, a3⟩ := mark_live_counts_spec b fuel live c l1 k n hlen hc hcnt
    have hle : List.count 0 live ≤ live.length := List.count_le_length _ _
    exact ⟨l1, k, n, e1, rfl, a2, by omega, a3, p1.1, m1, p1.2.1⟩

/-- Witness for C26: the fill from the goal cell 8 of `row_board` on the zero
array. -/
theorem mark_live_terminates_witness :
    ∃ live1 k n, mark_live row_board 16 (List.replicate 15 0) 8 = some live1 ∧
      mark_live_counts row_board 16 (List.replicate 15 0) 8 = some (live1, k, n) ∧
      k + List.count 0 live1 = List.count 0 (List.replicate 15 0) ∧
      k ≤ row_board.w * row_board.h ∧ n ≤ 4 * k + 1 ∧
      live1.length = (List.replicate 15 0).length ∧ rd live1 8 ≠ 0 ∧
      ∀ x, rd (List.replicate 15 0) x ≠ 0 → rd live1 x = rd (List.replicate 15 0) x :=
  mark_live_terminates row_board 16 (List.replicate 15 0) 8 (by decide) (by decide) (by decide)

/-! ## Capacity doubling -/

lemma rehash_chain_length (mem : Nat → Slot) (bits : Nat) :
    ∀ (chain : List Nat) (bk : List (List Nat)), (rehash_chain mem bits chain bk).length = bk.length
  | [], bk => rfl
  | head :: next, bk => by
    unfold rehash_chain
    simp only
    rw [rehash_chain_length mem bits next]
    simp

/-- The doubling branch of `extend_table` on a table of at most `2^30`
buckets, unfolded. -/
lemma extend_table_double (m : Machine) (hpos : 0 < m.hash_size) (hlt : m.hash_size < 2 ^ 31)
    (hl : m.buckets.length = m.hash_size) :
    (extend_table m).hash_size = 2 * m.hash_size ∧
    (extend_table m).fill_limit = (m.fill_limit * 2) % 2 ^ 32 ∧
    (extend_table m).buckets = rehash m.mem (2 * m.hash_size - 1) m.hash_size 0
      (m.buckets ++ List.replicate m.hash_size []) ∧
    mask (extend_table m) = 2 * m.hash_size - 1 ∧
    (extend_table m).mem = m.mem ∧ (extend_table m).filled = m.filled ∧
    (extend_table m).next_level = m.next_level ∧ (extend_table m).done = m.done ∧
    (extend_table m).block_head = m.block_head ∧ (extend_table m).brk = m.brk ∧
    (extend_table m).block_size = m.block_size ∧
    (extend_table m).block_root = m.block_root := by
  have hne : m.hash_size ≠ 0 := by omega
  have e1 : (m.hash_size * 2) % 2 ^ 32 = 2 * m.hash_size := by
    rw [Nat.mod_eq_of_lt (by omega)]; ring
  have e3 : (2 * m.hash_size + 2 ^ 32 - 1) % 2 ^ 32 = 2 * m.hash_size - 1 := by
    have : 2 * m.hash_size + 2 ^ 32 - 1 = (2 * m.hash_size - 1) + 2 ^ 32 := by omega
    rw [this, Nat.add_mod_right, Nat.mod_eq_of_lt (by omega)]
  have e4 : 2 * m.hash_size - m.hash_size = m.hash_size := by omega
  have e5 : m.buckets.take (2 * m.hash_size) = m.buckets :=
    List.take_of_length_le (by rw [hl]; omega)
  unfold mask extend_table
  simp only [if_neg hne, e1, e3, e4, e5, and_self]

/-- C22: for a table with `0 < hash_size < 2^31` buckets (whatever buckets its
states are in), the capacity-doubling `extend_table` keeps the stored states
(as a multiset), leaves the memory untouched (cells, cached `h` and parent of
every state) as well as every global other than `hash_size`, `fill_limit` and
`buckets`, and afterwards each state of a bucket `idx` has
`h & (hash_size - 1) = idx` for the doubled `hash_size`. -/
theorem extend_table_keeps_states (m : Machine) (hpos : 0 < m.hash_size)
    (hlt : m.hash_size < 2 ^ 31) (hl : m.buckets.length = m.hash_size) :
    (extend_table m).hash_size = 2 * m.hash_size ∧
    (extend_table m).buckets.length = 2 * m.hash_size ∧
    (stored (extend_table m)).Perm (stored m) ∧
    (extend_table m).mem = m.mem ∧
    (∀ idx p, p ∈ (extend_table m).buckets.getD idx [] →
      ((extend_table m).mem p).h &&& ((extend_table m).hash_size - 1) = idx) ∧
    (extend_table m).filled = m.filled ∧
    (extend_table m).next_level = m.next_level ∧ (extend_table m).done = m.done ∧
    (extend_table m).block_head = m.block_head ∧ (extend_table m).brk = m.brk ∧
    (extend_table m).block_size = m.block_size ∧
    (extend_table m).block_root = m.block_root := by
  obtain ⟨d1, d2, d3, d4, d5, d6, d7, d8, d9, d10, d11, d12⟩ :=
    extend_table_double m hpos hlt hl
  obtain ⟨r1, r2, r3⟩ := rehash_spec m.mem (2 * m.hash_size - 1) (2 * m.hash_size) m.hash_size
    (by omega) (by omega) m.hash_size 0 (m.buckets ++ List.replicate m.hash_size [])
    (by omega) (by rw [List.length_append, List.length_replicate, hl]; omega)
    (by
      intro idx hidx p hp
      exfalso
      rcases hidx with h | h
      · omega
      · rw [List.getD_append_right _ _ _ _ (by rw [hl]; exact h), getD_replicate_nil] at hp
        simp at hp)
  refine ⟨d1, by rw [d3]; exact r1, ?_, d5, ?_, d6, d7, d8, d9, d10, d11, d12⟩
  · unfold stored
    rw [d3]
    refine r2.trans ?_
    rw [List.flatten_append, flatten_replicate_nil, List.append_nil]
  · intro idx p hp
    rw [d3] at hp
    rw [d5, d1]
    exact r3 idx (by omega) p hp

set_option maxRecDepth 100000 in
/-- Witness for C22: the table of 1024 buckets that holds the state of slot 0
of `row_machine`. -/
theorem extend_table_keeps_states_witness :
    (extend_table (add_to_table row_board (extend_table row_machine) 0).2).hash_size
      = 2 * (add_to_table row_board (extend_table row_machine) 0).2.hash_size ∧
    (extend_table (add_to_table row_board (extend_table row_machine) 0).2).buckets.length
      = 2 * (add_to_table row_board (extend_table row_machine) 0).2.hash_size ∧
    (stored (extend_table (add_to_table row_board (extend_table row_machine) 0).2)).Perm
      (stored (add_to_table row_board (extend_table row_machine) 0).2) ∧
    (extend_table (add_to_table row_board (extend_table row_machine) 0).2).mem
      = (add_to_table row_board (extend_table row_machine) 0).2.mem ∧
    (∀ idx p,
      p ∈ (extend_table (add_to_table row_board (extend_table row_machine) 0).2).buckets.getD
        idx [] →
      ((extend_table (add_to_table row_board (extend_table row_machine) 0).2).mem p).h &&&
        ((extend_table (add_to_table row_board (extend_table row_machine) 0).2).hash_size - 1)
          = idx) ∧
    (extend_table (add_to_table row_board (extend_table row_machine) 0).2).filled
      = (add_to_table row_board (extend_table row_machine) 0).2.filled ∧
    (extend_table (add_to_table row_board (extend_table row_machine) 0).2).next_level
      = (add_to_table row_board (extend_table row_machine) 0).2.next_level ∧
    (extend_table (add_to_table row_board (extend_table row_machine) 0).2).done
      = (add_to_table row_board (extend_table row_machine) 0).2.done ∧
    (extend_table (add_to_table row_board (extend_table row_machine) 0).2).block_head
      = (add_to_table row_board (extend_table row_machine) 0).2.block_head ∧
    (extend_table (add_to_table row_board (extend_table row_machine) 0).2).brk
      = (add_to_table row_board (extend_table row_machine) 0).2.brk ∧
    (extend_table (add_to_table row_board (extend_table row_machine) 0).2).block_size
      = (add_to_table row_board (extend_table row_machine) 0).2.block_size ∧
    (extend_table (add_to_table row_board (extend_table row_machine) 0).2).block_root
      = (add_to_table row_board (extend_table row_machine) 0).2.block_root :=
  extend_table_keeps_states (add_to_table row_board (extend_table row_machine) 0).2
    (by decide) (by decide) (by decide)

/-- The bucket `idx` after the inner loop of `extend_table`: the states of the
chain that the mask sends to `idx`, last one first, in front of what the bucket
held. -/
lemma rehash_chain_getD (mem : Nat → Slot) (bits : Nat) :
    ∀ (chain : List Nat) (bk : List (List Nat)), bits < bk.length → ∀ idx,
      (rehash_chain mem bits chain bk).getD idx []
        = (chain.filter (fun p => (mem p).h &&& bits = idx)).reverse ++ bk.getD idx []
  | [], bk, _, idx => by simp [rehash_chain]
  | head :: next, bk, hb, idx => by
    have hj : (mem head).h &&& bits < bk.length := lt_of_le_of_lt Nat.and_le_right hb
    unfold rehash_chain
    simp only
    rw [rehash_chain_getD mem bits next _ (by simpa using hb) idx, getD_set_list]
    by_cases hi : (mem head).h &&& bits = idx
    · rw [List.filter_cons_of_pos (by simpa using hi)]
      rw [if_pos ⟨hi.symm, hj⟩, hi]
      simp
    · rw [List.filter_cons_of_neg (by simpa using hi)]
      have : ¬ (idx = (mem head).h &&& bits ∧ (mem head).h &&& bits < bk.length) :=
        fun h => hi h.1.symm
      rw [if_neg this]

lemma list_ext_getD (l1 l2 : List (List Nat)) (hlen : l1.length = l2.length)
    (h : ∀ idx, l1.getD idx [] = l2.getD idx []) : l1 = l2 := by
  apply List.ext_getElem hlen
  intro i h1 h2
  have := h i
  rwa [List.getD_eq_getElem _ _ h1, List.getD_eq_getElem _ _ h2] at this

lemma rehash_fresh_length (mem : Nat → Slot) (bits : Nat) (old : List (List Nat)) :
    ∀ (k i : Nat) (nb : List (List Nat)), (rehash_fresh mem bits old k i nb).length = nb.length
  | 0, _, nb => rfl
  | k + 1, i, nb => by
    unfold rehash_fresh
    rw [rehash_fresh_length mem bits old k, rehash_chain_length]

/-- The mask of the doubled size sends a state of the old bucket `i` to the new
bucket `i` or `i + 2^k`. -/
lemma mask_split (h k i : Nat) (hi : h &&& (2 ^ k - 1) = i) :
    h &&& (2 * 2 ^ k - 1) = i ∨ h &&& (2 * 2 ^ k - 1) = i + 2 ^ k := by
  have e : 2 * 2 ^ k = 2 ^ (k + 1) := by rw [pow_succ]; ring
  rw [Nat.and_pow_two_sub_one_eq_mod] at hi
  rw [e, Nat.and_pow_two_sub_one_eq_mod]
  rw [Nat.mod_pow_succ, hi]
  have : h / 2 ^ k % 2 < 2 := Nat.mod_lt _ (by norm_num)
  rcases Nat.lt_succ_iff.mp this with h1
  interval_cases (h / 2 ^ k % 2)
  · left; simp
  · right; simp

/-- The in-place rehash and the rehash into a fresh array agree from bucket `i`
on, when they agree on the buckets already visited and beyond the old size, the
buckets still to visit hold the old chains in place and nothing in the fresh
array, and every old chain `idx` only has states that the new mask sends to
`idx` or `idx + old`. -/
lemma rehash_eq_fresh (mem : Nat → Slot) (bits old : Nat) (oldb : List (List Nat))
    (hsplit : ∀ idx, idx < old → ∀ p ∈ oldb.getD idx [],
      (mem p).h &&& bits = idx ∨ (mem p).h &&& bits = idx + old) :
    ∀ (k i : Nat) (bk nb : List (List Nat)), i + k = old → bk.length = nb.length →
      bits < bk.length →
      (∀ idx, idx < i ∨ old ≤ idx → bk.getD idx [] = nb.getD idx []) →
      (∀ idx, i ≤ idx → idx < old → bk.getD idx [] = oldb.getD idx [] ∧ nb.getD idx [] = []) →
      rehash mem bits k i bk = rehash_fresh mem bits oldb k i nb
  | 0, i, bk, nb, hik, hlen, _, h1, _ => by
    unfold rehash rehash_fresh
    apply list_ext_getD bk nb hlen
    intro idx
    apply h1
    omega
  | k + 1, i, bk, nb, hik, hlen, hb, h1, h2 => by
    unfold rehash rehash_fresh
    have hi := h2 i (le_refl _) (by omega)
    have hset : bits < (bk.set i []).length := by simpa using hb
    apply rehash_eq_fresh mem bits old oldb hsplit k (i + 1) _ _ (by omega)
    · rw [rehash_chain_length, rehash_chain_length]; simpa using hlen
    · rw [rehash_chain_length]; exact hset
    · intro idx hidx
      rw [rehash_chain_getD mem bits _ _ hset, rehash_chain_getD mem bits _ _ (hlen ▸ hb),
        hi.1, getD_set_list]
      by_cases hii : idx = i
      · subst hii
        rw [hi.2]
        split_ifs with hlt
        · rfl
        · have hge : ¬ idx < bk.length := fun h => hlt ⟨rfl, h⟩
          rw [List.getD_eq_default bk [] (by omega)]
      · have : ¬ (idx = i ∧ i < bk.length) := fun h => hii h.1
        rw [if_neg this, h1 idx (by omega)]
    · intro idx hidx1 hidx2
      have hnone : (oldb.getD i []).filter (fun p => (mem p).h &&& bits = idx) = [] := by
        rw [List.filter_eq_nil_iff]
        intro p hp
        rcases hsplit i (by omega) p hp with h | h
        · simp only [decide_eq_true_eq]; omega
        · simp only [decide_eq_true_eq]; omega
      have hne : ¬ (idx = i ∧ i < bk.length) := fun h => by omega
      rw [rehash_chain_getD mem bits _ _ hset, rehash_chain_getD mem bits _ _ (hlen ▸ hb),
        hi.1, hnone, getD_set_list, if_neg hne]
      simpa using h2 idx (by omega) hidx2

/-- C23: for a table that is empty at start-up (`hash_size = 0`, no buckets) or
has `2^k ≤ 2^30` buckets, in which every state of a bucket `i` has
`h & (hash_size - 1) = i`, the `extend_table` of the parallel program run by
one thread (fresh zeroed array) and the in-place `extend_table` of the
sequential program give the same machine: the same `hash_size`, `fill_limit`
and bucket chains with the same states in the same order. -/
theorem par_extend_table_eq (m : Machine)
    (hsz : (m.hash_size = 0 ∧ m.buckets = []) ∨
      ∃ k, k ≤ 30 ∧ m.hash_size = 2 ^ k ∧ m.buckets.length = m.hash_size)
    (hinv : ∀ i p, p ∈ m.buckets.getD i [] → (m.mem p).h &&& (m.hash_size - 1) = i) :
    par_extend_table m = extend_table m ∧
    (par_extend_table m).hash_size = (extend_table m).hash_size ∧
    (par_extend_table m).fill_limit = (extend_table m).fill_limit ∧
    (par_extend_table m).buckets = (extend_table m).buckets := by
  have key : par_extend_table m = extend_table m := by
    rcases hsz with ⟨h0, hb⟩ | ⟨k, hk, hs, hl⟩
    · unfold par_extend_table extend_table
      simp only [h0, hb, ↓reduceIte, List.take_nil, List.nil_append, Nat.sub_zero, rehash,
        rehash_fresh]
    · have hpow : (2:Nat) ^ k ≤ 2 ^ 30 := Nat.pow_le_pow_right (by norm_num) hk
      have hpos : 0 < (2:Nat) ^ k := Nat.pos_pow_of_pos _ (by norm_num)
      have hne : m.hash_size ≠ 0 := by omega
      have e1 : (m.hash_size * 2) % 2 ^ 32 = 2 * m.hash_size := by
        rw [Nat.mod_eq_of_lt (by omega)]; ring
      have e3 : (2 * m.hash_size + 2 ^ 32 - 1) % 2 ^ 32 = 2 * m.hash_size - 1 := by
        have : 2 * m.hash_size + 2 ^ 32 - 1 = (2 * m.hash_size - 1) + 2 ^ 32 := by omega
        rw [this, Nat.add_mod_right, Nat.mod_eq_of_lt (by omega)]
      have e4 : 2 * m.hash_size - m.hash_size = m.hash_size := by omega
      have e5 : m.buckets.take (2 * m.hash_size) = m.buckets :=
        List.take_of_length_le (by rw [hl]; omega)
      have hre := rehash_eq_fresh m.mem (2 * m.hash_size - 1) m.hash_size m.buckets
        (by
          intro idx hidx p hp
          have := hinv idx p hp
          rw [hs] at this ⊢
          exact mask_split _ k idx this)
        m.hash_size 0 (m.buckets ++ List.replicate m.hash_size [])
        (List.replicate (2 * m.hash_size) []) (by omega)
        (by simp [hl]; omega) (by simp [hl]; omega)
        (by
          intro idx hidx
          rcases hidx with h | h
          · omega
          · rw [List.getD_append_right _ _ _ _ (by rw [hl]; exact h), getD_replicate_nil,
              getD_replicate_nil])
        (by
          intro idx _ hidx
          refine ⟨?_, getD_replicate_nil _ _⟩
          rw [List.getD_append _ _ _ _ (by rw [hl]; exact hidx)])
      unfold par_extend_table extend_table
      simp only [if_neg hne, e1, e3, e4, e5]
      rw [hre]
  exact ⟨key, by rw [key], by rw [key], by rw [key]⟩

set_option maxRecDepth 100000 in
/-- Witness for C23: the table of 1024 buckets that holds the state of slot 0
of `row_machine`. -/
theorem par_extend_table_eq_witness :
    par_extend_table (add_to_table row_board (extend_table row_machine) 0).2
      = extend_table (add_to_table row_board (extend_table row_machine) 0).2 ∧
    (par_extend_table (add_to_table row_board (extend_table row_machine) 0).2).hash_size
      = (extend_table (add_to_table row_board (extend_table row_machine) 0).2).hash_size ∧
    (par_extend_table (add_to_table row_board (extend_table row_machine) 0).2).fill_limit
      = (extend_table (add_to_table row_board (extend_table row_machine) 0).2).fill_limit ∧
    (par_extend_table (add_to_table row_board (extend_table row_machine) 0).2).buckets
      = (extend_table (add_to_table row_board (extend_table row_machine) 0).2).buckets :=
  par_extend_table_eq (add_to_table row_board (extend_table row_machine) 0).2
    (Or.inr ⟨10, by decide, by decide, by decide⟩)
    (fun i p hp =>
      ((table_built_ok row_board _
        (TableBuilt.add _ 0 (TableBuilt.init row_machine rfl rfl) rfl
          (by rw [(table_ok_start row_board row_machine rfl rfl).2.1]; simp)
          (by rw [(table_ok_start row_board row_machine rfl rfl).2.2]; norm_num))).2.2.2.1
        i p hp).2)

lemma cells_eq_cons (n : Nat) (c : List Nat) (h : c.length = n + 1) :
    c = actor c :: boxes c := by
  cases c with
  | nil => simp at h
  | cons a t => simp [actor, boxes]

/-- An accepted move on a wall-enclosed board keeps the shape of the cell array
and the actor on an interior cell. -/
lemma shape_step (b : Board) (henc : wall_enclosed b) (hfit : b.w * b.h ≤ 65536)
    (c c1 : List Nat) (d : Int × Int) (hd : d ∈ dirs)
    (hc : Shape b c) (hint : interior b (actor c))
    (hmove : move_cells b c d.1 d.2 = some c1) : Shape b c1 ∧ interior b (actor c1) := by
  obtain ⟨hlen, hnd, hcells⟩ := hc
  have hcc := cells_eq_cons b.n_boxes c hlen
  have hnd' : actor c ∉ boxes c ∧ (boxes c).Nodup := by
    rw [hcc] at hnd
    exact List.nodup_cons.mp hnd
  have hbox : ∀ v ∈ boxes c, v < b.w * b.h ∧ rd b.board v ≠ wall := by
    intro v hv
    exact hcells v (by rw [hcc]; exact List.mem_cons_of_mem _ hv)
  have hopen : rd b.board (actor c) ≠ wall :=
    (hcells _ (by rw [hcc]; exact List.mem_cons_self _ _)).2
  obtain ⟨h0, hwall, hlen1, hact, hpush, hwalk⟩ := move_cells_spec b c c1 d.1 d.2 hlen hmove
  obtain ⟨k1, k2, e1, m1, hrest⟩ := step_geometry b (actor c) d hd hint
  have hd1 : dest b c d.1 d.2 = (k1 : Int) := by unfold dest; exact e1
  rw [hd1] at hwall hpush hwalk hact h0
  rw [rdI_natCast] at hwall
  have hk1int : interior b k1 := wall_enclosed_step b henc _ k1 hint hopen m1 hwall
  have hk1lt := (interior_lt b k1 hk1int).1
  have hwpos := (interior_lt b k1 hk1int).2
  obtain ⟨e2, m2, -⟩ := hrest hk1int
  rw [e2] at hpush
  simp only [Int.toNat_ofNat] at hpush hwalk
  have hact1 : actor c1 = k1 := by
    rw [hact]
    have : ((k1 : Int) % 65536) = k1 := Int.emod_eq_of_lt (by omega) (by omega)
    rw [this]; simp
  have hk12 : k1 ≠ k2 := by
    intro he
    rw [← he] at e2
    simp only [dirs, List.mem_cons, List.mem_singleton, List.not_mem_nil, or_false] at hd
    rcases hd with rfl | rfl | rfl | rfl <;> simp at e2 <;> omega
  have hcc1 := cells_eq_cons b.n_boxes c1 hlen1
  refine ⟨⟨hlen1, ?_, ?_⟩, by rw [hact1]; exact hk1int⟩
  · rw [hcc1, hact1]
    apply List.nodup_cons.mpr
    by_cases hin : k1 ∈ boxes c
    · obtain ⟨hw2, -, hfree, hperm⟩ := hpush hin
      rw [rdI_natCast] at hw2
      have hk2int : interior b k2 := wall_enclosed_step b henc _ k2 hk1int hwall m2 hw2
      have hk2lt := (interior_lt b k2 hk2int).1
      have : ((k2 : Int) % 65536) = k2 := Int.emod_eq_of_lt (by omega) (by omega)
      rw [this] at hperm
      simp only [Int.toNat_ofNat] at hperm
      have hk2 : k2 ∉ boxes c := fun h => hfree k2 h rfl
      constructor
      · intro hmem
        rcases List.mem_cons.mp (hperm.mem_iff.mp hmem) with h | h
        · exact hk12 h
        · exact ((hnd'.2.mem_erase_iff).mp h).1 rfl
      · rw [hperm.nodup_iff]
        exact List.nodup_cons.mpr ⟨fun h => hk2 (List.mem_of_mem_erase h), hnd'.2.erase _⟩
    · have hperm := hwalk hin
      exact ⟨fun h => hin (hperm.mem_iff.mp h), hperm.nodup_iff.mpr hnd'.2⟩
  · intro v hv
    rw [hcc1, hact1] at hv
    rcases List.mem_cons.mp hv with rfl | hv
    · exact ⟨hk1lt, hwall⟩
    · by_cases hin : k1 ∈ boxes c
      · obtain ⟨hw2, -, -, hperm⟩ := hpush hin
        rw [rdI_natCast] at hw2
        have hk2int : interior b k2 := wall_enclosed_step b henc _ k2 hk1int hwall m2 hw2
        have hk2lt := (interior_lt b k2 hk2int).1
        have : ((k2 : Int) % 65536) = k2 := Int.emod_eq_of_lt (by omega) (by omega)
        rw [this] at hperm
        simp only [Int.toNat_ofNat] at hperm
        rcases List.mem_cons.mp (hperm.mem_iff.mp hv) with rfl | h
        · exact ⟨hk2lt, hw2⟩
        · exact hbox v (List.mem_of_mem_erase h)
      · exact hbox v ((hwalk hin).mem_iff.mp hv)

/-- C27: on a wall-enclosed board of at most `2^16` cells, from a cell array
with `1 + n_boxes` pairwise distinct cells inside the grid, none a wall, and the
actor on an interior cell, every cell array reached by `move_me` steps in the
four directions has the same shape: `1 + n_boxes` cells (the number of boxes is
unchanged), the actor cell and the box cells pairwise distinct, all inside the
grid and none a wall; the actor stays on an interior cell. -/
theorem reachable_states_keep_shape (b : Board) (henc : wall_enclosed b)
    (hfit : b.w * b.h ≤ 65536) :
    ∀ (ds : List (Int × Int)) (c0 c : List Nat), Shape b c0 → interior b (actor c0) →
      (∀ d ∈ ds, d ∈ dirs) → run_cells b ds c0 = some c →
      Shape b c ∧ interior b (actor c)
  | [], c0, c, hs, hint, _, hrun => by
    simp only [run_cells, Option.some.injEq] at hrun
    subst hrun
    exact ⟨hs, hint⟩
  | d :: ds, c0, c, hs, hint, hds, hrun => by
    unfold run_cells at hrun
    cases hm : move_cells b c0 d.1 d.2 with
    | none => rw [hm] at hrun; simp at hrun
    | some c1 =>
      rw [hm] at hrun
      obtain ⟨s1, i1⟩ := shape_step b henc hfit c0 c1 d (hds d (List.mem_cons_self _ _)) hs hint hm
      exact reachable_states_keep_shape b henc hfit ds c1 c s1 i1
        (fun x hx => hds x (List.mem_cons_of_mem _ hx)) hrun

/-- Witness for C27: on the board of `push_layout`, the two pushes to the left
from the initial cells 12, 11. -/
theorem reachable_states_keep_shape_witness :
    Shape push_parsed.1 [10, 9] ∧ interior push_parsed.1 (actor [10, 9]) :=
  reachable_states_keep_shape push_parsed.1 (by decide) (by decide)
    [(0, -1), (0, -1)] [12, 11] [10, 9] (by decide) (by decide) (by decide) (by decide)

/-! ## Concurrent fills -/

lemma push_all_mem (cap : Nat) : ∀ (ns st st1 : List Nat), push_all cap st ns = some st1 →
    ∀ n, n ∈ st1 ↔ n ∈ ns ∨ n ∈ st
  | [], st, st1, h, n => by
    simp only [push_all, Option.some.injEq] at h
    subst h
    simp
  | x :: ns, st, st1, h, n => by
    unfold push_all at h
    split at h
    · rw [push_all_mem cap ns (x :: st) st1 h n]
      simp only [List.mem_cons]
      tauto
    · simp at h

lemma mem_of_get? {ts : List Task} {i : Nat} {t : Task} (h : ts.get? i = some t) : t ∈ ts := by
  exact List.get?_mem h

lemma mem_set_self {ts : List Task} {i : Nat} {t : Task} (h : ts.get? i = some t) (t1 : Task) :
    t1 ∈ ts.set i t1 := by
  rw [List.get?_eq_getElem?] at h
  have hi : i < ts.length := by
    by_contra hge
    rw [List.getElem?_eq_none (by omega)] at h
    simp at h
  exact List.mem_set ts i hi t1

lemma mem_set_of_mem : ∀ {ts : List Task} {i : Nat} {t : Task}, ts.get? i = some t →
    ∀ (t1 u : Task), u ∈ ts → u = t ∨ u ∈ ts.set i t1
  | [], _, _, h, _, _, _ => by simp at h
  | a :: ts, 0, t, h, t1, u, hu => by
    simp only [List.get?_cons_zero, Option.some.injEq] at h
    subst h
    rcases List.mem_cons.mp hu with rfl | hu
    · exact Or.inl rfl
    · exact Or.inr (by simp [hu])
  | a :: ts, i + 1, t, h, t1, u, hu => by
    simp only [List.get?_cons_succ] at h
    rcases List.mem_cons.mp hu with rfl | hu
    · exact Or.inr (by simp)
    · rcases mem_set_of_mem h t1 u hu with h1 | h1
      · exact Or.inl h1
      · exact Or.inr (by simp [h1])

/-- The invariant of the concurrent fills is kept when one task replaces its
stack and pending cell, the array is unchanged or gets the flag of a cell of the
pull closure whose guarded neighbours are on the new stack, every cell the task
held is marked or still held, and every cell it holds is a grid cell of the pull
closure. -/
lemma par_inv_update (b : Board) (live live1 : List Nat) (ts : List Task) (i : Nat)
    (t t1 : Task) (hinv : ParInv b live ts) (hget : ts.get? i = some t)
    (hlive : live1 = live ∨ ∃ c, c < b.w * b.h ∧ Pull b c ∧ live1 = live.set c 1 ∧
      ∀ n ∈ live_next b c, n ∈ t1.stack)
    (hkeep : ∀ n, (n ∈ t.stack ∨ t.pending = some n) →
      rd live1 n ≠ 0 ∨ n ∈ t1.stack ∨ t1.pending = some n)
    (hnew : ∀ n, (n ∈ t1.stack ∨ t1.pending = some n) → Pull b n ∧ n < b.w * b.h) :
    ParInv b live1 (ts.set i t1) := by
  obtain ⟨i1, i2, i3, i4, i5⟩ := hinv
  have hmark : ∀ x, rd live x ≠ 0 → rd live1 x ≠ 0 := by
    intro x hx
    rcases hlive with rfl | ⟨c, -, -, rfl, -⟩
    · exact hx
    · rw [rd_set]
      split_ifs
      · simp
      · exact hx
  have hcov : ∀ n, Covered live ts n → Covered live1 (ts.set i t1) n := by
    intro n hn
    rcases hn with h | ⟨u, hu, h⟩
    · exact Or.inl (hmark n h)
    · rcases mem_set_of_mem hget t1 u hu with rfl | hu1
      · rcases hkeep n h with h1 | h1
        · exact Or.inl h1
        · exact Or.inr ⟨t1, mem_set_self hget t1, h1⟩
      · exact Or.inr ⟨u, hu1, h⟩
  refine ⟨?_, ?_, ?_, ?_, fun g hg1 hg2 => hcov g (i5 g hg1 hg2)⟩
  · rcases hlive with rfl | ⟨c, -, -, rfl, -⟩
    · exact i1
    · simpa using i1
  · intro x
    rcases hlive with rfl | ⟨c, -, -, rfl, -⟩
    · exact i2 x
    · rw [rd_set]
      split_ifs
      · exact Or.inr rfl
      · exact i2 x
  · intro x hx
    by_cases hx0 : rd live x ≠ 0
    · exact ⟨(i3 x hx0).1, fun n hn => hcov n ((i3 x hx0).2 n hn)⟩
    · rcases hlive with rfl | ⟨c, hc1, hc2, rfl, hc3⟩
      · exact absurd hx hx0
      · have hxc : x = c := by
          by_contra hne
          rw [rd_set] at hx
          simp only [hne, false_and, if_false] at hx
          exact hx0 hx
        subst hxc
        exact ⟨hc2, fun n hn => Or.inr ⟨t1, mem_set_self hget t1, Or.inl (hc3 n hn)⟩⟩
  · intro u hu n hn
    rcases List.mem_or_eq_of_mem_set hu with h | rfl
    · exact i4 u h n hn
    · exact hnew n hn

/-- One action of a task keeps the invariant of the concurrent fills. -/
lemma task_step_inv (b : Board) (live live1 : List Nat) (ts : List Task) (i : Nat)
    (t t1 : Task) (hinv : ParInv b live ts) (hget : ts.get? i = some t)
    (hstep : task_step b live t = some (live1, t1)) : ParInv b live1 (ts.set i t1) := by
  have hold := hinv.2.2.2.1 t (mem_of_get? hget)
  unfold task_step at hstep
  cases hp : t.pending with
  | some c =>
    rw [hp] at hstep
    simp only at hstep
    cases hpush : push_all (b.w * b.h) t.stack (live_next b c) with
    | none => rw [hpush] at hstep; simp at hstep
    | some st =>
      rw [hpush] at hstep
      simp only [Option.some.injEq, Prod.mk.injEq] at hstep
      obtain ⟨rfl, rfl⟩ := hstep
      have hmem := push_all_mem _ _ _ _ hpush
      obtain ⟨hc1, hc2⟩ := hold c (Or.inr hp)
      refine par_inv_update b live _ ts i t _ hinv hget
        (Or.inr ⟨c, hc2, hc1, rfl, fun n hn => (hmem n).mpr (Or.inl hn)⟩) ?_ ?_
      · intro n hn
        rcases hn with h | h
        · exact Or.inr (Or.inl ((hmem n).mpr (Or.inr h)))
        · rw [hp] at h
          injection h with h
          subst h
          left
          rw [rd_set, if_pos ⟨rfl, by rw [hinv.1]; exact hc2⟩]
          simp
      · intro n hn
        rcases hn with h | h
        · rcases (hmem n).mp h with h1 | h1
          · exact ⟨Pull.step c n hc1 ((mem_live_next b c n).mp h1),
              pull_step_in_grid b c n hc2 ((mem_live_next b c n).mp h1)⟩
          · exact hold n (Or.inl h1)
        · simp at h
  | none =>
    rw [hp] at hstep
    simp only at hstep
    cases hs : t.stack with
    | nil =>
      rw [hs] at hstep
      simp only [Option.some.injEq, Prod.mk.injEq] at hstep
      obtain ⟨rfl, rfl⟩ := hstep
      exact par_inv_update b live live ts i t t hinv hget (Or.inl rfl)
        (fun n hn => Or.inr hn) hold
    | cons c st =>
      rw [hs] at hstep
      simp only at hstep
      split at hstep
      · rename_i hm
        simp only [Option.some.injEq, Prod.mk.injEq] at hstep
        obtain ⟨rfl, rfl⟩ := hstep
        refine par_inv_update b live live ts i t _ hinv hget (Or.inl rfl) ?_ ?_
        · intro n hn
          rcases hn with h | h
          · rw [hs] at h
            rcases List.mem_cons.mp h with rfl | h1
            · exact Or.inl hm
            · exact Or.inr (Or.inl h1)
          · rw [hp] at h; simp at h
        · intro n hn
          rcases hn with h | h
          · exact hold n (Or.inl (by rw [hs]; exact List.mem_cons_of_mem _ h))
          · simp at h
      · simp only [Option.some.injEq, Prod.mk.injEq] at hstep
        obtain ⟨rfl, rfl⟩ := hstep
        refine par_inv_update b live live ts i t _ hinv hget (Or.inl rfl) ?_ ?_
        · intro n hn
          rcases hn with h | h
          · rw [hs] at h
            rcases List.mem_cons.mp h with rfl | h1
            · exact Or.inr (Or.inr rfl)
            · exact Or.inr (Or.inl h1)
          · rw [hp] at h; simp at h
        · intro n hn
          rcases hn with h | h
          · exact hold n (Or.inl (by rw [hs]; exact List.mem_cons_of_mem _ h))
          · simp only [Option.some.injEq] at h
            subst h
            exact hold _ (Or.inl (by rw [hs]; exact List.mem_cons_self _ _))

/-- Every interleaving that does not overflow a stack keeps the invariant. -/
lemma par_run_inv (b : Board) : ∀ (sched live : List Nat) (ts : List Task) (live1 : List Nat)
    (ts1 : List Task), ParInv b live ts → par_run b sched live ts = Par.run live1 ts1 →
    ParInv b live1 ts1
  | [], live, ts, live1, ts1, hinv, h => by
    simp only [par_run, Par.run.injEq] at h
    obtain ⟨rfl, rfl⟩ := h
    exact hinv
  | i :: sched, live, ts, live1, ts1, hinv, h => by
    unfold par_run at h
    cases hget : ts.get? i with
    | none =>
      rw [hget] at h
      exact par_run_inv b sched live ts live1 ts1 hinv h
    | some t =>
      rw [hget] at h
      simp only at h
      cases hstep : task_step b live t with
      | none => rw [hstep] at h; simp at h
      | some r =>
        obtain ⟨l2, t2⟩ := r
        rw [hstep] at h
        exact par_run_inv b sched l2 (ts.set i t2) live1 ts1
          (task_step_inv b live l2 ts i t t2 hinv hget hstep) h

/-- The invariant holds when the tasks are spawned on the zeroed array. -/
lemma par_inv_spawn (b : Board) : ParInv b (List.replicate (b.w * b.h) 0) (spawn b) := by
  refine ⟨by simp, fun x => Or.inl (rd_replicate_zero _ _), ?_, ?_, ?_⟩
  · intro x hx
    exact absurd (rd_replicate_zero _ _) hx
  · intro t ht n hn
    unfold spawn at ht
    obtain ⟨g, hg, rfl⟩ := List.mem_map.mp ht
    simp only [List.mem_filter, List.mem_range, decide_eq_true_eq] at hg
    rcases hn with h | h
    · rw [List.mem_singleton] at h
      subst h
      exact ⟨Pull.goal n hg.2, hg.1⟩
    · simp at h
  · intro g hg1 hg2
    refine Or.inr ⟨⟨[g], none⟩, ?_, Or.inl (List.mem_singleton.mpr rfl)⟩
    unfold spawn
    exact List.mem_map.mpr ⟨g, by simp [hg1, hg2], rfl⟩

/-- Every interleaving of the concurrent fills in which no task overflows its
stack and all tasks return ends with the array of the pull closure: `w * h`
flags, each `0` or `1`, and `1` exactly on the cells of the pull closure. -/
lemma par_run_complete (b : Board) (hgl : b.goals.length = b.w * b.h) (sched live : List Nat)
    (ts : List Task)
    (hrun : par_run b sched (List.replicate (b.w * b.h) 0) (spawn b) = Par.run live ts)
    (hfin : Finished ts) :
    live.length = b.w * b.h ∧ (∀ x, rd live x = 0 ∨ rd live x = 1) ∧
    ∀ c, rd live c = 1 ↔ Pull b c := by
  obtain ⟨i1, i2, i3, -, i5⟩ := par_run_inv b sched _ _ live ts (par_inv_spawn b) hrun
  have hcov : ∀ n, Covered live ts n → rd live n ≠ 0 := by
    intro n hn
    rcases hn with h | ⟨t, ht, h⟩
    · exact h
    · obtain ⟨f1, f2⟩ := hfin t ht
      rw [f1, f2] at h
      simp at h
  refine ⟨i1, i2, fun c => ⟨fun h => (i3 c (by rw [h]; simp)).1, fun h => ?_⟩⟩
  have hne : rd live c ≠ 0 := by
    induction h with
    | goal g hg => exact hcov g (i5 g (hgl ▸ rd_lt_of_ne_zero hg) hg)
    | step x n _ hs ih => exact hcov n ((i3 x ih).2 n ((mem_live_next b x n).mpr hs))
  rcases i2 c with h | h
  · exact absurd h hne
  · exact h

set_option maxRecDepth 1000000 in
set_option maxHeartbeats 4000000 in
/-- C21 (failing input): on the board of the wall-enclosed `room_layout` the
loop has one task for each of the goal cells 19 and 159. In the interleaving in
which the task of cell 19 takes the first 221 actions, that task makes a push
with `top = 180`, beyond the `w * h` entries of its stack, and the fills do not
end with a `live` array, while the fill of the sequential `parse_board`
returns. -/
theorem concurrent_fill_overflows :
    spawn (scanned 18 10 room_layout) = [⟨[19], none⟩, ⟨[159], none⟩] ∧
    par_run (scanned 18 10 room_layout) (List.replicate 221 0) (List.replicate 180 0)
      (spawn (scanned 18 10 room_layout)) = Par.overflow ∧
    (parse_board 18 10 room_layout 181 fresh_machine).isSome = true := by
  refine ⟨by decide, by decide, by decide⟩

end Sokoban
